import Mathlib

/-!
Othello engine (`src/src/chris.c`): board, move generator, evaluator and search.

A shallow embedding of the C program.  C `int` values are `Int`; the values that
occur (cell indices, piece counts, scores below 1000000 in absolute value) are far
from the 32-bit limits, so no wrap-around is modelled.  The global `board` (an
`int` array of `BOARDSIZE` cells) is the list of its cells; a read outside the
array yields 0 and a write outside it is dropped, and the theorems below show that
on a well-formed board every access of the move generator stays inside the array.
`while` loops without a syntactic bound carry an iteration budget and return `none`
when it is used up.
-/

namespace Othello

/-! ## Constants (chris.c lines 23-92) -/

def STARTING_MAX_DEPTH : Int := 7
def MAX_DEPTH : Int := 15

def UNSTABLE : Int := 0
def H_BORDER : Int := 1
def V_BORDER : Int := 2
def UDD_BORDER : Int := 4
def DUD_BORDER : Int := 8
def STABLE : Int := 15

def TRUE : Int := 1
def FALSE : Int := 0

def EMPTY : Int := 0
def BLACK : Int := 1
def WHITE : Int := 2
def OUTER : Int := 3

def ALLDIRECTIONS : List Int := [-11, -10, -9, -1, 1, 9, 10, 11]
def BOARDSIZE : Int := 100

/-- Quotient of C `int` division `a / b`, which truncates toward zero. -/
def cdiv (a b : Int) : Int := Int.tdiv a b

/-- Remainder of C `int` division `a % b`; it has the sign of `a`. -/
def cmod (a b : Int) : Int := Int.tmod a b

/-- An `int` array such as the global `board`: the list of its cells. -/
structure Board where
  cells : List Int
deriving DecidableEq

/-- The read `board[i]`. -/
def Board.cell (b : Board) (i : Int) : Int :=
  if i < 0 then 0 else b.cells.getD i.toNat 0

instance : CoeFun Board (fun _ => Int → Int) := ⟨Board.cell⟩

/-- The assignment `board[c] = v`. -/
def setCell (b : Board) (c v : Int) : Board :=
  if 0 ≤ c ∧ c < b.cells.length then ⟨b.cells.set c.toNat v⟩ else b

/-! ## Move strings (chris.c lines 396-413)

A C string is the list of its character codes before the terminating NUL. -/

/-- The character code of `'0'`. -/
def CHAR_0 : Int := 48

/-- The character code of `'\n'`. -/
def CHAR_NL : Int := 10

/-- Reads `s[i]`; the cell right after the last character holds the NUL. -/
def charAt (s : List Int) (i : Nat) : Int := s.getD i 0

/-- Embeds `get_move_string`: the string left in `ms`, that is `ms[0]`, `ms[1]`,
`ms[2]` (`ms[3]` is the NUL).  For a playable `loc` both digits are in `'0'..'7'`,
so the narrowing from `int` to `char` changes nothing. -/
def get_move_string (loc : Int) : List Int :=
  let new_loc := loc - (9 + 2 * cdiv loc 10)
  let row := cdiv new_loc 8
  let col := cmod new_loc 8
  [row + CHAR_0, col + CHAR_0, CHAR_NL]

/-- Embeds `get_loc`. -/
def get_loc (movestring : List Int) : Int :=
  let row := charAt movestring 0 - CHAR_0
  let col := charAt movestring 1 - CHAR_0
  (10 * (row + 1)) + col + 1

/-! ## Move generator (chris.c lines 415-462) -/

/-- Embeds `opponent`; the log line written for an illegal player is not modelled. -/
def opponent (player : Int) : Int :=
  if player = BLACK then WHITE
  else if player = WHITE then BLACK
  else EMPTY

/-- Embeds `validp`.  The `&&` chain evaluates `move%10` only when `move >= 11`. -/
def validp (move : Int) : Int :=
  if move ≥ 11 ∧ move ≤ 88 ∧ cmod move 10 ≥ 1 ∧ cmod move 10 ≤ 8 then 1 else 0

/-- The loop of `find_bracket_piece`, with a budget of loop tests: `none` when the
budget is used up before the loop leaves. -/
def find_bracket_piece_fuel (b : Board) (dir player : Int) : Nat → Int → Option Int
  | 0, _ => none
  | n + 1, square =>
    if b square = opponent player then find_bracket_piece_fuel b dir player n (square + dir)
    else if b square = player then some square
    else some 0

/-- Embeds `find_bracket_piece`.  The walk is given `BOARDSIZE` loop tests; on a
well-formed board it leaves after at most eight (`would_flip_char`). -/
def find_bracket_piece (b : Board) (square dir player : Int) : Int :=
  (find_bracket_piece_fuel b dir player 100 square).getD 0

/-- Embeds `would_flip`. -/
def would_flip (b : Board) (move dir player : Int) : Int :=
  let c := move + dir
  if b c = opponent player then find_bracket_piece b (c + dir) dir player
  else 0

/-- Embeds `legalp`: the `while` loop looks for the first direction that flips. -/
def legalp (b : Board) (move player : Int) : Int :=
  if validp move = 0 then 0
  else if b move = EMPTY then
    if ALLDIRECTIONS.all (fun d => decide (would_flip b move d player = 0)) then 0 else 1
  else 0

/-- The values `move` takes in `for (move = 11; move <= 88; move++)`. -/
def SQUARES : List Int := (List.range 78).map (fun (k : Nat) => (11 : Int) + (k : Int))

/-- Embeds `legal_moves`: the cells `moves[0..n]` after the call, the count first. -/
def legal_moves (b : Board) (player : Int) : List Int :=
  let found := SQUARES.filter (fun move => decide (legalp b move player ≠ 0))
  (found.length : Int) :: found

/-! ## Applying a move (chris.c lines 588-604, 624-630, 663-668) -/

/-- The `do ... while (c != bracketer)` loop of `make_flips`, with a budget of loop
bodies: `none` when the budget is used up before the loop leaves. -/
def flip_run_fuel (dir player bracketer : Int) : Nat → Board → Int → Option Board
  | 0, _, _ => none
  | n + 1, b, c =>
    let b1 := setCell b c player
    let c1 := c + dir
    if c1 ≠ bracketer then flip_run_fuel dir player bracketer n b1 c1 else some b1

/-- Embeds `make_flips`.  The loop is given `BOARDSIZE` bodies; when `bracketer` comes
from `would_flip` on a well-formed board it leaves after at most seven. -/
def make_flips (b : Board) (move dir player : Int) : Board :=
  let bracketer := would_flip b move dir player
  if bracketer ≠ 0 then (flip_run_fuel dir player bracketer 100 b (move + dir)).getD b
  else b

/-- Embeds `make_move`. -/
def make_move (b : Board) (move player : Int) : Board :=
  ALLDIRECTIONS.foldl (fun bd d => make_flips bd move d player) (setCell b move player)

/-- Embeds `count`: `i` runs from 1 to 88. -/
def count (player : Int) (b : Board) : Int :=
  (((List.range 88).map (fun (k : Nat) => (1 : Int) + (k : Int))).countP
    (fun i => decide (b i = player)) : Nat)

/-- Embeds `copy_board(original, copy)`: the new content of `copy`, whose first
`BOARDSIZE` cells are those of `original`. -/
def copy_board (original copy : Board) : Board :=
  ⟨(List.range 100).map (fun (i : Nat) => original (i : Int)) ++ copy.cells.drop 100⟩

/-- Embeds `initialise_board`: the three loops fill the 100 cells of the fresh block,
then the four centre squares are set. -/
def initialise_board : Board :=
  let b0 : Board := ⟨(List.range 100).map (fun (i : Nat) =>
    if i ≤ 9 then OUTER
    else if i ≤ 89 then (if cmod (i : Int) 10 ≥ 1 ∧ cmod (i : Int) 10 ≤ 8 then EMPTY else OUTER)
    else OUTER)⟩
  setCell (setCell (setCell (setCell b0 44 WHITE) 45 BLACK) 54 BLACK) 55 WHITE

/-- A block of `BOARDSIZE` cells obtained from `calloc`: all zeros. -/
def zeroMem : Board := ⟨List.replicate 100 0⟩

/-- Well-formed board: 100 cells, of which those `validp` rejects (row 0, row 9,
column 0, column 9) are `OUTER` and the 64 playable ones are `EMPTY`, `BLACK` or
`WHITE`. -/
def WellFormed (b : Board) : Prop :=
  b.cells.length = 100 ∧ ∀ i : Int, 0 ≤ i → i < 100 →
    (validp i = 0 → b i = OUTER) ∧ (validp i ≠ 0 → (b i = EMPTY ∨ b i = BLACK ∨ b i = WHITE))

/-- The ring invariant alone: 100 cells, of which the ring cells are `OUTER` and the
playable cells are not. -/
def RingInv (b : Board) : Prop :=
  b.cells.length = 100 ∧ ∀ i : Int, 0 ≤ i → i < 100 →
    (validp i = 0 → b i = OUTER) ∧ (validp i ≠ 0 → b i ≠ OUTER)

/-- Cell `sq + j*dir` is the first one, walking from `sq` in direction `dir`, that
does not hold the opponent of `player`. -/
def Run (b : Board) (dir player sq : Int) (j : Nat) : Prop :=
  (∀ i : Nat, i < j → b (sq + i * dir) = opponent player) ∧ b (sq + j * dir) ≠ opponent player

/-- Cell `c` lies strictly between `m` and the piece that `would_flip` reports, on
board `b`, for `player` in direction `dir` (and `would_flip` does report one). -/
def Flips (b : Board) (m player dir c : Int) : Prop :=
  would_flip b m dir player ≠ 0 ∧
    ∃ k t : Nat, would_flip b m dir player = m + (k : Int) * dir ∧ 1 ≤ t ∧ t < k ∧
      c = m + (t : Int) * dir

/-- Invariant of the direction loop of `make_move` once the directions `done` have been
processed: the square holds the player, the cells bracketed on the original board `b`
in a processed direction hold the player, every other cell is as in `b`. -/
def MoveInv (b : Board) (m P : Int) (done : List Int) (bd : Board) : Prop :=
  bd.cells.length = 100 ∧ bd m = P ∧ (∀ c, c ≠ m → (∃ d ∈ done, Flips b m P d c) → bd c = P) ∧
    (∀ c, c ≠ m → (¬ ∃ d ∈ done, Flips b m P d c) → bd c = b c)

/-! ## Process state

The globals `board`, `max_colour` and `timeout`, and what the process sees of its
message queue.  `inbox` lists what the successive calls
`MPI_Iprobe(0, TIMEOUT_TAG, ...)` find: `true` when a TIMEOUT message of the
coordinator is pending (it is then received into `timeout`; both places that send it,
chris.c lines 538 and 546, send the value `TRUE`), `false` when none is; an exhausted
list means no message ever comes.  `gen_calls` is not a variable of the program: it
counts the calls of `legal_moves` made so far. -/

structure State where
  board : Board
  max_colour : Int
  timeout : Int
  inbox : List Bool
  gen_calls : Nat

/-- Embeds `MPI_Iprobe(0, TIMEOUT_TAG, ..., &flag, ...)`: the flag. -/
def probe_flag (s : State) : Bool := s.inbox.headD false

/-- The state after the probe, and after the `MPI_Recv(&timeout, ...)` that follows it
when the flag is set. -/
def probe_recv (s : State) : State :=
  if probe_flag s then { s with inbox := s.inbox.tail, timeout := TRUE }
  else { s with inbox := s.inbox.tail }

/-! ## Evaluator (chris.c lines 34-69, 674-824) -/

/-- Embeds the bit test `type & bit` of the macros `IS_H_BORDER` .. `IS_DUD_BORDER`. -/
def band (type bit : Int) : Int := Int.land type bit

/-- Embeds the macro `IS_LOOP_COMPLETED`. -/
def IS_LOOP_COMPLETED (loc : Int) : Bool :=
  decide (loc = 21 ∨ loc = 32 ∨ loc = 43 ∨ loc = 54)

def spiral : List Int :=
  [11, 12, 13, 14, 15, 16, 17, 18,
   28, 38, 48, 58, 68, 78, 88,
   87, 86, 85, 84, 83, 82, 81,
   71, 61, 51, 41, 31, 21,
   22, 23, 24, 25, 26, 27,
   37, 47, 57, 67, 77,
   76, 75, 74, 73, 72,
   62, 52, 42, 32,
   33, 34, 35, 36,
   46, 56, 66,
   65, 64, 63,
   53, 43,
   44, 45,
   55, 54]

/-- Embeds `eval_parity`. -/
def eval_parity (s : State) : Int :=
  let max_val := count s.max_colour s.board
  let min_val := count (opponent s.max_colour) s.board
  if min_val = 0 then 10000
  else cdiv (100 * (max_val - min_val)) (max_val + min_val)

/-- Embeds `eval_mobility`; it calls `legal_moves` twice. -/
def eval_mobility (s : State) : Int × State :=
  let max_val := (legal_moves s.board s.max_colour).headD 0
  let min_val := (legal_moves s.board (opponent s.max_colour)).headD 0
  let s1 := { s with gen_calls := s.gen_calls + 2 }
  if max_val + min_val = 0 then (0, s1)
  else (cdiv (100 * (max_val - min_val)) (max_val + min_val), s1)

/-- Embeds `eval_corners`. -/
def eval_corners (s : State) : Int :=
  let b := s.board
  let c := s.max_colour
  let o := opponent s.max_colour
  let max_val : Int := (if b 11 = c then 1 else 0) + (if b 18 = c then 1 else 0)
    + (if b 81 = c then 1 else 0) + (if b 88 = c then 1 else 0)
  let min_val : Int := (if b 11 = o then 1 else 0) + (if b 18 = o then 1 else 0)
    + (if b 81 = o then 1 else 0) + (if b 88 = o then 1 else 0)
  if max_val + min_val = 0 then 0
  else cdiv (100 * (max_val - min_val)) (max_val + min_val)

/-- The local variables of `eval_stability` that live across iterations. -/
structure StabAcc where
  stability_board : Board
  unstable_loop : Int
  max_val : Int
  min_val : Int

/-- The `value` that one iteration of `eval_stability` computes for the piece on `loc`. -/
def stability_value (board stab : Board) (loc : Int) : Int :=
  let h : Int :=
    if cmod loc 10 = 1 ∨ cmod loc 10 = 8 then H_BORDER
    else if (board loc = board (loc - 1) ∧ band (stab (loc - 1)) H_BORDER ≠ 0) ∨
        (board loc = board (loc + 1) ∧ band (stab (loc + 1)) H_BORDER ≠ 0) then H_BORDER
    else 0
  let v : Int :=
    if cdiv loc 10 = 1 ∨ cdiv loc 10 = 8 then V_BORDER
    else if (board loc = board (loc - 10) ∧ band (stab (loc - 10)) V_BORDER ≠ 0) ∨
        (board loc = board (loc + 10) ∧ band (stab (loc + 10)) V_BORDER ≠ 0) then V_BORDER
    else 0
  let udd : Int :=
    if cmod loc 10 = 1 ∨ cmod loc 10 = 8 ∨ cdiv loc 10 = 1 ∨ cdiv loc 10 = 8 then UDD_BORDER
    else if (board loc = board (loc - 11) ∧ band (stab (loc - 11)) UDD_BORDER ≠ 0) ∨
        (board loc = board (loc + 11) ∧ band (stab (loc + 11)) UDD_BORDER ≠ 0) then UDD_BORDER
    else 0
  let dud : Int :=
    if cmod loc 10 = 1 ∨ cmod loc 10 = 8 ∨ cdiv loc 10 = 1 ∨ cdiv loc 10 = 8 then DUD_BORDER
    else if (board loc = board (loc - 9) ∧ band (stab (loc - 9)) DUD_BORDER ≠ 0) ∨
        (board loc = board (loc + 9) ∧ band (stab (loc + 9)) DUD_BORDER ≠ 0) then DUD_BORDER
    else 0
  0 + h + v + udd + dud

/-- The part of one iteration of `eval_stability` after `value` is known, up to the
test that may leave the loop: the new local variables, and whether the loop is left. -/
def stability_update (board : Board) (max_colour loc value : Int) (acc : StabAcc) :
    StabAcc × Bool :=
  let max_val :=
    if board loc = max_colour then
      (if value = STABLE then acc.max_val + 1
       else if value = UNSTABLE then acc.max_val - 1 else acc.max_val)
    else acc.max_val
  let min_val :=
    if board loc = max_colour then acc.min_val
    else
      (if value = STABLE then acc.min_val + 1
       else if value = UNSTABLE then acc.min_val - 1 else acc.min_val)
  let stab := setCell acc.stability_board loc value
  let unstable_loop :=
    if band value H_BORDER ≠ 0 ∨ band value V_BORDER ≠ 0 ∨ band value UDD_BORDER ≠ 0 ∨
        band value DUD_BORDER ≠ 0 then FALSE
    else acc.unstable_loop
  if IS_LOOP_COMPLETED loc = true ∧ unstable_loop ≠ 0 then
    (⟨stab, unstable_loop, max_val, min_val⟩, true)
  else
    (⟨stab, TRUE, max_val, min_val⟩, false)

/-- The `for` loop of `eval_stability` over the squares of the spiral still to visit:
`none` when a TIMEOUT message made the function return, else the local variables when
the loop is left. -/
def stability_loop : List Int → StabAcc → State → Option StabAcc × State
  | [], acc, s => (some acc, s)
  | loc :: rest, acc, s =>
    if probe_flag s = true then (none, probe_recv s)
    else
      let s1 := probe_recv s
      if s1.board loc = EMPTY then stability_loop rest acc s1
      else
        let value := stability_value s1.board acc.stability_board loc
        let r := stability_update s1.board s1.max_colour loc value acc
        if r.2 = true then (some r.1, s1) else stability_loop rest r.1 s1

/-- Embeds `eval_stability`. -/
def eval_stability (s : State) : Int × State :=
  match stability_loop spiral ⟨zeroMem, TRUE, 0, 0⟩ s with
  | (none, s1) => (-100000, s1)
  | (some acc, s1) =>
    if acc.max_val + acc.min_val = 0 then (0, s1)
    else (cdiv (100 * (acc.max_val - acc.min_val)) (acc.max_val + acc.min_val), s1)

/-- Embeds `eval_position`. -/
def eval_position (s : State) : Int × State :=
  let moves := count s.max_colour s.board + count (opponent s.max_colour) s.board
  if moves < 14 then
    let parity := 5 * eval_parity s
    let corners := 30 * eval_corners s
    let m := eval_mobility s
    let mobility := 10 * m.1
    let st := eval_stability m.2
    let stability := 20 * st.1
    (parity + corners + mobility + stability, st.2)
  else if moves < 64 - STARTING_MAX_DEPTH then
    let parity := 25 * eval_parity s
    let corners := 30 * eval_corners s
    let m := eval_mobility s
    let mobility := m.1
    let st := eval_stability m.2
    let stability := 25 * st.1
    (parity + corners + mobility + stability, st.2)
  else
    (eval_parity s + 0 + 0 + 0, s)

/-! ## Search (chris.c lines 832-886) -/

/-- The `for` loop of the maximizing branch of `minimax` over the moves still to try;
`child alpha beta` is the recursive call `minimax(opponent(current_colour), depth-1,
alpha, beta)`. -/
def max_loop (child : Int → Int → State → Int × State) (board_copy : Board)
    (current_colour : Int) : List Int → Int → Int → Int → State → Int × State
  | [], max_eval, _, _, s => (max_eval, s)
  | move :: rest, max_eval, alpha, beta, s =>
    let s1 := { s with board := make_move s.board move current_colour }
    let r := child alpha beta s1
    let eval := r.1
    let s2 := { r.2 with board := copy_board board_copy r.2.board }
    let max_eval := if eval > max_eval then eval else max_eval
    let alpha := if max_eval > alpha then max_eval else alpha
    if beta ≤ alpha then (max_eval, s2)
    else max_loop child board_copy current_colour rest max_eval alpha beta s2

/-- The `for` loop of the minimizing branch of `minimax`. -/
def min_loop (child : Int → Int → State → Int × State) (board_copy : Board)
    (current_colour : Int) : List Int → Int → Int → Int → State → Int × State
  | [], min_eval, _, _, s => (min_eval, s)
  | move :: rest, min_eval, alpha, beta, s =>
    let s1 := { s with board := make_move s.board move current_colour }
    let r := child alpha beta s1
    let eval := r.1
    let s2 := { r.2 with board := copy_board board_copy r.2.board }
    let min_eval := if eval < min_eval then eval else min_eval
    let beta := if min_eval < beta then min_eval else beta
    if beta ≤ alpha then (min_eval, s2)
    else min_loop child board_copy current_colour rest min_eval alpha beta s2

/-- Embeds `minimax(current_colour, depth, alpha, beta)`, for `depth >= 0`: the
returned score and the state left behind.  `board_copy` starts as a zeroed block. -/
def minimax : Nat → Int → Int → Int → State → Int × State
  | 0, current_colour, _, _, s =>
    let s1 := probe_recv s
    if s1.timeout ≠ 0 then (-100000, s1)
    else
      let _moves := legal_moves s1.board current_colour
      let s2 := { s1 with gen_calls := s1.gen_calls + 1 }
      eval_position s2
  | depth + 1, current_colour, alpha, beta, s =>
    let s1 := probe_recv s
    if s1.timeout ≠ 0 then (-100000, s1)
    else
      let moves := legal_moves s1.board current_colour
      let s2 := { s1 with gen_calls := s1.gen_calls + 1 }
      if moves.headD 0 = 0 then eval_position s2
      else
        let board_copy := copy_board s2.board zeroMem
        if current_colour = s2.max_colour then
          max_loop (fun a b st => minimax depth (opponent current_colour) a b st)
            board_copy current_colour moves.tail (-1000000) alpha beta s2
        else
          min_loop (fun a b st => minimax depth (opponent current_colour) a b st)
            board_copy current_colour moves.tail 1000000 alpha beta s2

/-- The score `eval_position` gives a board when no TIMEOUT message comes. -/
def eval_value (max_colour : Int) (b : Board) : Int :=
  (eval_position ⟨b, max_colour, FALSE, [], 0⟩).1

/-- Depth-limited minimax without pruning, as the specification words it: the
evaluation at depth 0 or when the side to move has no legal move, else the greatest
(side to move is `max_colour`) or the least of the values of the positions after each
legal move. -/
def plain_minimax (max_colour : Int) : Nat → Int → Board → Int
  | 0, _, b => eval_value max_colour b
  | depth + 1, player, b =>
    match (legal_moves b player).tail with
    | [] => eval_value max_colour b
    | move :: rest =>
      let first := plain_minimax max_colour depth (opponent player) (make_move b move player)
      let others := rest.map (fun m =>
        plain_minimax max_colour depth (opponent player) (make_move b m player))
      if player = max_colour then others.foldl max first else others.foldl min first

/-- No timeout is raised: the flag is clear and no TIMEOUT message comes. -/
def Quiet (s : State) : Prop := s.timeout = 0 ∧ ∀ x ∈ s.inbox, x = false

/-- The fail-soft window contract between a returned score `r` and the value `v` it
stands for, under the window `(alpha, beta)`: exact inside the window, an upper bound
of `v` at or below `alpha`, a lower bound at or above `beta`. -/
def Contract (r v alpha beta : Int) : Prop :=
  (alpha < r → r < beta → r = v) ∧ (r ≤ alpha → v ≤ r) ∧ (beta ≤ r → r ≤ v)

/-- The position on which the worker meets a pruned root move: the initial board after
BLACK plays 34 and WHITE answers 35; BLACK, the maximizing colour, is to move. -/
def pruned_root : Board := make_move (make_move initialise_board 34 BLACK) 35 WHITE

/-- The initial board with BLACK maximizing, the timeout flag clear and no message ever
coming. -/
def quiet_start : State := ⟨initialise_board, BLACK, FALSE, [], 0⟩

/-- As `quiet_start`, with a TIMEOUT message pending. -/
def timeout_pending : State := ⟨initialise_board, BLACK, FALSE, [true], 0⟩

/-- As `quiet_start`, with a TIMEOUT message that the third probe finds. -/
def timeout_later : State := ⟨initialise_board, BLACK, FALSE, [false, false, true], 0⟩

/-- The position after BLACK plays 66 on `pruned_root`, with BLACK maximizing and no
message ever coming. -/
def pruned_child : State := ⟨make_move pruned_root 66 BLACK, BLACK, FALSE, [], 0⟩

/-! ## Sub-score ratios, example positions and the root-move sort

Definitions used by the claims on the evaluator, the stability traversal and the sort of
the root moves in `strategy` (chris.c lines 490-499). -/

/-- The number of legal moves of `player` on board `b`. -/
def move_count (b : Board) (player : Int) : Int := (((legal_moves b player).tail.length : Nat) : Int)

/-- The number of the corners 11, 18, 81, 88 that hold `colour`. -/
def corner_count (b : Board) (colour : Int) : Int :=
  ((([11, 18, 81, 88] : List Int).countP (fun q => decide (b q = colour)) : Nat) : Int)

/-- The normalized ratio of the evaluator as the specification words it: 0 when
`Max + Min = 0`, else `100 * (Max - Min) / (Max + Min)` truncated toward zero. -/
def ratio (Max Min : Int) : Int :=
  if Max + Min = 0 then 0 else Int.tdiv (100 * (Max - Min)) (Max + Min)

/-- A board on which WHITE has no piece: the initial board with the two WHITE discs
turned to BLACK. -/
def wipeout_board : Board := setCell (setCell initialise_board 44 BLACK) 55 BLACK

/-- A process on `wipeout_board` whose timeout flag is already set. -/
def wipeout_flagged : State := ⟨wipeout_board, BLACK, TRUE, [], 0⟩

/-- A process on `wipeout_board` with no timeout set and no message ever coming. -/
def wipeout_quiet : State := ⟨wipeout_board, BLACK, FALSE, [], 0⟩

/-- The local array `stability_board` of `eval_stability` when its loop is left (a
zeroed block when a TIMEOUT message made the function return). -/
def stability_class (s : State) : Board :=
  match (stability_loop spiral ⟨zeroMem, TRUE, 0, 0⟩ s).1 with
  | some acc => acc.stability_board
  | none => zeroMem

/-- The squares of the spiral that the `for` loop of `eval_stability` has not visited
when it is left: the same loop as `stability_loop`, keeping what is left of the spiral. -/
def stability_rest : List Int → StabAcc → State → List Int
  | [], _, _ => []
  | loc :: rest, acc, s =>
    if probe_flag s = true then rest
    else
      let s1 := probe_recv s
      if s1.board loc = EMPTY then stability_rest rest acc s1
      else
        let value := stability_value s1.board acc.stability_board loc
        let r := stability_update s1.board s1.max_colour loc value acc
        if r.2 = true then rest else stability_rest rest r.1 s1

/-- The board after the moves of a script, played in turn starting with `player`. -/
def play_moves : Board → Int → List Int → Board
  | b, _, [] => b
  | b, player, move :: rest => play_moves (make_move b move player) (opponent player) rest

/-- Every move of the script is one that `legal_moves` lists for the side to move. -/
def legal_game : Board → Int → List Int → Bool
  | _, _, [] => true
  | b, player, move :: rest =>
    decide (move ∈ (legal_moves b player).tail) &&
      legal_game (make_move b move player) (opponent player) rest

/-- The position after the legal game 65, 66, 43, 64, 76, 86, 87, 88 (BLACK starts):
WHITE holds the corner 88 and its neighbours 86 and 87. -/
def wide_score_board : Board := play_moves initialise_board BLACK [65, 66, 43, 64, 76, 86, 87, 88]

/-- The position after the legal game 43, 33, 65, 42, 41, 51 (BLACK starts). -/
def ring_stop_board : Board := play_moves initialise_board BLACK [43, 33, 65, 42, 41, 51]

/-- The position after the legal game 65, 46, 33, 63, 47, 76, 64, 36, 53, 58, 87 (BLACK
starts). -/
def lost_bit_board : Board :=
  play_moves initialise_board BLACK [65, 46, 33, 63, 47, 76, 64, 36, 53, 58, 87]

/-- The values a loop variable takes in `for (x = a; x < a + len; x++)`. -/
def int_range (a : Int) (len : Nat) : List Int := (List.range len).map (fun (k : Nat) => a + (k : Int))

/-- The table `eval_board` (chris.c lines 71-79), 90 entries. -/
def eval_board : Board :=
  ⟨[0,  0,  0,  0,  0,  0,  0,  0,  0, 0,
    0,  4, -3,  2,  2,  2,  2, -3,  4, 0,
    0, -3, -4, -1, -1, -1, -1, -4, -3, 0,
    0,  2, -1,  1,  0,  0,  1, -1,  2, 0,
    0,  2, -1,  0,  1,  1,  0, -1,  2, 0,
    0,  2, -1,  0,  1,  1,  0, -1,  2, 0,
    0,  2, -1,  1,  0,  0,  1, -1,  2, 0,
    0, -3, -4, -1, -1, -1, -1, -4, -3, 0,
    0,  4, -3,  2,  2,  2,  2, -3,  4, 0]⟩

/-- The buffer `moves` of `strategy` after `legal_moves(my_colour, moves, fp)`: the 65
zeroed cells from `calloc`, of which `legal_moves` has written the first ones. -/
def moves_buffer (b : Board) (player : Int) : Board :=
  ⟨legal_moves b player ++ List.replicate (65 - (legal_moves b player).length) 0⟩

/-- The body of the inner loop of the root-move sort in `strategy` (lines 493-497). -/
def sort_step (moves : Board) (i j : Int) : Board :=
  if eval_board (moves j) > eval_board (moves i) then
    let a := moves i
    let moves1 := setCell moves i (moves j)
    setCell moves1 j a
  else moves

/-- The inner loop `for (j = i; j <= moves[0]; j++)` of the root-move sort.  The bound
`moves[0]` is read when the loop starts: the loop writes only cells `i` and `j`, both at
least 1 (`sort_moves_sorted` shows that cell 0 keeps its value). -/
def sort_inner (moves : Board) (i : Int) : Board :=
  (int_range i (moves 0 + 1 - i).toNat).foldl (fun ms j => sort_step ms i j) moves

/-- The root-move sort of `strategy` (lines 491-499):
`for (i = 1; i <= moves[0]; i++)` around the inner loop. -/
def sort_moves (moves : Board) : Board :=
  (int_range 1 (moves 0).toNat).foldl (fun ms i => sort_inner ms i) moves

/-- The distance of square `m` from the edge of the 8x8 playing area, as the
specification counts rings: 0 for the edge squares, 3 for the four centre squares. -/
def edge_distance (m : Int) : Int :=
  min (min (m / 10 - 1) (8 - m / 10)) (min (m % 10 - 1) (8 - m % 10))

/-- The position after BLACK plays 56 on the initial board; WHITE is to move. -/
def tie_board : Board := make_move initialise_board 56 BLACK

/-! ## The coordinator (chris.c lines 367-380, 471-586)

`strategy` runs on rank 0.  What it reads from outside the program, the clock and
the messages of the workers, is given to the model as a list of `Round`s, one for each
iteration of the iterative-deepening loop. -/

def REQUEST_MOVE_TAG : Int := 0
def SEND_MOVE_TAG : Int := 1
def NO_MOVES_LEFT_TAG : Int := 2
def SEND_ALPHA_TAG : Int := 3
def TIMEOUT_TAG : Int := 4

/-- A message handed to `MPI_Isend`: its tag, the destination rank and the `int` sent. -/
structure Msg where
  tag : Int
  dest : Int
  value : Int
deriving DecidableEq

/-- What one pass through the body of the allocation loop of `strategy` (lines 512-541)
finds outside the program: `request` is `none` when `MPI_Iprobe` leaves `flag` at 0, else
the source rank and the `int` that `MPI_Recv` stores in `buffer`; `late` is the outcome of
`time_spent > MAX_TIME-0.1` and `late_depth` that of
`time_spent_on_depth + time_spent >= MAX_TIME-0.1` on the clock readings of that pass. -/
structure Tick where
  request : Option (Int × Int)
  late : Bool
  late_depth : Bool
deriving DecidableEq

/-- What one iteration of the iterative-deepening loop of `strategy` finds outside the
program: the passes of its allocation loop, and the array `best_moves` as `MPI_Gather`
fills it (worker `r` owns the cells `2r` and `2r + 1`). -/
structure Round where
  ticks : List Tick
  best_moves : Board

/-- The local variables of `strategy` and the global `timeout`, with two records kept for
the statements only: `sent`, the messages handed to `MPI_Isend` so far, and `received`,
the source ranks of the REQUEST_MOVE messages received in the current iteration. -/
structure Coord where
  requests : Int
  moves_completed : Int
  depth : Int
  timeout : Int
  best_move : Int × Int
  sent : List Msg
  received : List Int
deriving DecidableEq

/-- The loop `for (i = 1; i < comm_sz; i++) MPI_Isend(&TRUE, 1, MPI_INT, i, tag, ...)`. -/
def broadcast (comm_sz tag : Int) : List Msg :=
  (int_range 1 (comm_sz - 1).toNat).map (fun i => ⟨tag, i, TRUE⟩)

/-- The part of the allocation loop body that serves a request (lines 513-523). -/
def serve (moves : Board) (t : Tick) (c : Coord) : Coord :=
  match t.request with
  | none => c
  | some (source, buffer) =>
    let requests := c.requests + 1
    ⟨requests, c.moves_completed + buffer, c.depth, c.timeout, c.best_move,
      if requests ≤ moves 0 then c.sent ++ [⟨SEND_MOVE_TAG, source, moves requests⟩]
      else c.sent,
      c.received ++ [source]⟩

/-- The part of the allocation loop body that watches the clock (lines 524-541). -/
def watch (moves : Board) (comm_sz : Int) (t : Tick) (c : Coord) : Coord :=
  let depth := if c.moves_completed ≥ moves 0 ∧ t.late_depth = true then MAX_DEPTH else c.depth
  if t.late = true ∨ depth ≥ MAX_DEPTH then
    ⟨c.requests, c.moves_completed, depth, TRUE, c.best_move,
      c.sent ++ broadcast comm_sz TIMEOUT_TAG, c.received⟩
  else ⟨c.requests, c.moves_completed, depth, c.timeout, c.best_move, c.sent, c.received⟩

/-- One pass through the body of the allocation loop (lines 512-541). -/
def allocate_step (moves : Board) (comm_sz : Int) (t : Tick) (c : Coord) : Coord :=
  watch moves comm_sz t (serve moves t c)

/-- The allocation loop
`while (moves_completed < moves[0] && !timeout && moves[0] > 1)` (lines 511-542) over
the passes the environment describes.  When the description ends while the loop still
runs, the clock has passed the limit: the next pass finds no request and is late. -/
def allocate (moves : Board) (comm_sz : Int) : List Tick → Coord → Coord
  | [], c =>
    if c.moves_completed < moves 0 ∧ c.timeout = 0 ∧ moves 0 > 1 then
      allocate_step moves comm_sz ⟨none, true, true⟩ c
    else c
  | t :: rest, c =>
    if c.moves_completed < moves 0 ∧ c.timeout = 0 ∧ moves 0 > 1 then
      allocate moves comm_sz rest (allocate_step moves comm_sz t c)
    else c

/-- The body of the reduction loop (lines 570-574) for the pair at `i`, `i + 1`. -/
def reduce_step (best_moves : Board) (best_move : Int × Int) (i : Int) : Int × Int :=
  if best_moves i = -1 then best_move
  else if best_moves (i + 1) > best_move.2 then (best_moves i, best_moves (i + 1))
  else best_move

/-- The reduction loop `for (i = 2; i < comm_sz*2; i+=2)` (lines 569-575): `i` is `2r` for
the worker ranks `r = 1 .. comm_sz - 1`. -/
def reduce (best_moves : Board) (comm_sz : Int) (best_move : Int × Int) : Int × Int :=
  (int_range 1 (comm_sz - 1).toNat).foldl
    (fun best r => reduce_step best_moves best (2 * r)) best_move

/-- One iteration of the iterative-deepening loop of `strategy` (lines 504-576).  The
barrier and the loop that empties the message queue (lines 557-565) change no variable
that is read afterwards and send nothing. -/
def strategy_round (moves : Board) (comm_sz : Int) (r : Round) (c : Coord) : Coord :=
  let c1 := allocate moves comm_sz r.ticks
    ⟨0, 0, c.depth, c.timeout, c.best_move, c.sent, []⟩
  let c2 : Coord :=
    if moves 0 ≤ 1 then
      ⟨c1.requests, c1.moves_completed, c1.depth, TRUE, c1.best_move,
        c1.sent ++ broadcast comm_sz TIMEOUT_TAG, c1.received⟩
    else c1
  let c3 : Coord :=
    if c2.timeout = 0 then
      ⟨c2.requests, c2.moves_completed, c2.depth, c2.timeout, c2.best_move,
        c2.sent ++ broadcast comm_sz NO_MOVES_LEFT_TAG, c2.received⟩
    else c2
  ⟨c3.requests, c3.moves_completed, c3.depth + 1, c3.timeout,
    reduce r.best_moves comm_sz c3.best_move, c3.sent, c3.received⟩

/-- The loop `while (!timeout)` of `strategy` (lines 503-577) over the iterations the
environment describes: `none` when the description ends before the loop does. -/
def strategy_loop (moves : Board) (comm_sz : Int) : List Round → Coord → Option Coord
  | [], c => if c.timeout ≠ 0 then some c else none
  | r :: rest, c =>
    if c.timeout ≠ 0 then some c
    else strategy_loop moves comm_sz rest (strategy_round moves comm_sz r c)

/-- The variables of `strategy` when the iterative-deepening loop is entered (lines
474, 500, 501). -/
def coord_start : Coord := ⟨0, 0, STARTING_MAX_DEPTH - 1, FALSE, (-1, -1000000), [], []⟩

/-- Embeds `strategy` for a coordinator among `comm_sz` processes: the value returned
and the variables when the loop was left. -/
def strategy (b : Board) (my_colour comm_sz : Int) (env : List Round) : Option (Int × Coord) :=
  let moves := sort_moves (moves_buffer b my_colour)
  match strategy_loop moves comm_sz env coord_start with
  | none => none
  | some c =>
    let best0 := if moves 0 ≠ 0 ∧ c.best_move.1 = -1 then moves 1 else c.best_move.1
    let best0 := if moves 0 = 1 then moves 1 else best0
    some (best0, c)

/-- The string "pass\n". -/
def PASS_STRING : List Int := [112, 97, 115, 115, 10]

/-- Embeds `gen_move_master`: the string left in `move` and the board. -/
def gen_move_master (b : Board) (my_colour comm_sz : Int) (env : List Round) :
    Option (List Int × Board) :=
  match strategy b my_colour comm_sz env with
  | none => none
  | some (loc, _) =>
    if loc = -1 then some (PASS_STRING, b)
    else some (get_move_string loc, make_move b loc my_colour)

/-- The SEND_MOVE messages among the messages sent, in the order sent. -/
def send_moves (l : List Msg) : List Msg := l.filter (fun m => decide (m.tag = SEND_MOVE_TAG))

/-- An allocation pass that serves a request of rank `src` carrying `buf`, before the
time limit. -/
def req (src buf : Int) : Tick := ⟨some (src, buf), false, false⟩

/-- An iteration on the initial board in which worker 1 is handed the four root moves,
reports each as done, and gathers the pair (34, 50). -/
def round_a : Round := ⟨[req 1 0, req 1 1, req 1 1, req 1 1, req 1 1], ⟨[0, 0, 34, 50]⟩⟩

/-- An iteration like `round_a` in which worker 1 gathers the pair (43, 10). -/
def round_b : Round := ⟨[req 1 0, req 1 1, req 1 1, req 1 1, req 1 1], ⟨[0, 0, 43, 10]⟩⟩

/-- An iteration in which the time limit passes after worker 1 has reported one root
move as done; worker 1 gathers the pair (34, 5). -/
def round_late : Round := ⟨[req 1 0, ⟨some (1, 1), true, false⟩], ⟨[0, 0, 34, 5]⟩⟩

/-- The position after the legal game 34, 33, 32, 22, 12 (BLACK starts): WHITE is to
move and square 11 is one of its legal moves. -/
def corner_board : Board := play_moves initialise_board BLACK [34, 33, 32, 22, 12]

/-- The position after the legal game 65, 46, 37, 63, 43 (BLACK starts): WHITE is to move
and has the single legal move 36. -/
def single_board : Board := play_moves initialise_board BLACK [65, 46, 37, 63, 43]

/-- The position after the legal game 43, 33, 65, 42, 41, 51, 23, 31 (BLACK starts):
BLACK is to move and has no legal move. -/
def pass_board : Board := play_moves initialise_board BLACK [43, 33, 65, 42, 41, 51, 23, 31]

/-- An iteration among three processes in which both workers gather the placeholder. -/
def round_idle : Round := ⟨[], ⟨[0, 0, -1, -1000000, -1, -1000000]⟩⟩

/-- The root moves, the cells `1..moves[0]` of the buffer. -/
def root_list (moves : Board) : List Int := (moves.cells.drop 1).take (moves 0).toNat

/-- The traversal of `eval_stability` over the squares of `L` with the test that leaves
the loop removed and no message coming: the array `stability_board` afterwards. -/
def classify (board : Board) : List Int → Board → Board
  | [], stab => stab
  | loc :: rest, stab =>
    if board loc = EMPTY then classify board rest stab
    else classify board rest (setCell stab loc (stability_value board stab loc))

/-- The stability classification along the whole spiral, the early exit removed. -/
def full_class (board : Board) : Board := classify board spiral zeroMem

/-- No border bit is set in the value `x`. -/
def no_bits (x : Int) : Prop :=
  band x H_BORDER = 0 ∧ band x V_BORDER = 0 ∧ band x UDD_BORDER = 0 ∧ band x DUD_BORDER = 0

/-- The position after the legal game 56, 66, 43, 57, 58 (BLACK starts). -/
def early_skip_board : Board := play_moves initialise_board BLACK [56, 66, 43, 57, 58]

/-- The cell indices that `find_bracket_piece` reads, in order, for a budget of loop
tests: every test of the `while` reads `board[square]`, and the `if` after the loop
reads the cell of the last test again. -/
def find_bracket_reads (b : Board) (dir player : Int) : Nat → Int → List Int
  | 0, _ => []
  | n + 1, square =>
    if b square = opponent player then
      square :: find_bracket_reads b dir player n (square + dir)
    else [square]

/-- The cell indices that `would_flip` reads, in order. -/
def would_flip_reads (b : Board) (move dir player : Int) : List Int :=
  let c := move + dir
  if b c = opponent player then c :: find_bracket_reads b dir player 100 (c + dir)
  else [c]

/-- The cell indices that the `do ... while (c != bracketer)` loop of `make_flips`
writes, in order, for a budget of loop bodies. -/
def flip_run_writes (dir bracketer : Int) : Nat → Int → List Int
  | 0, _ => []
  | n + 1, c =>
    let c1 := c + dir
    if c1 ≠ bracketer then c :: flip_run_writes dir bracketer n c1 else [c]

/-- The cell indices that `make_flips` writes, in order. -/
def make_flips_writes (b : Board) (move dir player : Int) : List Int :=
  let bracketer := would_flip b move dir player
  if bracketer ≠ 0 then flip_run_writes dir bracketer 100 (move + dir) else []

/-! ## The worker (chris.c lines 252-355)

One depth iteration of `run_worker`, over the messages that `MPI_Probe` finds. -/

/-- A message a worker finds with `MPI_Probe` in its loop (lines 293-333), by tag, with
the `int` that `MPI_Recv` stores. -/
inductive WMsg where
  | send_move (move : Int)
  | send_alpha (other_alpha : Int)
  | no_moves_left (value : Int)
  | timeout (value : Int)
deriving DecidableEq

/-- The variables of `run_worker` inside one depth iteration: the globals in `s`, the
locals `board_copy`, `best_move`, `alpha`, `no_moves_left`, and, kept for the statements
only, the messages handed to `MPI_Isend`. -/
structure Worker where
  s : State
  board_copy : Board
  best_move : Int × Int
  alpha : Int
  no_moves_left : Int
  sent : List Msg

/-- The loop that shares `alpha` with the other workers (lines 310-313). -/
def share_alpha (comm_sz my_rank alpha : Int) : List Msg :=
  ((int_range 1 (comm_sz - 1).toNat).filter (fun i => decide (i ≠ my_rank))).map
    (fun i => ⟨SEND_ALPHA_TAG, i, alpha⟩)

/-- One pass through the `switch` of the worker loop (lines 294-333) for the message
found, at search depth `depth`. -/
def worker_step (my_colour : Int) (depth : Nat) (comm_sz my_rank : Int) (msg : WMsg)
    (w : Worker) : Worker :=
  match msg with
  | WMsg.send_move move =>
    let s1 : State :=
      ⟨make_move w.s.board move my_colour, w.s.max_colour, w.s.timeout, w.s.inbox,
        w.s.gen_calls⟩
    let r := minimax depth (opponent my_colour) w.alpha 1000000 s1
    if r.2.timeout ≠ 0 then ⟨r.2, w.board_copy, w.best_move, w.alpha, w.no_moves_left, w.sent⟩
    else
      let s2 : State :=
        ⟨copy_board w.board_copy r.2.board, r.2.max_colour, r.2.timeout, r.2.inbox,
          r.2.gen_calls⟩
      let best_move := if r.1 > w.best_move.2 then (move, r.1) else w.best_move
      if best_move.2 > w.alpha then
        ⟨s2, w.board_copy, best_move, best_move.2, w.no_moves_left,
          w.sent ++ share_alpha comm_sz my_rank best_move.2 ++ [⟨REQUEST_MOVE_TAG, 0, TRUE⟩]⟩
      else
        ⟨s2, w.board_copy, best_move, w.alpha, w.no_moves_left,
          w.sent ++ [⟨REQUEST_MOVE_TAG, 0, TRUE⟩]⟩
  | WMsg.send_alpha other_alpha =>
    if other_alpha > w.alpha then
      ⟨w.s, w.board_copy, w.best_move, other_alpha, w.no_moves_left, w.sent⟩
    else w
  | WMsg.no_moves_left value => ⟨w.s, w.board_copy, w.best_move, w.alpha, value, w.sent⟩
  | WMsg.timeout value =>
    ⟨⟨w.s.board, w.s.max_colour, value, w.s.inbox, w.s.gen_calls⟩, w.board_copy, w.best_move,
      w.alpha, w.no_moves_left, w.sent⟩

/-- The worker loop `while (!no_moves_left && !timeout)` (lines 291-334) over the messages
that arrive; when no message is left the worker waits in `MPI_Probe`. -/
def worker_loop (my_colour : Int) (depth : Nat) (comm_sz my_rank : Int) :
    List WMsg → Worker → Worker
  | [], w => w
  | msg :: rest, w =>
    if w.no_moves_left = 0 ∧ w.s.timeout = 0 then
      worker_loop my_colour depth comm_sz my_rank rest
        (worker_step my_colour depth comm_sz my_rank msg w)
    else w

/-- The variables of a worker when the loop of a depth iteration is entered (lines 269,
277, 284-290), on the board `b` received from the coordinator; `inbox` is what the calls
of `MPI_Iprobe` inside the search will find. -/
def worker_start (b : Board) (my_colour : Int) (inbox : List Bool) : Worker :=
  ⟨⟨b, my_colour, FALSE, inbox, 0⟩, copy_board b zeroMem, (-1, -1000000), -1000000, FALSE,
    [⟨REQUEST_MOVE_TAG, 0, FALSE⟩]⟩

/-- The pair that the specification asks of a worker after the root moves of a list:
the first move, in the order of the list, whose value `v` is greatest, with that value;
`best` is the pair before the list. -/
def first_best (v : Int → Int) : List Int → Int × Int → Int × Int
  | [], best => best
  | m :: rest, best => first_best v rest (if v m > best.2 then (m, v m) else best)

/-! ## Basic facts -/

theorem cmod_of_nonneg (a : Int) (h : 0 ≤ a) : cmod a 10 = a % 10 := by
  unfold cmod
  exact Int.tmod_eq_emod h (by norm_num)

theorem validp_ne_zero_iff (m : Int) :
    validp m ≠ 0 ↔ 11 ≤ m ∧ m ≤ 88 ∧ 1 ≤ m % 10 ∧ m % 10 ≤ 8 := by
  unfold validp
  by_cases h : 0 ≤ m
  · rw [cmod_of_nonneg m h]
    split_ifs with h1
    · simp; omega
    · simp; omega
  · rw [if_neg (by omega)]
    simp; omega

theorem validp_eq_zero_iff (m : Int) :
    validp m = 0 ↔ ¬ (11 ≤ m ∧ m ≤ 88 ∧ 1 ≤ m % 10 ∧ m % 10 ≤ 8) := by
  rw [← validp_ne_zero_iff]; simp

theorem opponent_ne_self (P : Int) (hP : P = BLACK ∨ P = WHITE) : P ≠ opponent P := by
  rcases hP with rfl | rfl <;> decide

theorem opponent_ne_outer (P : Int) : opponent P ≠ OUTER := by
  unfold opponent; split_ifs <;> decide

theorem opponent_player (P : Int) (hP : P = BLACK ∨ P = WHITE) :
    opponent P = BLACK ∨ opponent P = WHITE := by
  rcases hP with rfl | rfl
  · right; decide
  · left; decide

theorem WellFormed.ringInv {b : Board} (h : WellFormed b) : RingInv b := by
  refine ⟨h.1, fun i h0 h1 => ⟨(h.2 i h0 h1).1, fun hv => ?_⟩⟩
  rcases (h.2 i h0 h1).2 hv with e | e | e <;> rw [e] <;> decide

theorem setCell_length (b : Board) (c v : Int) :
    (setCell b c v).cells.length = b.cells.length := by
  unfold setCell
  split_ifs <;> simp

theorem cell_setCell (b : Board) (c v i : Int) :
    (setCell b c v) i = if i = c ∧ 0 ≤ c ∧ c < b.cells.length then v else b i := by
  unfold setCell
  by_cases hc : 0 ≤ c ∧ c < b.cells.length
  · rw [if_pos hc]
    show Board.cell _ _ = _
    unfold Board.cell
    by_cases hic : i = c
    · subst hic
      have h1 : ¬ i < 0 := by omega
      have h2 : i.toNat < b.cells.length := by omega
      simp [h1, hc, List.getD_eq_getElem?_getD, List.getElem?_set, h2]
    · have h3 : ¬ (i = c ∧ 0 ≤ c ∧ c < (b.cells.length : Int)) := fun h => hic h.1
      rw [if_neg h3]
      by_cases hi : i < 0
      · simp [hi]
      · have h4 : c.toNat ≠ i.toNat := by omega
        simp [hi, List.getD_eq_getElem?_getD, List.getElem?_set, h4]
  · rw [if_neg hc]
    have h3 : ¬ (i = c ∧ 0 ≤ c ∧ c < (b.cells.length : Int)) := fun h => hc h.2
    rw [if_neg h3]

theorem cell_setCell_self (b : Board) (c v : Int) (h0 : 0 ≤ c) (h1 : c < b.cells.length) :
    (setCell b c v) c = v := by
  rw [cell_setCell]; simp [h0, h1]

theorem cell_setCell_ne (b : Board) (c v i : Int) (h : i ≠ c) : (setCell b c v) i = b i := by
  rw [cell_setCell]; simp [h]

/-- Geometry of the padded board, by enumeration: from a playable square, each of the
eight directions reaches a ring cell inside the array within eight steps, and every
cell before it is playable. -/
theorem ring_reached_enum :
    ∀ m ∈ SQUARES, validp m ≠ 0 → ∀ d ∈ ALLDIRECTIONS, ∃ j ∈ List.range 9, 1 ≤ j ∧
      0 ≤ m + (j : Int) * d ∧ m + (j : Int) * d < 100 ∧ validp (m + (j : Int) * d) = 0 ∧
      ∀ i ∈ List.range j, 1 ≤ i → validp (m + (i : Int) * d) ≠ 0 := by
  decide!

theorem mem_SQUARES (m : Int) : m ∈ SQUARES ↔ 11 ≤ m ∧ m ≤ 88 := by
  unfold SQUARES
  simp only [List.mem_map, List.mem_range]
  constructor
  · rintro ⟨k, hk, rfl⟩; omega
  · intro h
    exact ⟨(m - 11).toNat, by omega, by omega⟩

theorem ring_reached (m d : Int) (hm : validp m ≠ 0) (hd : d ∈ ALLDIRECTIONS) :
    ∃ j : Nat, 1 ≤ j ∧ j ≤ 8 ∧ 0 ≤ m + (j : Int) * d ∧ m + (j : Int) * d < 100 ∧
      validp (m + (j : Int) * d) = 0 ∧
      ∀ i : Nat, 1 ≤ i → i < j → validp (m + (i : Int) * d) ≠ 0 := by
  have hs : m ∈ SQUARES := by
    rw [mem_SQUARES]; rw [validp_ne_zero_iff] at hm; omega
  obtain ⟨j, hj, h1, h2, h3, h4, h5⟩ := ring_reached_enum m hs hm d hd
  rw [List.mem_range] at hj
  exact ⟨j, h1, by omega, h2, h3, h4, fun i hi hij => h5 i (List.mem_range.mpr hij) hi⟩

/-! ## The bracket walk -/

/-- When the first cell not holding the opponent is `j` steps away, a budget of more
than `j` loop tests lets the loop of `find_bracket_piece` leave with its result. -/
theorem find_bracket_piece_fuel_run (b : Board) (d P : Int) :
    ∀ (j : Nat) (sq : Int) (n : Nat), Run b d P sq j → j < n →
      find_bracket_piece_fuel b d P n sq
        = some (if b (sq + (j : Int) * d) = P then sq + (j : Int) * d else 0) := by
  intro j
  induction j with
  | zero =>
    intro sq n hrun hn
    obtain ⟨n, rfl⟩ : ∃ k, n = k + 1 := ⟨n - 1, by omega⟩
    have h0 : b sq ≠ opponent P := by simpa using hrun.2
    simp only [find_bracket_piece_fuel, if_neg h0]
    by_cases hp : b sq = P <;> simp [hp]
  | succ j ih =>
    intro sq n hrun hn
    obtain ⟨n, rfl⟩ : ∃ k, n = k + 1 := ⟨n - 1, by omega⟩
    have h0 : b sq = opponent P := by simpa using hrun.1 0 (by omega)
    have hrun1 : Run b d P (sq + d) j := by
      refine ⟨fun i hi => ?_, ?_⟩
      · have := hrun.1 (i + 1) (by omega)
        rw [← this]; congr 1; push_cast; ring
      · have := hrun.2
        intro h; apply this; rw [← h]; congr 1; push_cast; ring
    simp only [find_bracket_piece_fuel, if_pos h0]
    rw [ih (sq + d) n hrun1 (by omega)]
    have e : sq + d + (j : Int) * d = sq + ((j + 1 : Nat) : Int) * d := by push_cast; ring
    rw [e]

/-- The value of `would_flip` in terms of the first cell, `j` steps from `m`, that does
not hold the opponent; the loop is told to have left within `n` tests. -/
theorem would_flip_of_first (b : Board) (m d P : Int) (j : Nat) (h1 : 1 ≤ j) (hj : j ≤ 100)
    (hrun : ∀ i : Nat, 1 ≤ i → i < j → b (m + (i : Int) * d) = opponent P)
    (hstop : b (m + (j : Int) * d) ≠ opponent P) :
    would_flip b m d P = (if 2 ≤ j ∧ b (m + (j : Int) * d) = P then m + (j : Int) * d else 0) ∧
    (b (m + d) = opponent P → ∀ n : Nat, j ≤ n + 1 →
      find_bracket_piece_fuel b d P n (m + d + d) = some (would_flip b m d P)) := by
  unfold would_flip find_bracket_piece
  by_cases hj1 : j = 1
  · subst hj1
    have h0 : b (m + d) ≠ opponent P := by simpa using hstop
    simp [h0]
  · have h0 : b (m + d) = opponent P := by simpa using hrun 1 (by omega) (by omega)
    have hrun2 : Run b d P (m + d + d) (j - 2) := by
      refine ⟨fun i hi => ?_, ?_⟩
      · have := hrun (i + 2) (by omega) (by omega)
        rw [← this]; congr 1; push_cast; ring
      · intro h; apply hstop; rw [← h]; congr 1
        have : ((j - 2 : Nat) : Int) = (j : Int) - 2 := by omega
        rw [this]; ring
    have e : m + d + d + ((j - 2 : Nat) : Int) * d = m + (j : Int) * d := by
      have : ((j - 2 : Nat) : Int) = (j : Int) - 2 := by omega
      rw [this]; ring
    have key := fun n hn => find_bracket_piece_fuel_run b d P (j - 2) (m + d + d) n hrun2 hn
    simp only [e] at key
    simp only [h0, if_true]
    rw [key 100 (by omega)]
    have h2 : 2 ≤ j := by omega
    simp only [h2, true_and, Option.getD_some]
    exact fun _ n hn => key n (by omega)

/-- On a board with the `OUTER` ring, the walk from a playable square meets its first
cell not holding the opponent within eight steps, inside the array. -/
theorem first_stop (b : Board) (hb : RingInv b) (m d P : Int) (hm : validp m ≠ 0)
    (hd : d ∈ ALLDIRECTIONS) :
    ∃ j : Nat, 1 ≤ j ∧ j ≤ 8 ∧ b (m + (j : Int) * d) ≠ opponent P ∧
      (∀ i : Nat, 1 ≤ i → i < j → b (m + (i : Int) * d) = opponent P) ∧
      (∀ i : Nat, 1 ≤ i → i < j → validp (m + (i : Int) * d) ≠ 0) ∧
      0 ≤ m + (j : Int) * d ∧ m + (j : Int) * d < 100 := by
  obtain ⟨r, hr1, hr8, hr0, hr100, hrv, hrbefore⟩ := ring_reached m d hm hd
  have hex : ∃ j : Nat, 1 ≤ j ∧ b (m + (j : Int) * d) ≠ opponent P :=
    ⟨r, hr1, by rw [(hb.2 _ hr0 hr100).1 hrv]; exact (opponent_ne_outer P).symm⟩
  classical
  refine ⟨Nat.find hex, (Nat.find_spec hex).1, ?_, (Nat.find_spec hex).2, ?_, ?_, ?_⟩
  · exact le_trans (Nat.find_min' hex ⟨hr1, by
      rw [(hb.2 _ hr0 hr100).1 hrv]; exact (opponent_ne_outer P).symm⟩) hr8
  · intro i hi hij
    by_contra hne
    exact Nat.find_min hex hij ⟨hi, hne⟩
  · intro i hi hij
    have hle : Nat.find hex ≤ r := Nat.find_min' hex ⟨hr1, by
      rw [(hb.2 _ hr0 hr100).1 hrv]; exact (opponent_ne_outer P).symm⟩
    exact hrbefore i hi (by omega)
  · have hle : Nat.find hex ≤ r := Nat.find_min' hex ⟨hr1, by
      rw [(hb.2 _ hr0 hr100).1 hrv]; exact (opponent_ne_outer P).symm⟩
    rcases Nat.lt_or_ge (Nat.find hex) r with hlt | hge
    · have := (validp_ne_zero_iff _).1 (hrbefore _ (Nat.find_spec hex).1 hlt)
      omega
    · have : Nat.find hex = r := by omega
      rw [this]; exact ⟨hr0, hr100⟩

/-- The value of `would_flip` on a board with the `OUTER` ring: `j` is the number of
steps to the first cell that does not hold the opponent. -/
theorem would_flip_char (b : Board) (hb : RingInv b) (m d P : Int) (hm : validp m ≠ 0)
    (hd : d ∈ ALLDIRECTIONS) :
    ∃ j : Nat, 1 ≤ j ∧ j ≤ 8 ∧ b (m + (j : Int) * d) ≠ opponent P ∧
      (∀ i : Nat, 1 ≤ i → i < j → b (m + (i : Int) * d) = opponent P) ∧
      (∀ i : Nat, 1 ≤ i → i < j → validp (m + (i : Int) * d) ≠ 0) ∧
      0 ≤ m + (j : Int) * d ∧ m + (j : Int) * d < 100 ∧
      would_flip b m d P
        = (if 2 ≤ j ∧ b (m + (j : Int) * d) = P then m + (j : Int) * d else 0) ∧
      (b (m + d) = opponent P → ∀ n : Nat, 8 ≤ n →
        find_bracket_piece_fuel b d P n (m + d + d) = some (would_flip b m d P)) := by
  obtain ⟨j, h1, h8, hstop, hrun, hval, h0, h100⟩ := first_stop b hb m d P hm hd
  have := would_flip_of_first b m d P j h1 (by omega) hrun hstop
  exact ⟨j, h1, h8, hstop, hrun, hval, h0, h100, this.1,
    fun ho n hn => this.2 ho n (by omega)⟩

/-- A bracket at distance `k` is the first stop of the walk, so `would_flip` reports it;
the bracketing cell is playable and at most eight steps away. -/
theorem would_flip_of_bracket (b : Board) (hb : RingInv b) (m d P : Int) (hm : validp m ≠ 0)
    (hd : d ∈ ALLDIRECTIONS) (hP : P = BLACK ∨ P = WHITE) (k : Nat) (hk : 2 ≤ k)
    (hrun : ∀ i : Nat, 1 ≤ i → i < k → b (m + (i : Int) * d) = opponent P)
    (hend : b (m + (k : Int) * d) = P) :
    would_flip b m d P = m + (k : Int) * d ∧ k ≤ 8 ∧ validp (m + (k : Int) * d) ≠ 0 := by
  obtain ⟨j, h1, h8, hstop, hrunj, _, h0, h100, hwf, _⟩ := would_flip_char b hb m d P hm hd
  have hjk : j = k := by
    rcases Nat.lt_trichotomy j k with h | h | h
    · exact absurd (hrun j h1 h) hstop
    · exact h
    · have := hrunj k (by omega) h
      rw [hend] at this
      exact absurd this (opponent_ne_self P hP)
  subst hjk
  refine ⟨by rw [hwf, if_pos ⟨hk, hend⟩], h8, ?_⟩
  intro hv
  have := (hb.2 _ h0 h100).1 hv
  rw [hend] at this
  rcases hP with rfl | rfl <;> exact absurd this (by decide)

/-- A non-zero result of `would_flip` is a bracket: the cells before it hold the
opponent, the cell itself holds the player. -/
theorem bracket_of_would_flip (b : Board) (hb : RingInv b) (m d P : Int) (hm : validp m ≠ 0)
    (hd : d ∈ ALLDIRECTIONS) (h : would_flip b m d P ≠ 0) :
    ∃ k : Nat, 2 ≤ k ∧ k ≤ 8 ∧ would_flip b m d P = m + (k : Int) * d ∧
      (∀ i : Nat, 1 ≤ i → i < k → b (m + (i : Int) * d) = opponent P) ∧
      (∀ i : Nat, 1 ≤ i → i < k → validp (m + (i : Int) * d) ≠ 0) ∧
      b (m + (k : Int) * d) = P := by
  obtain ⟨j, h1, h8, hstop, hrunj, hval, h0, h100, hwf, _⟩ := would_flip_char b hb m d P hm hd
  by_cases hc : 2 ≤ j ∧ b (m + (j : Int) * d) = P
  · exact ⟨j, hc.1, h8, by rw [hwf, if_pos hc], hrunj, hval, hc.2⟩
  · rw [hwf, if_neg hc] at h
    exact absurd rfl h

theorem initialise_board_cells_enum :
    ∀ k ∈ List.range 100,
      (validp (k : Int) = 0 → initialise_board (k : Int) = OUTER) ∧
      (validp (k : Int) ≠ 0 → (initialise_board (k : Int) = EMPTY ∨
        initialise_board (k : Int) = BLACK ∨ initialise_board (k : Int) = WHITE)) := by
  decide!

theorem initialise_board_wellFormed : WellFormed initialise_board := by
  refine ⟨by decide!, fun i h0 h1 => ?_⟩
  have := initialise_board_cells_enum i.toNat (List.mem_range.mpr (by omega))
  have e : ((i.toNat : Nat) : Int) = i := by omega
  rw [e] at this
  exact this

/-! ## Flipping -/

theorem direction_ne_zero : ∀ d ∈ ALLDIRECTIONS, d ≠ 0 := by decide

theorem rays_disjoint_enum :
    ∀ d ∈ ALLDIRECTIONS, ∀ e ∈ ALLDIRECTIONS, d ≠ e →
      ∀ t ∈ List.range 9, ∀ u ∈ List.range 9, 1 ≤ t → 1 ≤ u →
        (t : Int) * d ≠ (u : Int) * e := by
  decide!

theorem rays_disjoint (d e : Int) (hd : d ∈ ALLDIRECTIONS) (he : e ∈ ALLDIRECTIONS)
    (hne : d ≠ e) (t u : Nat) (ht : 1 ≤ t) (ht8 : t ≤ 8) (hu : 1 ≤ u) (hu8 : u ≤ 8) (m : Int) :
    m + (t : Int) * d ≠ m + (u : Int) * e := by
  have := rays_disjoint_enum d hd e he hne t (List.mem_range.mpr (by omega)) u
    (List.mem_range.mpr (by omega)) ht hu
  intro h
  exact this (by linarith)

/-- The flip loop started at `c` with the bracketer `j` steps ahead leaves after `j`
bodies, having written the player on the `j` cells `c, c+d, ..` (all inside the array)
and nothing else. -/
theorem flip_run_fuel_spec (d P : Int) (hd : d ≠ 0) :
    ∀ (j : Nat), 1 ≤ j → ∀ (n : Nat) (b : Board) (c : Int), j ≤ n →
      (∀ t : Nat, t < j → 0 ≤ c + (t : Int) * d ∧ c + (t : Int) * d < b.cells.length) →
      ∃ b1, flip_run_fuel d P (c + (j : Int) * d) n b c = some b1 ∧
        b1.cells.length = b.cells.length ∧
        (∀ t : Nat, t < j → b1 (c + (t : Int) * d) = P) ∧
        (∀ i : Int, (∀ t : Nat, t < j → i ≠ c + (t : Int) * d) → b1 i = b i) := by
  intro j
  induction j with
  | zero => intro h; omega
  | succ j ih =>
    intro _ n b c hn hin
    obtain ⟨n, rfl⟩ : ∃ k, n = k + 1 := ⟨n - 1, by omega⟩
    have hc := hin 0 (by omega)
    simp only [Nat.cast_zero, zero_mul, add_zero] at hc
    by_cases hj : j = 0
    · subst hj
      refine ⟨setCell b c P, ?_, setCell_length b c P, ?_, ?_⟩
      · simp [flip_run_fuel]
      · intro t ht
        obtain rfl : t = 0 := by omega
        simpa using cell_setCell_self b c P hc.1 hc.2
      · intro i hi
        have := hi 0 (by omega)
        simp at this
        exact cell_setCell_ne b c P i this
    · have hne : c + d ≠ c + ((j + 1 : Nat) : Int) * d := by
        intro h
        have h2 : (j : Int) * d = 0 := by push_cast at h; linarith
        rcases mul_eq_zero.1 h2 with h3 | h3
        · exact hj (by exact_mod_cast h3)
        · exact hd h3
      have e : c + ((j + 1 : Nat) : Int) * d = c + d + (j : Int) * d := by push_cast; ring
      obtain ⟨b1, h1, hlen, h2, h3⟩ := ih (by omega) n (setCell b c P) (c + d) (by omega)
        (by
          intro t ht
          have := hin (t + 1) (by omega)
          rw [setCell_length]
          have e2 : c + d + (t : Int) * d = c + ((t + 1 : Nat) : Int) * d := by push_cast; ring
          rw [e2]; exact this)
      refine ⟨b1, ?_, by rw [hlen, setCell_length], ?_, ?_⟩
      · simp only [flip_run_fuel]
        rw [if_pos hne, e]
        exact h1
      · intro t ht
        rcases Nat.eq_zero_or_pos t with h0 | h0
        · subst h0
          have : b1 c = setCell b c P c := by
            apply h3
            intro u hu heq
            have h2 : ((u : Int) + 1) * d = 0 := by linarith
            rcases mul_eq_zero.1 h2 with h4 | h4
            · omega
            · exact hd h4
          simp only [Nat.cast_zero, zero_mul, add_zero]
          rw [this]
          exact cell_setCell_self b c P hc.1 hc.2
        · have := h2 (t - 1) (by omega)
          rw [← this]; congr 1
          have : ((t - 1 : Nat) : Int) = (t : Int) - 1 := by omega
          rw [this]; ring
      · intro i hi
        have hb1 : b1 i = setCell b c P i := by
          apply h3
          intro u hu heq
          apply hi (u + 1) (by omega)
          rw [heq]; push_cast; ring
        have hic : i ≠ c := by
          have := hi 0 (by omega)
          simpa using this
        rw [hb1]
        exact cell_setCell_ne b c P i hic

theorem flips_iff (b : Board) (m P d : Int) (hd : d ≠ 0) (k : Nat)
    (hk : would_flip b m d P = m + (k : Int) * d) (hne : would_flip b m d P ≠ 0) (c : Int) :
    Flips b m P d c ↔ ∃ t : Nat, 1 ≤ t ∧ t < k ∧ c = m + (t : Int) * d := by
  constructor
  · rintro ⟨_, k1, t, hk1, ht1, ht2, hc⟩
    have : k1 = k := by
      have h : (k1 : Int) * d = (k : Int) * d := by linarith
      have := mul_right_cancel₀ hd h
      exact_mod_cast this
    subst this
    exact ⟨t, ht1, ht2, hc⟩
  · rintro ⟨t, ht1, ht2, hc⟩
    exact ⟨hne, k, t, hk, ht1, ht2, hc⟩

/-- What `make_flips` does to a board `bd` of 100 cells on which `would_flip` answers
as on `b`, a board with the `OUTER` ring: the cells between the square and the
bracketing piece get the player, every other cell is kept. -/
theorem make_flips_char (b bd : Board) (hb : RingInv b) (hlen : bd.cells.length = 100)
    (m d P : Int) (hm : validp m ≠ 0)
    (hd : d ∈ ALLDIRECTIONS) (hsame : would_flip bd m d P = would_flip b m d P) :
    (make_flips bd m d P).cells.length = 100 ∧
    (∀ c, Flips b m P d c → make_flips bd m d P c = P) ∧
    (∀ c, ¬ Flips b m P d c → make_flips bd m d P c = bd c) := by
  have hd0 := direction_ne_zero d hd
  by_cases hwf : would_flip b m d P = 0
  · have hmf : make_flips bd m d P = bd := by simp [make_flips, hsame, hwf]
    refine ⟨by rw [hmf]; exact hlen, fun c hc => absurd hwf hc.1, fun c _ => by rw [hmf]⟩
  · obtain ⟨k, hk2, hk8, hwk, _, hval, _⟩ := bracket_of_would_flip b hb m d P hm hd hwf
    have e : m + (k : Int) * d = m + d + ((k - 1 : Nat) : Int) * d := by
      have : ((k - 1 : Nat) : Int) = (k : Int) - 1 := by omega
      rw [this]; ring
    obtain ⟨b1, h1, hl1, h2, h3⟩ :=
      flip_run_fuel_spec d P hd0 (k - 1) (by omega) 100 bd (m + d) (by omega)
        (by
          intro t ht
          have hv := (validp_ne_zero_iff _).1 (hval (t + 1) (by omega) (by omega))
          have e2 : m + d + (t : Int) * d = m + ((t + 1 : Nat) : Int) * d := by push_cast; ring
          rw [e2, hlen]
          constructor
          · omega
          · have : m + ((t + 1 : Nat) : Int) * d ≤ 88 := hv.2.1
            have h100 : ((100 : Nat) : Int) = 100 := rfl
            omega)
    have hmf : make_flips bd m d P = b1 := by
      simp only [make_flips, hsame]
      rw [if_pos hwf, hwk, e, h1]
      rfl
    rw [hmf]
    refine ⟨by rw [hl1]; exact hlen, ?_, ?_⟩
    · intro c hc
      obtain ⟨t, ht1, ht2, rfl⟩ := (flips_iff b m P d hd0 k hwk hwf c).1 hc
      have := h2 (t - 1) (by omega)
      rw [← this]; congr 1
      have : ((t - 1 : Nat) : Int) = (t : Int) - 1 := by omega
      rw [this]; ring
    · intro c hc
      apply h3
      intro t ht heq
      apply hc
      rw [flips_iff b m P d hd0 k hwk hwf c]
      exact ⟨t + 1, by omega, by omega, by rw [heq]; push_cast; ring⟩

/-- A flipped cell is a playable square within seven steps of `m`, it held the
opponent, and it is not `m`. -/
theorem flips_cell (b : Board) (hb : RingInv b) (m d P : Int) (hm : validp m ≠ 0)
    (hd : d ∈ ALLDIRECTIONS) (c : Int) (hc : Flips b m P d c) :
    ∃ t : Nat, 1 ≤ t ∧ t ≤ 7 ∧ c = m + (t : Int) * d ∧ validp c ≠ 0 ∧ b c = opponent P ∧
      c ≠ m := by
  obtain ⟨k, hk2, hk8, hwk, hrun, hval, _⟩ := bracket_of_would_flip b hb m d P hm hd hc.1
  obtain ⟨t, ht1, ht2, rfl⟩ := (flips_iff b m P d (direction_ne_zero d hd) k hwk hc.1 c).1 hc
  refine ⟨t, ht1, by omega, rfl, hval t ht1 ht2, hrun t ht1 ht2, ?_⟩
  intro h
  have h2 : (t : Int) * d = 0 := by linarith
  rcases mul_eq_zero.1 h2 with h3 | h3
  · omega
  · exact direction_ne_zero d hd h3

/-- The result of `would_flip` depends only on the eight cells of its ray. -/
theorem would_flip_congr (b b1 : Board) (hb : RingInv b) (m d P : Int) (hm : validp m ≠ 0)
    (hd : d ∈ ALLDIRECTIONS)
    (hag : ∀ t : Nat, 1 ≤ t → t ≤ 8 → b1 (m + (t : Int) * d) = b (m + (t : Int) * d)) :
    would_flip b1 m d P = would_flip b m d P := by
  obtain ⟨j, h1, h8, hstop, hrun, _, _, _, hwf, _⟩ := would_flip_char b hb m d P hm hd
  have h := (would_flip_of_first b1 m d P j h1 (by omega)
    (fun i hi hij => by rw [hag i hi (by omega)]; exact hrun i hi hij)
    (by rw [hag j h1 h8]; exact hstop)).1
  rw [h, hwf, hag j h1 h8]

theorem moveInv_step (b : Board) (hb : RingInv b) (m P : Int) (hm : validp m ≠ 0)
    (done : List Int) (hdone : ∀ e ∈ done, e ∈ ALLDIRECTIONS) (d : Int)
    (hd : d ∈ ALLDIRECTIONS) (hnot : d ∉ done) (bd : Board) (hinv : MoveInv b m P done bd) :
    MoveInv b m P (done ++ [d]) (make_flips bd m d P) := by
  obtain ⟨i0, i1, i2, i3⟩ := hinv
  have hd0 := direction_ne_zero d hd
  have hsame : would_flip bd m d P = would_flip b m d P := by
    apply would_flip_congr b bd hb m d P hm hd
    intro t ht1 ht8
    apply i3
    · intro h
      have h2 : (t : Int) * d = 0 := by linarith
      rcases mul_eq_zero.1 h2 with h3 | h3
      · omega
      · exact hd0 h3
    · rintro ⟨e, he, hfl⟩
      obtain ⟨u, hu1, hu7, hc, _⟩ := flips_cell b hb m e P hm (hdone e he) _ hfl
      have hne : d ≠ e := fun h => hnot (h ▸ he)
      exact rays_disjoint d e hd (hdone e he) hne t u ht1 ht8 hu1 (by omega) m hc
  obtain ⟨f0, f1, f2⟩ := make_flips_char b bd hb i0 m d P hm hd hsame
  have hm_not : ¬ Flips b m P d m := by
    intro h
    obtain ⟨_, _, _, _, _, _, hne⟩ := flips_cell b hb m d P hm hd m h
    exact hne rfl
  refine ⟨f0, by rw [f2 m hm_not]; exact i1, ?_, ?_⟩
  · rintro c hcm ⟨e, he, hfl⟩
    by_cases hcd : Flips b m P d c
    · exact f1 c hcd
    · rw [f2 c hcd]
      rcases List.mem_append.1 he with h | h
      · exact i2 c hcm ⟨e, h, hfl⟩
      · rw [List.mem_singleton] at h
        subst h
        exact absurd hfl hcd
  · intro c hcm hno
    have hcd : ¬ Flips b m P d c := fun h => hno ⟨d, by simp, h⟩
    rw [f2 c hcd]
    apply i3 c hcm
    rintro ⟨e, he, hfl⟩
    exact hno ⟨e, List.mem_append_left _ he, hfl⟩

theorem moveInv_fold (b : Board) (hb : RingInv b) (m P : Int) (hm : validp m ≠ 0) :
    ∀ (ds done : List Int) (bd : Board), (∀ e ∈ done, e ∈ ALLDIRECTIONS) →
      (∀ e ∈ ds, e ∈ ALLDIRECTIONS) → (∀ e ∈ ds, e ∉ done) → ds.Nodup →
      MoveInv b m P done bd →
      MoveInv b m P (done ++ ds) (ds.foldl (fun bd d => make_flips bd m d P) bd) := by
  intro ds
  induction ds with
  | nil => intro done bd _ _ _ _ h; simpa using h
  | cons d ds ih =>
    intro done bd hdone hds hnot hnodup hinv
    have hstep := moveInv_step b hb m P hm done hdone d (hds d (by simp)) (hnot d (by simp)) bd hinv
    have := ih (done ++ [d]) (make_flips bd m d P)
      (by
        intro e he
        rcases List.mem_append.1 he with h | h
        · exact hdone e h
        · rw [List.mem_singleton] at h; subst h; exact hds e (by simp))
      (fun e he => hds e (List.mem_cons_of_mem _ he))
      (by
        intro e he hmem
        rcases List.mem_append.1 hmem with h | h
        · exact hnot e (List.mem_cons_of_mem _ he) h
        · rw [List.mem_singleton] at h
          subst h
          exact (List.nodup_cons.1 hnodup).1 he)
      (List.nodup_cons.1 hnodup).2 hstep
    simpa [List.foldl, List.append_assoc] using this

/-- The board after `make_move`, in terms of the brackets of the board before. -/
theorem make_move_inv (b : Board) (hb : RingInv b) (m P : Int) (hm : validp m ≠ 0) :
    MoveInv b m P ALLDIRECTIONS (make_move b m P) := by
  have := moveInv_fold b hb m P hm ALLDIRECTIONS [] (setCell b m P) (by simp) (fun e he => he)
    (by simp) (by decide)
    ⟨by rw [setCell_length]; exact hb.1,
      cell_setCell_self b m P (by rw [validp_ne_zero_iff] at hm; omega)
        (by rw [validp_ne_zero_iff] at hm; rw [hb.1]; have h100 : ((100 : Nat) : Int) = 100 := rfl; omega),
      fun c _ h => by simp at h, fun c hc _ => cell_setCell_ne b m P c hc⟩
  simpa [make_move] using this

/-- After `make_move` every cell holds the player or what it held before; a cell that
changed is a playable square. -/
theorem make_move_cell (b : Board) (hb : RingInv b) (m P : Int) (hm : validp m ≠ 0) (c : Int) :
    make_move b m P c = b c ∨ (make_move b m P c = P ∧ validp c ≠ 0) := by
  obtain ⟨_, i1, i2, i3⟩ := make_move_inv b hb m P hm
  by_cases hcm : c = m
  · subst hcm; exact Or.inr ⟨i1, hm⟩
  · by_cases hfl : ∃ d ∈ ALLDIRECTIONS, Flips b m P d c
    · obtain ⟨d, hd, hf⟩ := hfl
      obtain ⟨_, _, _, _, hv, _, _⟩ := flips_cell b hb m d P hm hd c hf
      exact Or.inr ⟨i2 c hcm ⟨d, hd, hf⟩, hv⟩
    · exact Or.inl (i3 c hcm hfl)

theorem make_move_ringInv (b : Board) (hb : RingInv b) (m P : Int) (hm : validp m ≠ 0)
    (hP : P = BLACK ∨ P = WHITE) : RingInv (make_move b m P) := by
  refine ⟨(make_move_inv b hb m P hm).1, fun i h0 h1 => ?_⟩
  rcases make_move_cell b hb m P hm i with h | ⟨h, hv⟩
  · rw [h]; exact hb.2 i h0 h1
  · refine ⟨fun h0 => absurd h0 hv, fun _ => ?_⟩
    rw [h]
    rcases hP with rfl | rfl <;> decide

theorem make_move_wellFormed (b : Board) (hb : WellFormed b) (m P : Int) (hm : validp m ≠ 0)
    (hP : P = BLACK ∨ P = WHITE) : WellFormed (make_move b m P) := by
  refine ⟨(make_move_inv b hb.ringInv m P hm).1, fun i h0 h1 => ?_⟩
  rcases make_move_cell b hb.ringInv m P hm i with h | ⟨h, hv⟩
  · rw [h]; exact hb.2 i h0 h1
  · refine ⟨fun h0 => absurd h0 hv, fun _ => ?_⟩
    rw [h]
    rcases hP with rfl | rfl
    · exact Or.inr (Or.inl rfl)
    · exact Or.inr (Or.inr rfl)

theorem countP_succ_le {α : Type} (p q : α → Bool) :
    ∀ (L : List α), (∀ x ∈ L, p x = true → q x = true) → ∀ m ∈ L, p m = false → q m = true →
      L.countP p + 1 ≤ L.countP q := by
  intro L
  induction L with
  | nil => intro _ m hm; simp at hm
  | cons x xs ih =>
    intro himp m hm hpm hqm
    have himp1 : ∀ y ∈ xs, p y = true → q y = true := fun y hy => himp y (List.mem_cons_of_mem _ hy)
    rcases List.mem_cons.1 hm with h | h
    · subst h
      have := List.countP_mono_left himp1
      simp only [List.countP_cons, hpm, hqm]
      simp
      omega
    · have := ih himp1 m h hpm hqm
      simp only [List.countP_cons]
      by_cases hx : p x = true
      · simp [hx, himp x (by simp) hx]; omega
      · simp [hx]; omega

theorem mem_legal_moves_tail (b : Board) (P m : Int) :
    m ∈ (legal_moves b P).tail ↔
      (validp m ≠ 0 ∧ b m = EMPTY ∧ ∃ d ∈ ALLDIRECTIONS, would_flip b m d P ≠ 0) := by
  simp only [legal_moves, List.tail_cons, List.mem_filter, mem_SQUARES, decide_eq_true_eq]
  unfold legalp
  constructor
  · rintro ⟨_, h⟩
    by_cases hv : validp m = 0
    · simp [hv] at h
    · by_cases he : b m = EMPTY
      · simp only [hv, he, if_true, if_false] at h
        refine ⟨hv, he, ?_⟩
        by_contra hno
        apply h
        rw [if_pos]
        rw [List.all_eq_true]
        intro d hd
        simp only [decide_eq_true_eq]
        by_contra hne
        exact hno ⟨d, hd, hne⟩
      · simp [hv, he] at h
  · rintro ⟨hv, he, d, hd, hne⟩
    refine ⟨by rw [validp_ne_zero_iff] at hv; omega, ?_⟩
    rw [if_neg hv, if_pos he, if_neg]
    · decide
    · rw [List.all_eq_true]
      intro hall
      have := hall d hd
      simp only [decide_eq_true_eq] at this
      exact hne this

/-! ## The process state and the evaluator -/

theorem probe_recv_board (s : State) : (probe_recv s).board = s.board := by
  unfold probe_recv; split_ifs <;> rfl

theorem probe_recv_max_colour (s : State) : (probe_recv s).max_colour = s.max_colour := by
  unfold probe_recv; split_ifs <;> rfl

theorem probe_recv_gen_calls (s : State) : (probe_recv s).gen_calls = s.gen_calls := by
  unfold probe_recv; split_ifs <;> rfl

theorem Quiet.probe_flag {s : State} (h : Quiet s) : probe_flag s = false := by
  unfold Othello.probe_flag
  rcases hs : s.inbox with _ | ⟨x, rest⟩
  · rfl
  · simp only [List.headD_cons]
    exact h.2 x (by rw [hs]; simp)

theorem Quiet.probe_recv {s : State} (h : Quiet s) : Quiet (probe_recv s) := by
  unfold Othello.probe_recv
  rw [h.probe_flag]
  simp only [Bool.false_eq_true, if_false]
  exact ⟨h.1, fun x hx => h.2 x (List.mem_of_mem_tail hx)⟩

theorem cdiv_natAbs_le (a b : Int) : (cdiv a b).natAbs ≤ a.natAbs := by
  unfold cdiv
  rw [Int.natAbs_tdiv]
  exact Nat.div_le_self _ _

theorem cdiv_abs_le (a b c : Int) (h : -c ≤ a ∧ a ≤ c) : -c ≤ cdiv a b ∧ cdiv a b ≤ c := by
  have := cdiv_natAbs_le a b
  omega

theorem stability_update_fst (board : Board) (mc loc value : Int) (acc : StabAcc) :
    ((stability_update board mc loc value acc).1.max_val.natAbs
      + (stability_update board mc loc value acc).1.min_val.natAbs
        ≤ acc.max_val.natAbs + acc.min_val.natAbs + 1) := by
  unfold stability_update
  simp only
  split_ifs <;> simp only <;> omega

/-- The loop of `eval_stability` changes neither the board nor the maximizing colour nor
the count of move generations. -/
theorem stability_loop_frame :
    ∀ (L : List Int) (acc : StabAcc) (s : State),
      (stability_loop L acc s).2.board = s.board ∧
      (stability_loop L acc s).2.max_colour = s.max_colour ∧
      (stability_loop L acc s).2.gen_calls = s.gen_calls := by
  intro L
  induction L with
  | nil => intro acc s; simp [stability_loop]
  | cons loc rest ih =>
    intro acc s
    simp only [stability_loop]
    split_ifs
    · exact ⟨probe_recv_board s, probe_recv_max_colour s, probe_recv_gen_calls s⟩
    · obtain ⟨h1, h2, h3⟩ := ih acc (probe_recv s)
      exact ⟨h1.trans (probe_recv_board s), h2.trans (probe_recv_max_colour s),
        h3.trans (probe_recv_gen_calls s)⟩
    · exact ⟨probe_recv_board s, probe_recv_max_colour s, probe_recv_gen_calls s⟩
    · obtain ⟨h1, h2, h3⟩ := ih (stability_update (probe_recv s).board (probe_recv s).max_colour loc
        (stability_value (probe_recv s).board acc.stability_board loc) acc).1 (probe_recv s)
      exact ⟨h1.trans (probe_recv_board s), h2.trans (probe_recv_max_colour s),
        h3.trans (probe_recv_gen_calls s)⟩

/-- With no timeout raised, the loop of `eval_stability` runs to its end, stays quiet,
gives a result that depends only on the board and the maximizing colour, and counts at
most one piece per square visited. -/
theorem stability_loop_quiet :
    ∀ (L : List Int) (acc : StabAcc) (s : State), Quiet s →
      Quiet (stability_loop L acc s).2 ∧
      (∃ acc1, (stability_loop L acc s).1 = some acc1 ∧
        acc1.max_val.natAbs + acc1.min_val.natAbs
          ≤ acc.max_val.natAbs + acc.min_val.natAbs + L.length) ∧
      (∀ s1 : State, Quiet s1 → s1.board = s.board → s1.max_colour = s.max_colour →
        (stability_loop L acc s1).1 = (stability_loop L acc s).1) := by
  intro L
  induction L with
  | nil =>
    intro acc s hq
    exact ⟨hq, ⟨acc, rfl, by simp⟩, fun _ _ _ _ => rfl⟩
  | cons loc rest ih =>
    intro acc s hq
    have hf := hq.probe_flag
    have hq1 := hq.probe_recv
    have key : ∀ s1 : State, Quiet s1 → s1.board = s.board → s1.max_colour = s.max_colour →
        stability_loop (loc :: rest) acc s1 =
          (if s.board loc = EMPTY then stability_loop rest acc (probe_recv s1)
           else if (stability_update s.board s.max_colour loc
               (stability_value s.board acc.stability_board loc) acc).2 = true
             then (some (stability_update s.board s.max_colour loc
               (stability_value s.board acc.stability_board loc) acc).1, probe_recv s1)
             else stability_loop rest (stability_update s.board s.max_colour loc
               (stability_value s.board acc.stability_board loc) acc).1 (probe_recv s1)) := by
      intro s1 h1 hb hc
      simp only [stability_loop, h1.probe_flag, Bool.false_eq_true, if_false,
        probe_recv_board, probe_recv_max_colour, hb, hc]
    rw [key s hq rfl rfl]
    by_cases he : s.board loc = EMPTY
    · simp only [he, if_true]
      obtain ⟨i1, ⟨acc1, i2, i3⟩, i4⟩ := ih acc (probe_recv s) hq1
      refine ⟨i1, ⟨acc1, i2, by simp only [List.length_cons]; omega⟩, ?_⟩
      intro s1 h1 hb hc
      rw [key s1 h1 hb hc]
      simp only [he, if_true]
      exact i4 (probe_recv s1) h1.probe_recv
        (by rw [probe_recv_board, probe_recv_board, hb])
        (by rw [probe_recv_max_colour, probe_recv_max_colour, hc])
    · simp only [he, if_false]
      have hup := stability_update_fst s.board s.max_colour loc
        (stability_value s.board acc.stability_board loc) acc
      by_cases hbr : (stability_update s.board s.max_colour loc
          (stability_value s.board acc.stability_board loc) acc).2 = true
      · simp only [hbr, if_true]
        refine ⟨hq1, ⟨_, rfl, by simp only [List.length_cons]; omega⟩, ?_⟩
        intro s1 h1 hb hc
        rw [key s1 h1 hb hc]
        simp only [he, if_false, hbr, if_true]
      · simp only [hbr, if_false]
        obtain ⟨i1, ⟨acc1, i2, i3⟩, i4⟩ := ih (stability_update s.board s.max_colour loc
          (stability_value s.board acc.stability_board loc) acc).1 (probe_recv s) hq1
        refine ⟨i1, ⟨acc1, i2, by simp only [List.length_cons]; omega⟩, ?_⟩
        intro s1 h1 hb hc
        rw [key s1 h1 hb hc]
        simp only [he, if_false, hbr]
        exact i4 (probe_recv s1) h1.probe_recv
          (by rw [probe_recv_board, probe_recv_board, hb])
          (by rw [probe_recv_max_colour, probe_recv_max_colour, hc])

theorem eval_stability_frame (s : State) :
    (eval_stability s).2.board = s.board ∧ (eval_stability s).2.max_colour = s.max_colour := by
  have h := stability_loop_frame spiral ⟨zeroMem, TRUE, 0, 0⟩ s
  unfold eval_stability
  rcases hr : stability_loop spiral ⟨zeroMem, TRUE, 0, 0⟩ s with ⟨_ | acc, s1⟩
  · rw [hr] at h; exact ⟨h.1, h.2.1⟩
  · rw [hr] at h
    simp only
    split_ifs <;> exact ⟨h.1, h.2.1⟩

theorem eval_stability_quiet (s : State) (hq : Quiet s) :
    Quiet (eval_stability s).2 ∧
    (-6400 ≤ (eval_stability s).1 ∧ (eval_stability s).1 ≤ 6400) ∧
    (∀ s1 : State, Quiet s1 → s1.board = s.board → s1.max_colour = s.max_colour →
      (eval_stability s1).1 = (eval_stability s).1) := by
  obtain ⟨h1, ⟨acc1, h2, h3⟩, h4⟩ := stability_loop_quiet spiral ⟨zeroMem, TRUE, 0, 0⟩ s hq
  have hlen : spiral.length = 64 := by decide
  have hval : ∀ st : State, (stability_loop spiral ⟨zeroMem, TRUE, 0, 0⟩ st).1 = some acc1 →
      (eval_stability st).1 = (if acc1.max_val + acc1.min_val = 0 then 0
        else cdiv (100 * (acc1.max_val - acc1.min_val)) (acc1.max_val + acc1.min_val)) ∧
      (eval_stability st).2 = (stability_loop spiral ⟨zeroMem, TRUE, 0, 0⟩ st).2 := by
    intro st hst
    unfold eval_stability
    rcases hr : stability_loop spiral ⟨zeroMem, TRUE, 0, 0⟩ st with ⟨o, s1⟩
    rw [hr] at hst
    simp only at hst
    subst hst
    simp only
    split_ifs <;> exact ⟨rfl, rfl⟩
  refine ⟨by rw [(hval s h2).2]; exact h1, ?_, ?_⟩
  · rw [(hval s h2).1]
    simp only [hlen, Int.natAbs_zero] at h3
    split_ifs
    · omega
    · apply cdiv_abs_le
      omega
  · intro s1 hq1 hb hc
    rw [(hval s h2).1, (hval s1 (by rw [h4 s1 hq1 hb hc]; exact h2)).1]

theorem legal_moves_head_bound (b : Board) (P : Int) :
    0 ≤ (legal_moves b P).headD 0 ∧ (legal_moves b P).headD 0 ≤ 78 := by
  unfold legal_moves
  simp only [List.headD_cons]
  have h1 := List.length_filter_le (fun move => decide (legalp b move P ≠ 0)) SQUARES
  have h2 : SQUARES.length = 78 := by decide
  omega

theorem eval_mobility_bound (s : State) :
    -7800 ≤ (eval_mobility s).1 ∧ (eval_mobility s).1 ≤ 7800 := by
  have h1 := legal_moves_head_bound s.board s.max_colour
  have h2 := legal_moves_head_bound s.board (opponent s.max_colour)
  unfold eval_mobility
  simp only
  split_ifs
  · simp
  · apply cdiv_abs_le
    omega

theorem count_bound (P : Int) (b : Board) : 0 ≤ count P b ∧ count P b ≤ 88 := by
  unfold count
  have h := List.countP_le_length (fun i => decide (b i = P))
    (l := (List.range 88).map (fun (k : Nat) => (1 : Int) + (k : Int)))
  simp only [List.length_map, List.length_range] at h
  omega

theorem eval_parity_bound (s : State) : -10000 ≤ eval_parity s ∧ eval_parity s ≤ 10000 := by
  have h1 := count_bound s.max_colour s.board
  have h2 := count_bound (opponent s.max_colour) s.board
  unfold eval_parity
  simp only
  split_ifs
  · omega
  · apply cdiv_abs_le
    omega

theorem ite_one_zero_bound (p : Prop) [Decidable p] :
    0 ≤ (if p then (1 : Int) else 0) ∧ (if p then (1 : Int) else 0) ≤ 1 := by
  split_ifs <;> omega

theorem eval_corners_bound (s : State) : -400 ≤ eval_corners s ∧ eval_corners s ≤ 400 := by
  unfold eval_corners
  simp only
  have a1 := ite_one_zero_bound (s.board 11 = s.max_colour)
  have a2 := ite_one_zero_bound (s.board 18 = s.max_colour)
  have a3 := ite_one_zero_bound (s.board 81 = s.max_colour)
  have a4 := ite_one_zero_bound (s.board 88 = s.max_colour)
  have b1 := ite_one_zero_bound (s.board 11 = opponent s.max_colour)
  have b2 := ite_one_zero_bound (s.board 18 = opponent s.max_colour)
  have b3 := ite_one_zero_bound (s.board 81 = opponent s.max_colour)
  have b4 := ite_one_zero_bound (s.board 88 = opponent s.max_colour)
  generalize (if s.board 11 = s.max_colour then (1 : Int) else 0) = x1 at *
  generalize (if s.board 18 = s.max_colour then (1 : Int) else 0) = x2 at *
  generalize (if s.board 81 = s.max_colour then (1 : Int) else 0) = x3 at *
  generalize (if s.board 88 = s.max_colour then (1 : Int) else 0) = x4 at *
  generalize (if s.board 11 = opponent s.max_colour then (1 : Int) else 0) = y1 at *
  generalize (if s.board 18 = opponent s.max_colour then (1 : Int) else 0) = y2 at *
  generalize (if s.board 81 = opponent s.max_colour then (1 : Int) else 0) = y3 at *
  generalize (if s.board 88 = opponent s.max_colour then (1 : Int) else 0) = y4 at *
  split_ifs
  · omega
  · apply cdiv_abs_le
    omega

theorem eval_position_frame (s : State) :
    (eval_position s).2.board = s.board ∧ (eval_position s).2.max_colour = s.max_colour := by
  have hm : (eval_mobility s).2.board = s.board ∧ (eval_mobility s).2.max_colour = s.max_colour := by
    unfold eval_mobility; simp only; split_ifs <;> exact ⟨rfl, rfl⟩
  have hs := eval_stability_frame (eval_mobility s).2
  unfold eval_position
  simp only
  split_ifs
  · exact ⟨hs.1.trans hm.1, hs.2.trans hm.2⟩
  · exact ⟨hs.1.trans hm.1, hs.2.trans hm.2⟩
  · exact ⟨rfl, rfl⟩

theorem eval_mobility_quiet (s : State) (hq : Quiet s) :
    Quiet (eval_mobility s).2 ∧ (eval_mobility s).2.board = s.board ∧
    (eval_mobility s).2.max_colour = s.max_colour ∧
    (∀ s1 : State, s1.board = s.board → s1.max_colour = s.max_colour →
      (eval_mobility s1).1 = (eval_mobility s).1) := by
  unfold eval_mobility
  simp only
  refine ⟨?_, ?_, ?_, ?_⟩
  · split_ifs <;> exact hq
  · split_ifs <;> rfl
  · split_ifs <;> rfl
  · intro s1 hb hc
    rw [hb, hc]
    split_ifs <;> rfl

/-- With no timeout raised, `eval_position` stays quiet, returns a score strictly
between -1000000 and 1000000, and the score depends only on the board and the
maximizing colour. -/
theorem eval_position_quiet (s : State) (hq : Quiet s) :
    Quiet (eval_position s).2 ∧
    (-1000000 < (eval_position s).1 ∧ (eval_position s).1 < 1000000) ∧
    (∀ s1 : State, Quiet s1 → s1.board = s.board → s1.max_colour = s.max_colour →
      (eval_position s1).1 = (eval_position s).1) := by
  obtain ⟨m1, m2, m3, m4⟩ := eval_mobility_quiet s hq
  obtain ⟨t1, t2, t3⟩ := eval_stability_quiet (eval_mobility s).2 m1
  have p := eval_parity_bound s
  have c := eval_corners_bound s
  have mb := eval_mobility_bound s
  have hpar : ∀ s1 : State, s1.board = s.board → s1.max_colour = s.max_colour →
      eval_parity s1 = eval_parity s := by
    intro s1 hb hc; unfold eval_parity; rw [hb, hc]
  have hcor : ∀ s1 : State, s1.board = s.board → s1.max_colour = s.max_colour →
      eval_corners s1 = eval_corners s := by
    intro s1 hb hc; unfold eval_corners; rw [hb, hc]
  have hstab : ∀ s1 : State, Quiet s1 → s1.board = s.board → s1.max_colour = s.max_colour →
      (eval_stability (eval_mobility s1).2).1 = (eval_stability (eval_mobility s).2).1 := by
    intro s1 hq1 hb hc
    obtain ⟨n1, n2, n3, _⟩ := eval_mobility_quiet s1 hq1
    exact t3 _ n1 (by rw [n2, m2, hb]) (by rw [n3, m3, hc])
  refine ⟨?_, ?_, ?_⟩
  · unfold eval_position
    simp only
    split_ifs
    · exact t1
    · exact t1
    · exact hq
  · unfold eval_position
    simp only
    split_ifs
    · constructor <;> simp only <;> omega
    · constructor <;> simp only <;> omega
    · constructor <;> simp only <;> omega
  · intro s1 hq1 hb hc
    unfold eval_position
    simp only
    rw [hb, hc, hpar s1 hb hc, hcor s1 hb hc, m4 s1 hb hc, hstab s1 hq1 hb hc]
    split_ifs <;> rfl

theorem eval_value_of_quiet (s : State) (hq : Quiet s) :
    (eval_position s).1 = eval_value s.max_colour s.board := by
  unfold eval_value
  have hq0 : Quiet ⟨s.board, s.max_colour, FALSE, [], 0⟩ := ⟨rfl, fun x hx => by simp at hx⟩
  exact ((eval_position_quiet s hq).2.2 _ hq0 rfl rfl).symm

theorem eval_value_bound (mc : Int) (b : Board) :
    -1000000 < eval_value mc b ∧ eval_value mc b < 1000000 := by
  unfold eval_value
  exact (eval_position_quiet ⟨b, mc, FALSE, [], 0⟩ ⟨rfl, fun x hx => by simp at hx⟩).2.1

/-! ## The search: what it leaves behind -/

theorem board_of_cells_eq (b : Board) (h : b.cells.length = 100) :
    (⟨(List.range 100).map (fun (i : Nat) => b (i : Int))⟩ : Board) = b := by
  rcases b with ⟨cells⟩
  simp only at h
  congr 1
  apply List.ext_getElem
  · simp [h]
  · intro n h1 h2
    simp only [List.getElem_map, List.getElem_range]
    show Board.cell _ _ = _
    unfold Board.cell
    have : ¬ ((n : Int) < 0) := by omega
    simp only [this, if_false, Int.toNat_ofNat]
    rw [List.getD_eq_getElem?_getD, List.getElem?_eq_getElem h2]
    rfl

/-- Saving the board with `copy_board(board, board_copy)` into a fresh block and copying
it back over a board of 100 cells gives the saved board again. -/
theorem copy_board_restore (b y : Board) (hb : b.cells.length = 100)
    (hy : y.cells.length = 100) : copy_board (copy_board b zeroMem) y = b := by
  have h1 : copy_board b zeroMem = b := by
    unfold copy_board zeroMem
    simp only [List.drop_replicate, Nat.sub_self, List.replicate_zero, List.append_nil]
    exact board_of_cells_eq b hb
  rw [h1]
  unfold copy_board
  rw [List.drop_of_length_le (by omega), List.append_nil]
  exact board_of_cells_eq b hb

theorem max_loop_frame (child : Int → Int → State → Int × State) (B : Board) (cur mc : Int)
    (hB : B.cells.length = 100) :
    ∀ (L : List Int),
      (∀ mv ∈ L, ∀ (a b : Int) (st : State), st.board = make_move B mv cur → st.max_colour = mc →
        (child a b st).2.board = st.board ∧ (child a b st).2.max_colour = mc) →
      (∀ mv ∈ L, (make_move B mv cur).cells.length = 100) →
      ∀ (M a b : Int) (st : State), st.board = B → st.max_colour = mc →
        (max_loop child (copy_board B zeroMem) cur L M a b st).2.board = B ∧
        (max_loop child (copy_board B zeroMem) cur L M a b st).2.max_colour = mc := by
  intro L
  induction L with
  | nil => intro _ _ M a b st h1 h2; exact ⟨h1, h2⟩
  | cons mv rest ih =>
    intro hchild hlen M a b st h1 h2
    have hc := hchild mv (by simp) a b { st with board := make_move st.board mv cur }
      (by simp [h1]) h2
    have hrest : copy_board (copy_board B zeroMem)
        (child a b { st with board := make_move st.board mv cur }).2.board = B := by
      apply copy_board_restore B _ hB
      rw [hc.1]
      simpa [h1] using hlen mv (by simp)
    simp only [max_loop]
    split_ifs <;> first
      | exact ⟨hrest, hc.2⟩
      | exact ih (fun m hm => hchild m (List.mem_cons_of_mem _ hm))
          (fun m hm => hlen m (List.mem_cons_of_mem _ hm)) _ _ _ _ hrest hc.2

theorem min_loop_frame (child : Int → Int → State → Int × State) (B : Board) (cur mc : Int)
    (hB : B.cells.length = 100) :
    ∀ (L : List Int),
      (∀ mv ∈ L, ∀ (a b : Int) (st : State), st.board = make_move B mv cur → st.max_colour = mc →
        (child a b st).2.board = st.board ∧ (child a b st).2.max_colour = mc) →
      (∀ mv ∈ L, (make_move B mv cur).cells.length = 100) →
      ∀ (M a b : Int) (st : State), st.board = B → st.max_colour = mc →
        (min_loop child (copy_board B zeroMem) cur L M a b st).2.board = B ∧
        (min_loop child (copy_board B zeroMem) cur L M a b st).2.max_colour = mc := by
  intro L
  induction L with
  | nil => intro _ _ M a b st h1 h2; exact ⟨h1, h2⟩
  | cons mv rest ih =>
    intro hchild hlen M a b st h1 h2
    have hc := hchild mv (by simp) a b { st with board := make_move st.board mv cur }
      (by simp [h1]) h2
    have hrest : copy_board (copy_board B zeroMem)
        (child a b { st with board := make_move st.board mv cur }).2.board = B := by
      apply copy_board_restore B _ hB
      rw [hc.1]
      simpa [h1] using hlen mv (by simp)
    simp only [min_loop]
    split_ifs <;> first
      | exact ⟨hrest, hc.2⟩
      | exact ih (fun m hm => hchild m (List.mem_cons_of_mem _ hm))
          (fun m hm => hlen m (List.mem_cons_of_mem _ hm)) _ _ _ _ hrest hc.2

/-- On a well-formed board, `minimax` returns with the board and the maximizing colour
it was called with, whatever messages arrive. -/
theorem minimax_frame :
    ∀ (d : Nat) (cur a b : Int) (s : State), WellFormed s.board → (cur = BLACK ∨ cur = WHITE) →
      (minimax d cur a b s).2.board = s.board ∧
      (minimax d cur a b s).2.max_colour = s.max_colour := by
  intro d
  induction d with
  | zero =>
    intro cur a b s _ _
    simp only [minimax]
    split_ifs
    · exact ⟨probe_recv_board s, probe_recv_max_colour s⟩
    · have := eval_position_frame { probe_recv s with gen_calls := (probe_recv s).gen_calls + 1 }
      exact ⟨this.1.trans (probe_recv_board s), this.2.trans (probe_recv_max_colour s)⟩
  | succ d ih =>
    intro cur a b s hwf hcur
    have hwf1 : WellFormed (probe_recv s).board := by rw [probe_recv_board]; exact hwf
    have hchild : ∀ mv ∈ (legal_moves (probe_recv s).board cur).tail, ∀ (a b : Int) (st : State),
        st.board = make_move (probe_recv s).board mv cur → st.max_colour = (probe_recv s).max_colour →
        (minimax d (opponent cur) a b st).2.board = st.board ∧
        (minimax d (opponent cur) a b st).2.max_colour = (probe_recv s).max_colour := by
      intro mv hmv a b st hb hc
      have hv := ((mem_legal_moves_tail _ _ _).1 hmv).1
      have := ih (opponent cur) a b st
        (by rw [hb]; exact make_move_wellFormed _ hwf1 mv cur hv hcur) (opponent_player cur hcur)
      exact ⟨this.1, this.2.trans hc⟩
    have hlen : ∀ mv ∈ (legal_moves (probe_recv s).board cur).tail,
        (make_move (probe_recv s).board mv cur).cells.length = 100 := by
      intro mv hmv
      have hv := ((mem_legal_moves_tail _ _ _).1 hmv).1
      exact (make_move_wellFormed _ hwf1 mv cur hv hcur).1
    simp only [minimax]
    split_ifs
    · exact ⟨probe_recv_board s, probe_recv_max_colour s⟩
    · have := eval_position_frame { probe_recv s with gen_calls := (probe_recv s).gen_calls + 1 }
      exact ⟨this.1.trans (probe_recv_board s), this.2.trans (probe_recv_max_colour s)⟩
    · have := max_loop_frame (fun a b st => minimax d (opponent cur) a b st) (probe_recv s).board
        cur (probe_recv s).max_colour hwf1.1 _ hchild hlen (-1000000) a b
        { probe_recv s with gen_calls := (probe_recv s).gen_calls + 1 } rfl rfl
      exact ⟨this.1.trans (probe_recv_board s), this.2.trans (probe_recv_max_colour s)⟩
    · have := min_loop_frame (fun a b st => minimax d (opponent cur) a b st) (probe_recv s).board
        cur (probe_recv s).max_colour hwf1.1 _ hchild hlen 1000000 a b
        { probe_recv s with gen_calls := (probe_recv s).gen_calls + 1 } rfl rfl
      exact ⟨this.1.trans (probe_recv_board s), this.2.trans (probe_recv_max_colour s)⟩

/-! ## The search: alpha-beta against plain minimax -/

theorem ite_gt_eq_max (x M : Int) : (if x > M then x else M) = max M x := by
  rw [max_def]; split_ifs <;> omega

theorem ite_lt_eq_min (x M : Int) : (if x < M then x else M) = min M x := by
  rw [min_def]; split_ifs <;> omega

theorem quiet_with_board (s : State) (b : Board) (h : Quiet s) :
    Quiet { s with board := b } := h

theorem quiet_with_gen_calls (s : State) (n : Nat) (h : Quiet s) :
    Quiet { s with gen_calls := n } := h

theorem contract_cases (x v a b : Int) (h : Contract x v a b) :
    (a < x ∧ x < b ∧ x = v) ∨ (x ≤ a ∧ v ≤ x) ∨ (b ≤ x ∧ x ≤ v) := by
  obtain ⟨c1, c2, c3⟩ := h
  by_cases h1 : x ≤ a
  · exact Or.inr (Or.inl ⟨h1, c2 h1⟩)
  · by_cases h2 : b ≤ x
    · exact Or.inr (Or.inr ⟨h2, c3 h2⟩)
    · exact Or.inl ⟨by omega, by omega, c1 (by omega) (by omega)⟩

/-- The maximizing loop under a quiet state, for every window `a < b`.  The running
maximum `M` is at most `alpha`, or (when the loop starts) the list is not empty and `M`
is below every child value.  The loop ends quiet on the saved board, and its result `R`
is at least `M`, bounds every child value from above unless it reached `beta`, and is
bounded by some child value once it exceeds `alpha`. -/
theorem max_loop_window (child : Int → Int → State → Int × State) (B : Board) (cur mc : Int)
    (vals : Int → Int) (hB : B.cells.length = 100) :
    ∀ (L : List Int),
      (∀ mv ∈ L, ∀ (a b : Int) (st : State), Quiet st → st.board = make_move B mv cur →
        st.max_colour = mc → a < b →
        Quiet (child a b st).2 ∧ (child a b st).2.board = st.board ∧
          (child a b st).2.max_colour = mc ∧ Contract (child a b st).1 (vals mv) a b) →
      (∀ mv ∈ L, (make_move B mv cur).cells.length = 100) →
      ∀ (M a b : Int) (st : State), Quiet st → st.board = B → st.max_colour = mc →
        a < b → (M ≤ a ∨ (L ≠ [] ∧ ∀ mv ∈ L, M < vals mv)) →
        Quiet (max_loop child (copy_board B zeroMem) cur L M a b st).2 ∧
        (max_loop child (copy_board B zeroMem) cur L M a b st).2.board = B ∧
        (max_loop child (copy_board B zeroMem) cur L M a b st).2.max_colour = mc ∧
        M ≤ (max_loop child (copy_board B zeroMem) cur L M a b st).1 ∧
        ((max_loop child (copy_board B zeroMem) cur L M a b st).1 < b →
          ∀ mv ∈ L, vals mv ≤ (max_loop child (copy_board B zeroMem) cur L M a b st).1) ∧
        (a < (max_loop child (copy_board B zeroMem) cur L M a b st).1 →
          ∃ mv ∈ L, (max_loop child (copy_board B zeroMem) cur L M a b st).1 ≤ vals mv) := by
  intro L
  induction L with
  | nil =>
    intro _ _ M a b st hq h1 h2 _ hMa
    simp only [max_loop]
    rcases hMa with hMa | ⟨hne, _⟩
    · exact ⟨hq, h1, h2, le_refl _, fun _ mv hmv => by simp at hmv, fun h => by omega⟩
    · exact absurd rfl hne
  | cons mv rest ih =>
    intro hchild hlen M a b st hq h1 h2 hab hMa
    have hM : M ≤ a ∨ M < vals mv := by
      rcases hMa with h | ⟨_, h⟩
      · exact Or.inl h
      · exact Or.inr (h mv (by simp))
    obtain ⟨cq, cb, cc, cct⟩ := hchild mv (by simp) a b
      { st with board := make_move st.board mv cur } (quiet_with_board st _ hq)
      (by simp [h1]) h2 hab
    have hc := contract_cases _ _ _ _ cct
    have hrest : copy_board (copy_board B zeroMem)
        (child a b { st with board := make_move st.board mv cur }).2.board = B := by
      apply copy_board_restore B _ hB
      rw [cb]
      simpa [h1] using hlen mv (by simp)
    simp only [max_loop, ite_gt_eq_max]
    generalize hx : (child a b { st with board := make_move st.board mv cur }).1 = x at *
    obtain ⟨M1, hM1, m1, m2, m3⟩ : ∃ M1, M1 = max M x ∧ M ≤ M1 ∧ x ≤ M1 ∧ (M1 = M ∨ M1 = x) :=
      ⟨_, rfl, le_max_left _ _, le_max_right _ _, max_choice M x⟩
    rw [← hM1]
    obtain ⟨a1, ha1, n1, n2, n3⟩ : ∃ a1, a1 = max a M1 ∧ a ≤ a1 ∧ M1 ≤ a1 ∧ (a1 = a ∨ a1 = M1) :=
      ⟨_, rfl, le_max_left _ _, le_max_right _ _, max_choice a M1⟩
    rw [← ha1]
    by_cases hbr : b ≤ a1
    · rw [if_pos hbr]
      refine ⟨quiet_with_board _ _ cq, hrest, cc, by omega, fun h => by omega, fun _ => ?_⟩
      exact ⟨mv, by simp, by omega⟩
    · rw [if_neg hbr]
      obtain ⟨i1, i2, i3, i4, i5, i6⟩ := ih (fun m hm => hchild m (List.mem_cons_of_mem _ hm))
        (fun m hm => hlen m (List.mem_cons_of_mem _ hm)) M1 a1 b
        ⟨copy_board (copy_board B zeroMem)
            (child a b { st with board := make_move st.board mv cur }).2.board,
          (child a b { st with board := make_move st.board mv cur }).2.max_colour,
          (child a b { st with board := make_move st.board mv cur }).2.timeout,
          (child a b { st with board := make_move st.board mv cur }).2.inbox,
          (child a b { st with board := make_move st.board mv cur }).2.gen_calls⟩
        cq hrest cc (by omega) (Or.inl n2)
      refine ⟨i1, i2, i3, by omega, ?_, ?_⟩
      · intro hR m hm
        rcases List.mem_cons.1 hm with rfl | hm
        · omega
        · exact i5 hR m hm
      · intro hR
        by_cases hR2 : a1 <
            (max_loop child (copy_board B zeroMem) cur rest M1 a1 b
              ⟨copy_board (copy_board B zeroMem)
                  (child a b { st with board := make_move st.board mv cur }).2.board,
                (child a b { st with board := make_move st.board mv cur }).2.max_colour,
                (child a b { st with board := make_move st.board mv cur }).2.timeout,
                (child a b { st with board := make_move st.board mv cur }).2.inbox,
                (child a b { st with board := make_move st.board mv cur }).2.gen_calls⟩).1
        · obtain ⟨m, hm, hle⟩ := i6 hR2
          exact ⟨m, List.mem_cons_of_mem _ hm, hle⟩
        · exact ⟨mv, by simp, by omega⟩

/-- The minimizing loop under a quiet state, for every window, symmetric to
`max_loop_window`. -/
theorem min_loop_window (child : Int → Int → State → Int × State) (B : Board) (cur mc : Int)
    (vals : Int → Int) (hB : B.cells.length = 100) :
    ∀ (L : List Int),
      (∀ mv ∈ L, ∀ (a b : Int) (st : State), Quiet st → st.board = make_move B mv cur →
        st.max_colour = mc → a < b →
        Quiet (child a b st).2 ∧ (child a b st).2.board = st.board ∧
          (child a b st).2.max_colour = mc ∧ Contract (child a b st).1 (vals mv) a b) →
      (∀ mv ∈ L, (make_move B mv cur).cells.length = 100) →
      ∀ (M a b : Int) (st : State), Quiet st → st.board = B → st.max_colour = mc →
        a < b → (b ≤ M ∨ (L ≠ [] ∧ ∀ mv ∈ L, vals mv < M)) →
        Quiet (min_loop child (copy_board B zeroMem) cur L M a b st).2 ∧
        (min_loop child (copy_board B zeroMem) cur L M a b st).2.board = B ∧
        (min_loop child (copy_board B zeroMem) cur L M a b st).2.max_colour = mc ∧
        (min_loop child (copy_board B zeroMem) cur L M a b st).1 ≤ M ∧
        (a < (min_loop child (copy_board B zeroMem) cur L M a b st).1 →
          ∀ mv ∈ L, (min_loop child (copy_board B zeroMem) cur L M a b st).1 ≤ vals mv) ∧
        ((min_loop child (copy_board B zeroMem) cur L M a b st).1 < b →
          ∃ mv ∈ L, vals mv ≤ (min_loop child (copy_board B zeroMem) cur L M a b st).1) := by
  intro L
  induction L with
  | nil =>
    intro _ _ M a b st hq h1 h2 _ hMa
    simp only [min_loop]
    rcases hMa with hMa | ⟨hne, _⟩
    · exact ⟨hq, h1, h2, le_refl _, fun _ mv hmv => by simp at hmv, fun h => by omega⟩
    · exact absurd rfl hne
  | cons mv rest ih =>
    intro hchild hlen M a b st hq h1 h2 hab hMa
    have hM : b ≤ M ∨ vals mv < M := by
      rcases hMa with h | ⟨_, h⟩
      · exact Or.inl h
      · exact Or.inr (h mv (by simp))
    obtain ⟨cq, cb, cc, cct⟩ := hchild mv (by simp) a b
      { st with board := make_move st.board mv cur } (quiet_with_board st _ hq)
      (by simp [h1]) h2 hab
    have hc := contract_cases _ _ _ _ cct
    have hrest : copy_board (copy_board B zeroMem)
        (child a b { st with board := make_move st.board mv cur }).2.board = B := by
      apply copy_board_restore B _ hB
      rw [cb]
      simpa [h1] using hlen mv (by simp)
    simp only [min_loop, ite_lt_eq_min]
    generalize hx : (child a b { st with board := make_move st.board mv cur }).1 = x at *
    obtain ⟨M1, hM1, m1, m2, m3⟩ : ∃ M1, M1 = min M x ∧ M1 ≤ M ∧ M1 ≤ x ∧ (M1 = M ∨ M1 = x) :=
      ⟨_, rfl, min_le_left _ _, min_le_right _ _, min_choice M x⟩
    rw [← hM1]
    obtain ⟨b1, hb1, n1, n2, n3⟩ : ∃ b1, b1 = min b M1 ∧ b1 ≤ b ∧ b1 ≤ M1 ∧ (b1 = b ∨ b1 = M1) :=
      ⟨_, rfl, min_le_left _ _, min_le_right _ _, min_choice b M1⟩
    rw [← hb1]
    by_cases hbr : b1 ≤ a
    · rw [if_pos hbr]
      refine ⟨quiet_with_board _ _ cq, hrest, cc, by omega, fun h => by omega, fun _ => ?_⟩
      exact ⟨mv, by simp, by omega⟩
    · rw [if_neg hbr]
      obtain ⟨i1, i2, i3, i4, i5, i6⟩ := ih (fun m hm => hchild m (List.mem_cons_of_mem _ hm))
        (fun m hm => hlen m (List.mem_cons_of_mem _ hm)) M1 a b1
        ⟨copy_board (copy_board B zeroMem)
            (child a b { st with board := make_move st.board mv cur }).2.board,
          (child a b { st with board := make_move st.board mv cur }).2.max_colour,
          (child a b { st with board := make_move st.board mv cur }).2.timeout,
          (child a b { st with board := make_move st.board mv cur }).2.inbox,
          (child a b { st with board := make_move st.board mv cur }).2.gen_calls⟩
        cq hrest cc (by omega) (Or.inl n2)
      refine ⟨i1, i2, i3, by omega, ?_, ?_⟩
      · intro hR m hm
        rcases List.mem_cons.1 hm with rfl | hm
        · omega
        · exact i5 hR m hm
      · intro hR
        by_cases hR2 : (min_loop child (copy_board B zeroMem) cur rest M1 a b1
              ⟨copy_board (copy_board B zeroMem)
                  (child a b { st with board := make_move st.board mv cur }).2.board,
                (child a b { st with board := make_move st.board mv cur }).2.max_colour,
                (child a b { st with board := make_move st.board mv cur }).2.timeout,
                (child a b { st with board := make_move st.board mv cur }).2.inbox,
                (child a b { st with board := make_move st.board mv cur }).2.gen_calls⟩).1 < b1
        · obtain ⟨m, hm, hle⟩ := i6 hR2
          exact ⟨m, List.mem_cons_of_mem _ hm, hle⟩
        · exact ⟨mv, by simp, by omega⟩

theorem foldl_max_spec : ∀ (others : List Int) (first : Int),
    (first ≤ others.foldl max first ∧ ∀ x ∈ others, x ≤ others.foldl max first) ∧
    (others.foldl max first = first ∨ others.foldl max first ∈ others) := by
  intro others
  induction others with
  | nil => intro first; simp
  | cons y ys ih =>
    intro first
    obtain ⟨⟨h1, h2⟩, h3⟩ := ih (max first y)
    simp only [List.foldl_cons, List.mem_cons]
    refine ⟨⟨le_trans (le_max_left _ _) h1, ?_⟩, ?_⟩
    · rintro x (rfl | hx)
      · exact le_trans (le_max_right _ _) h1
      · exact h2 x hx
    · rcases h3 with h | h
      · rcases max_choice first y with h4 | h4
        · left; rw [h, h4]
        · right; left; rw [h, h4]
      · right; right; exact h

theorem foldl_min_spec : ∀ (others : List Int) (first : Int),
    (others.foldl min first ≤ first ∧ ∀ x ∈ others, others.foldl min first ≤ x) ∧
    (others.foldl min first = first ∨ others.foldl min first ∈ others) := by
  intro others
  induction others with
  | nil => intro first; simp
  | cons y ys ih =>
    intro first
    obtain ⟨⟨h1, h2⟩, h3⟩ := ih (min first y)
    simp only [List.foldl_cons, List.mem_cons]
    refine ⟨⟨le_trans h1 (min_le_left _ _), ?_⟩, ?_⟩
    · rintro x (rfl | hx)
      · exact le_trans h1 (min_le_right _ _)
      · exact h2 x hx
    · rcases h3 with h | h
      · rcases min_choice first y with h4 | h4
        · left; rw [h, h4]
        · right; left; rw [h, h4]
      · right; right; exact h

theorem legal_moves_head (b : Board) (P : Int) :
    (legal_moves b P).headD 0 = (((legal_moves b P).tail.length : Nat) : Int) := rfl

/-- The value of plain minimax one level up, when the side to move has the legal moves
`mv :: rest`. -/
theorem plain_minimax_succ (mc : Int) (d : Nat) (cur : Int) (b : Board) (mv : Int)
    (rest : List Int) (h : (legal_moves b cur).tail = mv :: rest) :
    plain_minimax mc (d + 1) cur b =
      (if cur = mc then
        (rest.map (fun m => plain_minimax mc d (opponent cur) (make_move b m cur))).foldl max
          (plain_minimax mc d (opponent cur) (make_move b mv cur))
       else
        (rest.map (fun m => plain_minimax mc d (opponent cur) (make_move b m cur))).foldl min
          (plain_minimax mc d (opponent cur) (make_move b mv cur))) := by
  simp only [plain_minimax, h]

theorem plain_minimax_leaf (mc : Int) (d : Nat) (cur : Int) (b : Board)
    (h : (legal_moves b cur).tail = []) :
    plain_minimax mc (d + 1) cur b = eval_value mc b := by
  simp only [plain_minimax, h]

/-- The plain minimax value is the evaluation of some position, so it lies strictly
between -1000000 and 1000000. -/
theorem plain_minimax_bound (mc : Int) :
    ∀ (d : Nat) (cur : Int) (b : Board),
      -1000000 < plain_minimax mc d cur b ∧ plain_minimax mc d cur b < 1000000 := by
  intro d
  induction d with
  | zero => intro cur b; simp only [plain_minimax]; exact eval_value_bound mc b
  | succ d ih =>
    intro cur b
    rcases hL : (legal_moves b cur).tail with _ | ⟨mv, rest⟩
    · rw [plain_minimax_leaf mc d cur b hL]; exact eval_value_bound mc b
    · rw [plain_minimax_succ mc d cur b mv rest hL]
      have hall : ∀ x ∈ rest.map (fun m => plain_minimax mc d (opponent cur) (make_move b m cur)),
          -1000000 < x ∧ x < 1000000 := by
        intro x hx
        obtain ⟨m, _, rfl⟩ := List.mem_map.1 hx
        exact ih _ _
      split_ifs
      · rcases (foldl_max_spec _ (plain_minimax mc d (opponent cur) (make_move b mv cur))).2
          with h | h
        · rw [h]; exact ih _ _
        · exact hall _ h
      · rcases (foldl_min_spec _ (plain_minimax mc d (opponent cur) (make_move b mv cur))).2
          with h | h
        · rw [h]; exact ih _ _
        · exact hall _ h

/-- Fail-soft alpha-beta: with no timeout raised, on a well-formed board and for every
window `alpha < beta`, `minimax` ends quiet and its score stands in the window contract
to the plain minimax value. -/
theorem minimax_window :
    ∀ (d : Nat) (cur a b : Int) (s : State), Quiet s → WellFormed s.board →
      (cur = BLACK ∨ cur = WHITE) → a < b →
      Quiet (minimax d cur a b s).2 ∧
      Contract (minimax d cur a b s).1 (plain_minimax s.max_colour d cur s.board) a b := by
  intro d
  induction d with
  | zero =>
    intro cur a b s hq _ _ _
    have hq1 := hq.probe_recv
    have hq2 : Quiet { probe_recv s with gen_calls := (probe_recv s).gen_calls + 1 } := hq1
    have ht : ¬ (probe_recv s).timeout ≠ 0 := by simp [hq1.1]
    simp only [minimax, if_neg ht, plain_minimax]
    refine ⟨(eval_position_quiet _ hq2).1, ?_⟩
    rw [eval_value_of_quiet _ hq2]
    simp only [probe_recv_board, probe_recv_max_colour]
    exact ⟨fun _ _ => rfl, fun _ => le_refl _, fun _ => le_refl _⟩
  | succ d ih =>
    intro cur a b s hq hwf hcur hab
    have hq1 := hq.probe_recv
    have hq2 : Quiet { probe_recv s with gen_calls := (probe_recv s).gen_calls + 1 } := hq1
    have ht : ¬ (probe_recv s).timeout ≠ 0 := by simp [hq1.1]
    have hwf1 : WellFormed (probe_recv s).board := by rw [probe_recv_board]; exact hwf
    have hchild : ∀ mv ∈ (legal_moves (probe_recv s).board cur).tail, ∀ (a b : Int) (st : State),
        Quiet st → st.board = make_move (probe_recv s).board mv cur →
        st.max_colour = (probe_recv s).max_colour → a < b →
        Quiet (minimax d (opponent cur) a b st).2 ∧
        (minimax d (opponent cur) a b st).2.board = st.board ∧
        (minimax d (opponent cur) a b st).2.max_colour = (probe_recv s).max_colour ∧
        Contract (minimax d (opponent cur) a b st).1
          (plain_minimax (probe_recv s).max_colour d (opponent cur)
            (make_move (probe_recv s).board mv cur)) a b := by
      intro mv hmv a b st hqs hbd hc hab
      have hv := ((mem_legal_moves_tail _ _ _).1 hmv).1
      have hwf2 : WellFormed st.board := by
        rw [hbd]; exact make_move_wellFormed _ hwf1 mv cur hv hcur
      have h1 := ih (opponent cur) a b st hqs hwf2 (opponent_player cur hcur) hab
      have h2 := minimax_frame d (opponent cur) a b st hwf2 (opponent_player cur hcur)
      refine ⟨h1.1, h2.1, h2.2.trans hc, ?_⟩
      rw [← hc, ← hbd]
      exact h1.2
    have hlen : ∀ mv ∈ (legal_moves (probe_recv s).board cur).tail,
        (make_move (probe_recv s).board mv cur).cells.length = 100 := by
      intro mv hmv
      have hv := ((mem_legal_moves_tail _ _ _).1 hmv).1
      exact (make_move_wellFormed _ hwf1 mv cur hv hcur).1
    simp only [minimax, if_neg ht]
    rw [legal_moves_head]
    rw [← probe_recv_board s, ← probe_recv_max_colour s]
    rcases hL : (legal_moves (probe_recv s).board cur).tail with _ | ⟨mv, rest⟩
    · rw [plain_minimax_leaf _ d cur _ hL]
      simp only [List.length_nil, Nat.cast_zero, if_true]
      refine ⟨(eval_position_quiet _ hq2).1, ?_⟩
      rw [eval_value_of_quiet _ hq2]
      exact ⟨fun _ _ => rfl, fun _ => le_refl _, fun _ => le_refl _⟩
    · rw [plain_minimax_succ _ d cur _ mv rest hL]
      have hne : ¬ (((mv :: rest).length : Nat) : Int) = 0 := by
        simp only [List.length_cons]; omega
      rw [hL] at hchild hlen
      simp only [hne, if_false]
      by_cases hmax : cur = (probe_recv s).max_colour
      · simp only [hmax, if_true]
        rw [hmax] at hchild hlen
        obtain ⟨i1, _, _, _, i5, i6⟩ := max_loop_window
          (fun a b st => minimax d (opponent (probe_recv s).max_colour) a b st)
          (probe_recv s).board (probe_recv s).max_colour (probe_recv s).max_colour
          (fun m => plain_minimax (probe_recv s).max_colour d (opponent (probe_recv s).max_colour)
            (make_move (probe_recv s).board m (probe_recv s).max_colour))
          hwf1.1 (mv :: rest) hchild hlen (-1000000) a b
          ⟨(probe_recv s).board, (probe_recv s).max_colour, (probe_recv s).timeout,
            (probe_recv s).inbox, (probe_recv s).gen_calls + 1⟩ hq2 rfl rfl hab
          (Or.inr ⟨by simp, fun m _ => (plain_minimax_bound _ _ _ _).1⟩)
        refine ⟨i1, ?_⟩
        obtain ⟨⟨f1, f2⟩, f3⟩ := foldl_max_spec
          (rest.map (fun m => plain_minimax (probe_recv s).max_colour d
            (opponent (probe_recv s).max_colour)
            (make_move (probe_recv s).board m (probe_recv s).max_colour)))
          (plain_minimax (probe_recv s).max_colour d (opponent (probe_recv s).max_colour)
            (make_move (probe_recv s).board mv (probe_recv s).max_colour))
        have hub : ∀ c : Int, (∀ m ∈ mv :: rest,
            plain_minimax (probe_recv s).max_colour d (opponent (probe_recv s).max_colour)
              (make_move (probe_recv s).board m (probe_recv s).max_colour) ≤ c) →
            (rest.map (fun m => plain_minimax (probe_recv s).max_colour d
              (opponent (probe_recv s).max_colour)
              (make_move (probe_recv s).board m (probe_recv s).max_colour))).foldl max
              (plain_minimax (probe_recv s).max_colour d (opponent (probe_recv s).max_colour)
                (make_move (probe_recv s).board mv (probe_recv s).max_colour)) ≤ c := by
          intro c hc
          rcases f3 with h | h
          · rw [h]; exact hc mv (by simp)
          · obtain ⟨m, hm, hme⟩ := List.mem_map.1 h
            rw [← hme]; exact hc m (List.mem_cons_of_mem _ hm)
        have hlb : ∀ m ∈ mv :: rest,
            plain_minimax (probe_recv s).max_colour d (opponent (probe_recv s).max_colour)
              (make_move (probe_recv s).board m (probe_recv s).max_colour) ≤
            (rest.map (fun m => plain_minimax (probe_recv s).max_colour d
              (opponent (probe_recv s).max_colour)
              (make_move (probe_recv s).board m (probe_recv s).max_colour))).foldl max
              (plain_minimax (probe_recv s).max_colour d (opponent (probe_recv s).max_colour)
                (make_move (probe_recv s).board mv (probe_recv s).max_colour)) := by
          intro m hm
          rcases List.mem_cons.1 hm with rfl | hm
          · exact f1
          · exact f2 _ (List.mem_map.2 ⟨m, hm, rfl⟩)
        refine ⟨fun h1 h2 => ?_, fun h1 => ?_, fun h1 => ?_⟩
        · obtain ⟨m, hm, hle⟩ := i6 h1
          exact le_antisymm (le_trans hle (hlb m hm)) (hub _ (i5 h2))
        · exact hub _ (i5 (by omega))
        · obtain ⟨m, hm, hle⟩ := i6 (by omega)
          exact le_trans hle (hlb m hm)
      · simp only [hmax, if_false]
        obtain ⟨i1, _, _, _, i5, i6⟩ := min_loop_window
          (fun a b st => minimax d (opponent cur) a b st)
          (probe_recv s).board cur (probe_recv s).max_colour
          (fun m => plain_minimax (probe_recv s).max_colour d (opponent cur)
            (make_move (probe_recv s).board m cur))
          hwf1.1 (mv :: rest) hchild hlen 1000000 a b
          ⟨(probe_recv s).board, (probe_recv s).max_colour, (probe_recv s).timeout,
            (probe_recv s).inbox, (probe_recv s).gen_calls + 1⟩ hq2 rfl rfl hab
          (Or.inr ⟨by simp, fun m _ => (plain_minimax_bound _ _ _ _).2⟩)
        refine ⟨i1, ?_⟩
        obtain ⟨⟨f1, f2⟩, f3⟩ := foldl_min_spec
          (rest.map (fun m => plain_minimax (probe_recv s).max_colour d (opponent cur)
            (make_move (probe_recv s).board m cur)))
          (plain_minimax (probe_recv s).max_colour d (opponent cur)
            (make_move (probe_recv s).board mv cur))
        have hlb : ∀ c : Int, (∀ m ∈ mv :: rest,
            c ≤ plain_minimax (probe_recv s).max_colour d (opponent cur)
              (make_move (probe_recv s).board m cur)) →
            c ≤ (rest.map (fun m => plain_minimax (probe_recv s).max_colour d (opponent cur)
              (make_move (probe_recv s).board m cur))).foldl min
              (plain_minimax (probe_recv s).max_colour d (opponent cur)
                (make_move (probe_recv s).board mv cur)) := by
          intro c hc
          rcases f3 with h | h
          · rw [h]; exact hc mv (by simp)
          · obtain ⟨m, hm, hme⟩ := List.mem_map.1 h
            rw [← hme]; exact hc m (List.mem_cons_of_mem _ hm)
        have hub : ∀ m ∈ mv :: rest,
            (rest.map (fun m => plain_minimax (probe_recv s).max_colour d (opponent cur)
              (make_move (probe_recv s).board m cur))).foldl min
              (plain_minimax (probe_recv s).max_colour d (opponent cur)
                (make_move (probe_recv s).board mv cur)) ≤
            plain_minimax (probe_recv s).max_colour d (opponent cur)
              (make_move (probe_recv s).board m cur) := by
          intro m hm
          rcases List.mem_cons.1 hm with rfl | hm
          · exact f1
          · exact f2 _ (List.mem_map.2 ⟨m, hm, rfl⟩)
        refine ⟨fun h1 h2 => ?_, fun h1 => ?_, fun h1 => ?_⟩
        · obtain ⟨m, hm, hle⟩ := i6 h2
          exact le_antisymm (hlb _ (i5 h1)) (le_trans (hub m hm) hle)
        · obtain ⟨m, hm, hle⟩ := i6 (by omega)
          exact le_trans (hub m hm) hle
        · exact hlb _ (i5 (by omega))

/-- The window contract for the windows inside `[-1000000, 1000000]`. -/
theorem minimax_contract :
    ∀ (d : Nat) (cur a b : Int) (s : State), Quiet s → WellFormed s.board →
      (cur = BLACK ∨ cur = WHITE) → -1000000 ≤ a → a < b → b ≤ 1000000 →
      Quiet (minimax d cur a b s).2 ∧
      Contract (minimax d cur a b s).1 (plain_minimax s.max_colour d cur s.board) a b :=
  fun d cur a b s hq hwf hcur _ hab _ => minimax_window d cur a b s hq hwf hcur hab

/-! ## Claims -/

/-- C3: on a well-formed board, for a playable square `m`, one of the eight directions
`d` and a player `P` in BLACK, WHITE: `would_flip` returns `m + k*d` (with `k >= 2`)
when the cells `m+d .. m+(k-1)*d` all hold the opponent and cell `m + k*d` holds `P`;
it returns 0 when there is no such `k`; and when the neighbour holds the opponent,
the loop of `find_bracket_piece` leaves by itself within eight tests. -/
theorem would_flip_bracket (b : Board) (hb : WellFormed b) (m d P : Int)
    (hm : validp m ≠ 0) (hd : d ∈ ALLDIRECTIONS) (hP : P = BLACK ∨ P = WHITE) :
    (∀ k : Nat, 2 ≤ k → (∀ i : Nat, 1 ≤ i → i < k → b (m + (i : Int) * d) = opponent P) →
        b (m + (k : Int) * d) = P → would_flip b m d P = m + (k : Int) * d) ∧
    ((¬ ∃ k : Nat, 2 ≤ k ∧ (∀ i : Nat, 1 ≤ i → i < k → b (m + (i : Int) * d) = opponent P) ∧
        b (m + (k : Int) * d) = P) → would_flip b m d P = 0) ∧
    (b (m + d) = opponent P → ∀ n : Nat, 8 ≤ n →
        find_bracket_piece_fuel b d P n (m + d + d) = some (would_flip b m d P)) := by
  refine ⟨fun k hk hrun hend => (would_flip_of_bracket b hb.ringInv m d P hm hd hP k hk hrun hend).1,
    fun hno => ?_, ?_⟩
  · by_contra hne
    obtain ⟨k, hk, _, _, hrun, _, hend⟩ := bracket_of_would_flip b hb.ringInv m d P hm hd hne
    exact hno ⟨k, hk, hrun, hend⟩
  · obtain ⟨_, _, _, _, _, _, _, _, _, hterm⟩ := would_flip_char b hb.ringInv m d P hm hd
    exact hterm

/-- Witness of C3 on the initial board: from square 34 going down (direction 10),
BLACK brackets the WHITE piece on 44 with its own piece on 54. -/
theorem would_flip_bracket_witness :
    would_flip initialise_board 34 10 BLACK = 34 + ((2 : Nat) : Int) * 10 :=
  (would_flip_bracket initialise_board initialise_board_wellFormed 34 10 BLACK
    (by decide) (by decide) (Or.inl rfl)).1 2 (le_refl 2)
    (fun i h1 h2 => by
      obtain rfl : i = 1 := by omega
      decide!)
    (by decide!)

/-- C1: on a well-formed board, for a player `P` in BLACK, WHITE, `legal_moves` leaves
in `moves[0]` the number `n` of squares found and in `moves[1..n]`, in strictly
increasing order, exactly the playable squares `m` with `board[m] = EMPTY` for which
`would_flip(m, d, P)` is non-zero for at least one of the eight directions `d`; every
bracket walk made on the way leaves by itself within eight loop tests. -/
theorem legal_moves_spec (b : Board) (hb : WellFormed b) (P : Int)
    (hP : P = BLACK ∨ P = WHITE) :
    ∃ found : List Int, legal_moves b P = (found.length : Int) :: found ∧
      found.Pairwise (fun x y => x < y) ∧
      (∀ m : Int, m ∈ found ↔
        (validp m ≠ 0 ∧ b m = EMPTY ∧ ∃ d ∈ ALLDIRECTIONS, would_flip b m d P ≠ 0)) ∧
      (∀ m : Int, validp m ≠ 0 → ∀ d ∈ ALLDIRECTIONS, b (m + d) = opponent P →
        ∀ n : Nat, 8 ≤ n →
          find_bracket_piece_fuel b d P n (m + d + d) = some (would_flip b m d P)) := by
  have _ := hP
  refine ⟨SQUARES.filter (fun move => decide (legalp b move P ≠ 0)), rfl, ?_, ?_, ?_⟩
  · apply List.Pairwise.filter
    have : SQUARES.Pairwise (fun x y => x < y) := by decide
    exact this
  · intro m
    have := mem_legal_moves_tail b P m
    simpa [legal_moves] using this
  · intro m hm d hd
    obtain ⟨_, _, _, _, _, _, _, _, _, hterm⟩ := would_flip_char b hb.ringInv m d P hm hd
    exact hterm

/-- Witness of C1: the initial board with BLACK to move. -/
theorem legal_moves_spec_witness :
    ∃ found : List Int,
      legal_moves initialise_board BLACK = (found.length : Int) :: found ∧
      found.Pairwise (fun x y => x < y) ∧
      (∀ m : Int, m ∈ found ↔
        (validp m ≠ 0 ∧ initialise_board m = EMPTY ∧
          ∃ d ∈ ALLDIRECTIONS, would_flip initialise_board m d BLACK ≠ 0)) ∧
      (∀ m : Int, validp m ≠ 0 → ∀ d ∈ ALLDIRECTIONS,
        initialise_board (m + d) = opponent BLACK → ∀ n : Nat, 8 ≤ n →
          find_bracket_piece_fuel initialise_board d BLACK n (m + d + d)
            = some (would_flip initialise_board m d BLACK)) :=
  legal_moves_spec initialise_board initialise_board_wellFormed BLACK
    (Or.inl rfl)

/-- C2: on a well-formed board `b`, for a playable square `m` and a player `P` in BLACK,
WHITE, the board after `make_move(m, P)` holds `P` on `m`, holds `P` on every cell
strictly between `m` and the bracketing piece in each direction `d` for which
`would_flip(m, d, P)` is non-zero on the board `b` before the move, and keeps the
value of `b` on every other cell: the eight directions processed one after another on
the changing board flip what the brackets computed on `b` say. -/
theorem make_move_spec (b : Board) (hb : WellFormed b) (m P : Int) (hm : validp m ≠ 0)
    (hP : P = BLACK ∨ P = WHITE) :
    make_move b m P m = P ∧
    (∀ d ∈ ALLDIRECTIONS, ∀ c, Flips b m P d c → make_move b m P c = P) ∧
    (∀ c, c ≠ m → (¬ ∃ d ∈ ALLDIRECTIONS, Flips b m P d c) → make_move b m P c = b c) := by
  have _ := hP
  obtain ⟨_, i1, i2, i3⟩ := make_move_inv b hb.ringInv m P hm
  refine ⟨i1, fun d hd c hf => ?_, i3⟩
  obtain ⟨_, _, _, _, _, _, hne⟩ := flips_cell b hb.ringInv m d P hm hd c hf
  exact i2 c hne ⟨d, hd, hf⟩

/-- Witness of C2: BLACK plays 34 on the initial board. -/
theorem make_move_spec_witness :
    make_move initialise_board 34 BLACK 34 = BLACK ∧
    (∀ d ∈ ALLDIRECTIONS, ∀ c, Flips initialise_board 34 BLACK d c →
      make_move initialise_board 34 BLACK c = BLACK) ∧
    (∀ c, c ≠ 34 → (¬ ∃ d ∈ ALLDIRECTIONS, Flips initialise_board 34 BLACK d c) →
      make_move initialise_board 34 BLACK c = initialise_board c) :=
  make_move_spec initialise_board initialise_board_wellFormed 34 BLACK
    (by decide) (Or.inl rfl)

/-- C4: on a well-formed board, for either player to move, any maximizing colour and
any depth, with no timeout raised, `minimax(player, depth, -1000000, 1000000)` returns
the score of plain depth-limited minimax without pruning over the same move generator
and evaluator. -/
theorem minimax_eq_plain (d : Nat) (cur : Int) (s : State) (hq : Quiet s)
    (hwf : WellFormed s.board) (hcur : cur = BLACK ∨ cur = WHITE) :
    (minimax d cur (-1000000) 1000000 s).1 = plain_minimax s.max_colour d cur s.board := by
  obtain ⟨_, c1, c2, c3⟩ := minimax_contract d cur (-1000000) 1000000 s hq hwf hcur
    (le_refl _) (by norm_num) (le_refl _)
  have hv := plain_minimax_bound s.max_colour d cur s.board
  by_cases h1 : (minimax d cur (-1000000) 1000000 s).1 ≤ -1000000
  · have := c2 h1; omega
  · by_cases h2 : 1000000 ≤ (minimax d cur (-1000000) 1000000 s).1
    · have := c3 h2; omega
    · exact c1 (by omega) (by omega)

/-- Witness of C4: the initial board, BLACK to move and maximizing, depth 2. -/
theorem minimax_eq_plain_witness :
    (minimax 2 BLACK (-1000000) 1000000 quiet_start).1
      = plain_minimax quiet_start.max_colour 2 BLACK quiet_start.board :=
  minimax_eq_plain 2 BLACK quiet_start ⟨rfl, fun x hx => by simp [quiet_start] at hx⟩
    initialise_board_wellFormed (Or.inl rfl)

/-- The scores on `pruned_root` at depth 1 with BLACK maximizing, by evaluation: 36 and
66 are root moves; root move 36 searched with the full window scores -140; root move 66
searched with alpha = -140 returns -140; the unpruned minimax score of root move 66 is
-230. -/
theorem pruned_root_scores :
    36 ∈ (legal_moves pruned_root BLACK).tail ∧ 66 ∈ (legal_moves pruned_root BLACK).tail ∧
    (minimax 1 WHITE (-1000000) 1000000 ⟨make_move pruned_root 36 BLACK, BLACK, FALSE, [], 0⟩).1
      = -140 ∧
    (minimax 1 WHITE (-140) 1000000 pruned_child).1 = -140 ∧
    plain_minimax BLACK 1 WHITE (make_move pruned_root 66 BLACK) = -230 := by
  decide!

/-- C5, as stated, fails.  On `pruned_root` with BLACK maximizing, 36 and 66 are root
moves; at depth 1 the worker gets the score -140 for root move 36, so its alpha is -140
when it evaluates root move 66, and `minimax(WHITE, 1, -140, 1000000)` after root move
66 returns a score that is not the unpruned minimax score of that subtree (it returns
-140, the unpruned score is -230). -/
theorem root_alpha_counterexample :
    36 ∈ (legal_moves pruned_root BLACK).tail ∧ 66 ∈ (legal_moves pruned_root BLACK).tail ∧
    (minimax 1 WHITE (-1000000) 1000000 ⟨make_move pruned_root 36 BLACK, BLACK, FALSE, [], 0⟩).1
      = -140 ∧
    (minimax 1 WHITE (-140) 1000000 pruned_child).1
      ≠ plain_minimax BLACK 1 WHITE (make_move pruned_root 66 BLACK) := by
  obtain ⟨h1, h2, h3, h4, h5⟩ := pruned_root_scores
  refine ⟨h1, h2, h3, ?_⟩
  rw [h4, h5]
  decide

/-- C5, amended: for a well-formed root board `B`, a maximizing colour `Max`, a root move
`m` of `Max`, a depth and an alpha with `-1000000 <= alpha < 1000000`, with no timeout
raised, the score `minimax(opponent(Max), depth, alpha, 1000000)` returns on the
position after `m` equals the unpruned minimax score of that subtree whenever that
score is greater than alpha; when the unpruned score is at most alpha, the returned
score is at most alpha and at least the unpruned score. -/
theorem root_move_score (B : Board) (hB : WellFormed B) (Max : Int)
    (hMax : Max = BLACK ∨ Max = WHITE) (m : Int) (hm : m ∈ (legal_moves B Max).tail) (d : Nat)
    (alpha : Int) (ha1 : -1000000 ≤ alpha) (ha2 : alpha < 1000000) (s : State) (hq : Quiet s)
    (hb : s.board = make_move B m Max) (hc : s.max_colour = Max) :
    (alpha < plain_minimax Max d (opponent Max) (make_move B m Max) →
      (minimax d (opponent Max) alpha 1000000 s).1
        = plain_minimax Max d (opponent Max) (make_move B m Max)) ∧
    (plain_minimax Max d (opponent Max) (make_move B m Max) ≤ alpha →
      plain_minimax Max d (opponent Max) (make_move B m Max)
          ≤ (minimax d (opponent Max) alpha 1000000 s).1 ∧
        (minimax d (opponent Max) alpha 1000000 s).1 ≤ alpha) := by
  have hv := ((mem_legal_moves_tail _ _ _).1 hm).1
  have hwf : WellFormed s.board := by
    rw [hb]; exact make_move_wellFormed B hB m Max hv hMax
  obtain ⟨_, c1, c2, c3⟩ := minimax_contract d (opponent Max) alpha 1000000 s hq hwf
    (opponent_player Max hMax) ha1 ha2 (le_refl _)
  rw [hc, hb] at c1 c2 c3
  have hbound := plain_minimax_bound Max d (opponent Max) (make_move B m Max)
  have hlt : (minimax d (opponent Max) alpha 1000000 s).1 < 1000000 := by
    by_contra h
    have := c3 (by omega)
    omega
  constructor
  · intro h
    by_cases h1 : (minimax d (opponent Max) alpha 1000000 s).1 ≤ alpha
    · have := c2 h1; omega
    · exact c1 (by omega) hlt
  · intro h
    by_cases h1 : (minimax d (opponent Max) alpha 1000000 s).1 ≤ alpha
    · exact ⟨c2 h1, h1⟩
    · have := c1 (by omega) hlt
      omega

/-- Witness of the amended C5: root move 66 on `pruned_root` at depth 1 with alpha
-140. -/
theorem root_move_score_witness :
    (-140 < plain_minimax BLACK 1 (opponent BLACK) (make_move pruned_root 66 BLACK) →
      (minimax 1 (opponent BLACK) (-140) 1000000 pruned_child).1
        = plain_minimax BLACK 1 (opponent BLACK) (make_move pruned_root 66 BLACK)) ∧
    (plain_minimax BLACK 1 (opponent BLACK) (make_move pruned_root 66 BLACK) ≤ -140 →
      plain_minimax BLACK 1 (opponent BLACK) (make_move pruned_root 66 BLACK)
          ≤ (minimax 1 (opponent BLACK) (-140) 1000000 pruned_child).1 ∧
        (minimax 1 (opponent BLACK) (-140) 1000000 pruned_child).1 ≤ -140) :=
  root_move_score pruned_root
    (make_move_wellFormed (make_move initialise_board 34 BLACK)
      (make_move_wellFormed initialise_board initialise_board_wellFormed 34 BLACK (by decide)
        (Or.inl rfl))
      35 WHITE (by decide) (Or.inr rfl))
    BLACK (Or.inl rfl) 66 pruned_root_scores.2.1 1 (-140) (by decide) (by decide)
    pruned_child ⟨rfl, fun x hx => by simp [pruned_child] at hx⟩ (by rw [pruned_child])
    (by rw [pruned_child])

/-- C6: on a well-formed board, for a player `P` in BLACK, WHITE and a move `m` that
`legal_moves` lists for `P`, the board after `make_move(m, P)` has at least one more
piece of `P` and no more pieces of the opponent than the board before. -/
theorem make_move_count (b : Board) (hb : WellFormed b) (P : Int) (hP : P = BLACK ∨ P = WHITE)
    (m : Int) (hm : m ∈ (legal_moves b P).tail) :
    count P (make_move b m P) ≥ count P b + 1 ∧
    count (opponent P) (make_move b m P) ≤ count (opponent P) b := by
  obtain ⟨hv, hempty, _⟩ := (mem_legal_moves_tail b P m).1 hm
  obtain ⟨_, i1, _, _⟩ := make_move_inv b hb.ringInv m P hv
  have hcell := make_move_cell b hb.ringInv m P hv
  have hmem : m ∈ (List.range 88).map (fun (k : Nat) => (1 : Int) + (k : Int)) := by
    rw [validp_ne_zero_iff] at hv
    rw [List.mem_map]
    exact ⟨(m - 1).toNat, List.mem_range.mpr (by omega), by omega⟩
  have hPe : P ≠ EMPTY := by rcases hP with rfl | rfl <;> decide
  constructor
  · have := countP_succ_le (fun i => decide (b i = P)) (fun i => decide (make_move b m P i = P))
      _ (by
        intro x _ hx
        simp only [decide_eq_true_eq] at hx ⊢
        rcases hcell x with h | ⟨h, _⟩
        · rw [h]; exact hx
        · exact h)
      m hmem (by simp [hempty]; exact fun h => hPe h.symm) (by simp [i1])
    unfold count
    exact_mod_cast this
  · have := @List.countP_mono_left _ (fun i => decide (make_move b m P i = opponent P))
      (fun i => decide (b i = opponent P))
      ((List.range 88).map (fun (k : Nat) => (1 : Int) + (k : Int)))
      (by
        intro x _ hx
        simp only [decide_eq_true_eq] at hx ⊢
        rcases hcell x with h | ⟨h, _⟩
        · rw [← h]; exact hx
        · rw [h] at hx; exact absurd hx (opponent_ne_self P hP))
    unfold count
    exact_mod_cast this

/-- Witness of C6: BLACK plays 34 on the initial board. -/
theorem make_move_count_witness :
    count BLACK (make_move initialise_board 34 BLACK)
        ≥ count BLACK initialise_board + 1 ∧
    count (opponent BLACK) (make_move initialise_board 34 BLACK)
        ≤ count (opponent BLACK) initialise_board :=
  make_move_count initialise_board initialise_board_wellFormed BLACK
    (Or.inl rfl) 34 (by decide!)

/-- C7: the ring invariant (inside the array, the 36 ring cells are OUTER and the 64
playable cells are not) holds of the board `initialise_board` fills, and `make_move`
on a playable square for BLACK or WHITE keeps it and leaves every ring cell with the
value it had.  As every write of `make_move` stores the player, never OUTER, a ring
cell that still holds OUTER was not written.  The ring cells, those `validp` rejects,
are the cells of row 0, row 9, column 0 and column 9, and there are 36 of them. -/
theorem ring_invariant :
    RingInv initialise_board ∧
    (∀ (b : Board) (m P : Int), RingInv b → validp m ≠ 0 → (P = BLACK ∨ P = WHITE) →
      RingInv (make_move b m P) ∧ ∀ i : Int, validp i = 0 → make_move b m P i = b i) ∧
    (∀ i : Int, 0 ≤ i → i < 100 →
      (validp i = 0 ↔ (i / 10 = 0 ∨ i / 10 = 9 ∨ i % 10 = 0 ∨ i % 10 = 9))) ∧
    ((List.range 100).countP (fun (k : Nat) => decide (validp (k : Int) = 0)) = 36) := by
  refine ⟨initialise_board_wellFormed.ringInv, fun b m P hb hm hP => ?_, ?_, by decide⟩
  · refine ⟨make_move_ringInv b hb m P hm hP, fun i hi => ?_⟩
    rcases make_move_cell b hb m P hm i with h | ⟨_, hv⟩
    · exact h
    · exact absurd hi hv
  · intro i h0 h1
    rw [validp_eq_zero_iff]
    omega

/-- Witness of C7: BLACK plays 34 on the initial board. -/
theorem ring_invariant_witness :
    RingInv (make_move initialise_board 34 BLACK) ∧
    ∀ i : Int, validp i = 0 →
      make_move initialise_board 34 BLACK i = initialise_board i :=
  ring_invariant.2.1 initialise_board 34 BLACK ring_invariant.1
    (by decide) (Or.inl rfl)

/-- C8: on a well-formed board, for either player to move, any depth and any window,
and whatever TIMEOUT messages arrive or whether the timeout flag is already set, the
board after `minimax` returns equals the board before the call, cell for cell. -/
theorem minimax_board_unchanged (d : Nat) (cur alpha beta : Int) (s : State)
    (hwf : WellFormed s.board) (hcur : cur = BLACK ∨ cur = WHITE) :
    (minimax d cur alpha beta s).2.board = s.board ∧
    ∀ i : Int, (minimax d cur alpha beta s).2.board i = s.board i := by
  have h := (minimax_frame d cur alpha beta s hwf hcur).1
  exact ⟨h, fun i => by rw [h]⟩

/-- Witness of C8: depth 2 on the initial board, a TIMEOUT message arriving at the
third probe. -/
theorem minimax_board_unchanged_witness :
    (minimax 2 BLACK (-1000000) 1000000 timeout_later).2.board = timeout_later.board ∧
    ∀ i : Int, (minimax 2 BLACK (-1000000) 1000000 timeout_later).2.board i
      = timeout_later.board i :=
  minimax_board_unchanged 2 BLACK (-1000000) 1000000 timeout_later initialise_board_wellFormed
    (Or.inl rfl)

/-- C9: when the timeout flag is set at entry, or a TIMEOUT message is pending at entry,
`minimax` returns -100000 for every player, depth and window, with the timeout flag set
afterwards, without a call of `legal_moves` and with the board as it was. -/
theorem minimax_timeout_at_entry (d : Nat) (cur alpha beta : Int) (s : State)
    (h : s.timeout ≠ 0 ∨ probe_flag s = true) :
    (minimax d cur alpha beta s).1 = -100000 ∧
    (minimax d cur alpha beta s).2.timeout ≠ 0 ∧
    (minimax d cur alpha beta s).2.gen_calls = s.gen_calls ∧
    (minimax d cur alpha beta s).2.board = s.board := by
  have ht : (probe_recv s).timeout ≠ 0 := by
    unfold probe_recv
    by_cases hf : probe_flag s = true
    · rw [if_pos hf]; exact (by decide : TRUE ≠ 0)
    · rw [if_neg hf]
      rcases h with h | h
      · exact h
      · exact absurd h hf
  have hm : minimax d cur alpha beta s = (-100000, probe_recv s) := by
    cases d <;> simp only [minimax, if_pos ht]
  rw [hm]
  exact ⟨rfl, ht, probe_recv_gen_calls s, probe_recv_board s⟩

/-- Witness of C9: a TIMEOUT message pending at entry, on the initial board. -/
theorem minimax_timeout_at_entry_witness :
    (minimax 3 BLACK (-1000000) 1000000 timeout_pending).1 = -100000 ∧
    (minimax 3 BLACK (-1000000) 1000000 timeout_pending).2.timeout ≠ 0 ∧
    (minimax 3 BLACK (-1000000) 1000000 timeout_pending).2.gen_calls
      = timeout_pending.gen_calls ∧
    (minimax 3 BLACK (-1000000) 1000000 timeout_pending).2.board = timeout_pending.board :=
  minimax_timeout_at_entry 3 BLACK (-1000000) 1000000 timeout_pending (Or.inr rfl)

/-- C10, as stated, fails: for the string "00", `get_move_string(get_loc(s))` is the
three-character string "00" followed by a newline, not "00". -/
theorem move_string_roundtrip_counterexample :
    get_move_string (get_loc [48, 48]) ≠ [48, 48] := by
  decide

/-- C10, amended: for digits `r`, `c` in 0..7 and the string `s` made of them,
`get_move_string(get_loc(s))` is `s` followed by a newline. -/
theorem move_string_roundtrip (r c : Int) (hr0 : 0 ≤ r) (hr7 : r ≤ 7) (hc0 : 0 ≤ c)
    (hc7 : c ≤ 7) :
    get_move_string (get_loc [CHAR_0 + r, CHAR_0 + c]) = [CHAR_0 + r, CHAR_0 + c] ++ [CHAR_NL] := by
  have hloc : get_loc [CHAR_0 + r, CHAR_0 + c] = 10 * (r + 1) + c + 1 := by
    simp [get_loc, charAt]
  rw [hloc]
  unfold get_move_string cdiv cmod
  have h1 : Int.tdiv (10 * (r + 1) + c + 1) 10 = r + 1 := by
    rw [Int.tdiv_eq_ediv (by omega) (by norm_num)]; omega
  simp only [h1]
  have h2 : 10 * (r + 1) + c + 1 - (9 + 2 * (r + 1)) = 8 * r + c := by ring
  rw [h2]
  have h3 : Int.tdiv (8 * r + c) 8 = r := by
    rw [Int.tdiv_eq_ediv (by omega) (by norm_num)]; omega
  have h4 : Int.tmod (8 * r + c) 8 = c := by
    rw [Int.tmod_eq_emod (by omega) (by norm_num)]; omega
  rw [h3, h4]
  simp [add_comm]

/-- Witness of the amended C10: the string "37". -/
theorem move_string_roundtrip_witness :
    get_move_string (get_loc [CHAR_0 + 3, CHAR_0 + 7]) = [CHAR_0 + 3, CHAR_0 + 7] ++ [CHAR_NL] :=
  move_string_roundtrip 3 7 (by decide) (by decide) (by decide) (by decide)

/-! ## Move strings and sub-scores -/

theorem quiet_start_wellFormed : WellFormed quiet_start.board := initialise_board_wellFormed

theorem get_loc_digits (r c : Int) : get_loc [CHAR_0 + r, CHAR_0 + c] = 10 * (r + 1) + (c + 1) := by
  simp [get_loc, charAt]
  ring

/-- The ratio `100 * (a - b) / (a + b)` of two counts, truncated toward zero, lies in
`[-100, 100]`. -/
theorem ratio_bound (a b : Int) (ha : 0 ≤ a) (hb : 0 ≤ b) :
    -100 ≤ cdiv (100 * (a - b)) (a + b) ∧ cdiv (100 * (a - b)) (a + b) ≤ 100 := by
  have h : (cdiv (100 * (a - b)) (a + b)).natAbs ≤ 100 := by
    unfold cdiv
    rw [Int.natAbs_tdiv]
    show (100 * (a - b)).natAbs / (a + b).natAbs ≤ 100
    by_cases h0 : (a + b).natAbs = 0
    · rw [h0, Nat.div_zero]; omega
    · apply Nat.div_le_of_le_mul
      show (100 * (a - b)).natAbs ≤ (a + b).natAbs * 100
      omega
  omega

theorem corner_sum_eq_countP (b : Board) (c : Int) :
    ((if b 11 = c then 1 else 0) + (if b 18 = c then 1 else 0) + (if b 81 = c then 1 else 0)
      + (if b 88 = c then 1 else 0) : Int)
      = (([11, 18, 81, 88] : List Int).countP (fun q => decide (b q = c)) : Nat) := by
  simp only [List.countP_cons, List.countP_nil]
  split_ifs <;> simp_all

/-- C11: for digits `r`, `c` in 0..7, `get_loc` of the string "rc" is `10*(r+1) + (c+1)`,
a square `validp` accepts, whose row `r+1` and column `c+1` are in 1..8; two strings
with the same square have the same digits, and every playable square is the square of
some string: the 64 strings map one-to-one onto the 64 playable squares. -/
theorem get_loc_playable :
    (∀ r c : Int, 0 ≤ r → r ≤ 7 → 0 ≤ c → c ≤ 7 →
      get_loc [CHAR_0 + r, CHAR_0 + c] = 10 * (r + 1) + (c + 1) ∧
      validp (get_loc [CHAR_0 + r, CHAR_0 + c]) ≠ 0 ∧
      get_loc [CHAR_0 + r, CHAR_0 + c] / 10 = r + 1 ∧
      get_loc [CHAR_0 + r, CHAR_0 + c] % 10 = c + 1) ∧
    (∀ r c r1 c1 : Int, 0 ≤ r → r ≤ 7 → 0 ≤ c → c ≤ 7 → 0 ≤ r1 → r1 ≤ 7 → 0 ≤ c1 → c1 ≤ 7 →
      get_loc [CHAR_0 + r, CHAR_0 + c] = get_loc [CHAR_0 + r1, CHAR_0 + c1] → r = r1 ∧ c = c1) ∧
    (∀ m : Int, validp m ≠ 0 → ∃ r c : Int, 0 ≤ r ∧ r ≤ 7 ∧ 0 ≤ c ∧ c ≤ 7 ∧
      get_loc [CHAR_0 + r, CHAR_0 + c] = m) ∧
    (SQUARES.countP (fun m => decide (validp m ≠ 0)) = 64) := by
  refine ⟨?_, ?_, ?_, by decide⟩
  · intro r c hr0 hr7 hc0 hc7
    rw [get_loc_digits, validp_ne_zero_iff]
    omega
  · intro r c r1 c1 _ _ _ _ _ _ _ _ h
    rw [get_loc_digits, get_loc_digits] at h
    omega
  · intro m hm
    rw [validp_ne_zero_iff] at hm
    refine ⟨m / 10 - 1, m % 10 - 1, by omega, by omega, by omega, by omega, ?_⟩
    rw [get_loc_digits]
    omega

/-- Witness of C11: the string "37" is square 48. -/
theorem get_loc_playable_witness :
    get_loc [CHAR_0 + 3, CHAR_0 + 7] = 10 * (3 + 1) + (7 + 1) ∧
    validp (get_loc [CHAR_0 + 3, CHAR_0 + 7]) ≠ 0 ∧
    get_loc [CHAR_0 + 3, CHAR_0 + 7] / 10 = 3 + 1 ∧
    get_loc [CHAR_0 + 3, CHAR_0 + 7] % 10 = 7 + 1 :=
  get_loc_playable.1 3 7 (by decide) (by decide) (by decide) (by decide)

/-- C13: `eval_mobility`, with `Max`, `Min` the numbers of legal moves of the maximizing
colour and of its opponent, and `eval_corners`, with `Max`, `Min` the numbers of the
corners 11, 18, 81, 88 each of them owns, return 0 when `Max + Min = 0` and otherwise
`100 * (Max - Min) / (Max + Min)` truncated toward zero; the result lies in
`[-100, 100]`. -/
theorem mobility_corners_ratio (s : State) (hwf : WellFormed s.board) :
    ((eval_mobility s).1
        = ratio (move_count s.board s.max_colour) (move_count s.board (opponent s.max_colour)) ∧
      -100 ≤ (eval_mobility s).1 ∧ (eval_mobility s).1 ≤ 100) ∧
    (eval_corners s
        = ratio (corner_count s.board s.max_colour)
            (corner_count s.board (opponent s.max_colour)) ∧
      -100 ≤ eval_corners s ∧ eval_corners s ≤ 100) := by
  have _ := hwf
  constructor
  · have hm : (eval_mobility s).1
        = ratio (move_count s.board s.max_colour)
            (move_count s.board (opponent s.max_colour)) := by
      unfold eval_mobility ratio move_count
      rw [legal_moves_head, legal_moves_head]
      simp only
      split_ifs <;> rfl
    refine ⟨hm, ?_⟩
    rw [hm]
    unfold ratio move_count
    split_ifs
    · omega
    · exact ratio_bound _ _ (by omega) (by omega)
  · have hc : eval_corners s
        = ratio (corner_count s.board s.max_colour)
            (corner_count s.board (opponent s.max_colour)) := by
      unfold eval_corners ratio corner_count
      simp only
      rw [corner_sum_eq_countP, corner_sum_eq_countP]
      rfl
    refine ⟨hc, ?_⟩
    rw [hc]
    unfold ratio corner_count
    split_ifs
    · omega
    · exact ratio_bound _ _ (by omega) (by omega)

/-- Witness of C13: the initial board with BLACK maximizing. -/
theorem mobility_corners_ratio_witness :
    ((eval_mobility quiet_start).1
        = ratio (move_count quiet_start.board quiet_start.max_colour)
            (move_count quiet_start.board (opponent quiet_start.max_colour)) ∧
      -100 ≤ (eval_mobility quiet_start).1 ∧ (eval_mobility quiet_start).1 ≤ 100) ∧
    (eval_corners quiet_start
        = ratio (corner_count quiet_start.board quiet_start.max_colour)
            (corner_count quiet_start.board (opponent quiet_start.max_colour)) ∧
      -100 ≤ eval_corners quiet_start ∧ eval_corners quiet_start ≤ 100) :=
  mobility_corners_ratio quiet_start quiet_start_wellFormed

/-- C14: `eval_parity` returns 10000 when the opponent of the maximizing colour has no
piece on the board; otherwise the sum of the two piece counts is not zero and it returns
`100 * (Max - Min) / (Max + Min)` over the two piece counts, truncated toward zero,
which lies in `[-100, 100]`. -/
theorem parity_ratio (s : State) (hwf : WellFormed s.board) :
    (count (opponent s.max_colour) s.board = 0 → eval_parity s = 10000) ∧
    (count (opponent s.max_colour) s.board ≠ 0 →
      count s.max_colour s.board + count (opponent s.max_colour) s.board ≠ 0 ∧
      eval_parity s = Int.tdiv
        (100 * (count s.max_colour s.board - count (opponent s.max_colour) s.board))
        (count s.max_colour s.board + count (opponent s.max_colour) s.board) ∧
      -100 ≤ eval_parity s ∧ eval_parity s ≤ 100) := by
  have _ := hwf
  have h1 := count_bound s.max_colour s.board
  have h2 := count_bound (opponent s.max_colour) s.board
  constructor
  · intro h
    unfold eval_parity
    simp only [h, if_true]
  · intro h
    have he : eval_parity s = cdiv
        (100 * (count s.max_colour s.board - count (opponent s.max_colour) s.board))
        (count s.max_colour s.board + count (opponent s.max_colour) s.board) := by
      unfold eval_parity
      simp only [h, if_false]
    refine ⟨by omega, he, ?_⟩
    rw [he]
    exact ratio_bound _ _ h1.1 h2.1

/-- Witness of C14: the initial board with BLACK maximizing, where WHITE has pieces. -/
theorem parity_ratio_witness :
    count quiet_start.max_colour quiet_start.board
        + count (opponent quiet_start.max_colour) quiet_start.board ≠ 0 ∧
      eval_parity quiet_start = Int.tdiv
        (100 * (count quiet_start.max_colour quiet_start.board
          - count (opponent quiet_start.max_colour) quiet_start.board))
        (count quiet_start.max_colour quiet_start.board
          + count (opponent quiet_start.max_colour) quiet_start.board) ∧
      -100 ≤ eval_parity quiet_start ∧ eval_parity quiet_start ≤ 100 :=
  (parity_ratio quiet_start quiet_start_wellFormed).2 (by decide!)

/-! ## Blend, wipeout and the opening position -/

theorem count_colours (b : Board) (mc : Int) (h : mc = BLACK ∨ mc = WHITE) :
    count mc b + count (opponent mc) b = count BLACK b + count WHITE b := by
  rcases h with rfl | rfl
  · have : opponent BLACK = WHITE := by decide
    rw [this]
  · have : opponent WHITE = BLACK := by decide
    rw [this]; ring

theorem count_zero_cell (P : Int) (b : Board) (h : count P b = 0) (i : Int)
    (hi : validp i ≠ 0) : b i ≠ P := by
  unfold count at h
  have h0 : ((List.range 88).map (fun (k : Nat) => (1 : Int) + (k : Int))).countP
      (fun i => decide (b i = P)) = 0 := by exact_mod_cast h
  rw [List.countP_eq_zero] at h0
  have hmem : i ∈ (List.range 88).map (fun (k : Nat) => (1 : Int) + (k : Int)) := by
    rw [validp_ne_zero_iff] at hi
    rw [List.mem_map]
    exact ⟨(i - 1).toNat, List.mem_range.mpr (by omega), by omega⟩
  simpa using h0 i hmem

/-- On a well-formed board where one colour has no piece, neither player has a legal
move. -/
theorem legal_moves_wipeout (b : Board) (hwf : WellFormed b) (P : Int)
    (hP : P = BLACK ∨ P = WHITE) (hz : count P b = 0) (Q : Int) (hQ : Q = BLACK ∨ Q = WHITE) :
    legal_moves b Q = [0] := by
  have htail : (legal_moves b Q).tail = [] := by
    apply List.eq_nil_iff_forall_not_mem.2
    intro m hm
    obtain ⟨hv, _, d, hd, hne⟩ := (mem_legal_moves_tail b Q m).1 hm
    obtain ⟨k, hk2, _, _, hrun, hval, hend⟩ := bracket_of_would_flip b hwf.ringInv m d Q hv hd hne
    have hkv := (would_flip_of_bracket b hwf.ringInv m d Q hv hd hQ k hk2 hrun hend).2.2
    have hPQ : P = Q ∨ P = opponent Q := by
      rcases hP with rfl | rfl <;> rcases hQ with rfl | rfl <;> simp [opponent, BLACK, WHITE]
    rcases hPQ with h | h
    · exact count_zero_cell P b hz _ hkv (by rw [hend, h])
    · exact count_zero_cell P b hz _ (hval 1 (le_refl 1) (by omega))
        (by rw [hrun 1 (le_refl 1) (by omega), h])
  have h : legal_moves b Q = (((legal_moves b Q).tail.length : Nat) : Int) :: (legal_moves b Q).tail :=
    rfl
  rw [h, htail]
  rfl

theorem wipeout_board_wellFormed : WellFormed wipeout_board := by
  have h1 : WellFormed (setCell initialise_board 44 BLACK) := by
    have := make_move_wellFormed initialise_board initialise_board_wellFormed 44 BLACK (by decide)
      (Or.inl rfl)
    have e : make_move initialise_board 44 BLACK = setCell initialise_board 44 BLACK := by decide!
    rw [e] at this; exact this
  have := make_move_wellFormed (setCell initialise_board 44 BLACK) h1 55 BLACK (by decide)
    (Or.inl rfl)
  have e : make_move (setCell initialise_board 44 BLACK) 55 BLACK = wipeout_board := by decide!
  rw [e] at this; exact this

theorem wipeout_wellFormed : WellFormed wipeout_quiet.board := by
  simp only [wipeout_quiet]
  exact wipeout_board_wellFormed

/-- C12: on a well-formed board with BLACK or WHITE maximizing, `n` the number of pieces
on the board and no timeout raised, `eval_position` is
`5*parity + 30*corners + 10*mobility + 20*stability` when `n < 14`,
`25*parity + 30*corners + mobility + 25*stability` when `14 <= n < 57`, and `parity`
when `n >= 57`, the four being the results of `eval_parity`, `eval_corners`,
`eval_mobility` and `eval_stability`. -/
theorem eval_position_blend (s : State) (hq : Quiet s) (hwf : WellFormed s.board)
    (hmc : s.max_colour = BLACK ∨ s.max_colour = WHITE) :
    (count BLACK s.board + count WHITE s.board < 14 →
      (eval_position s).1 = 5 * eval_parity s + 30 * eval_corners s
        + 10 * (eval_mobility s).1 + 20 * (eval_stability s).1) ∧
    (14 ≤ count BLACK s.board + count WHITE s.board →
      count BLACK s.board + count WHITE s.board < 57 →
      (eval_position s).1 = 25 * eval_parity s + 30 * eval_corners s
        + 1 * (eval_mobility s).1 + 25 * (eval_stability s).1) ∧
    (57 ≤ count BLACK s.board + count WHITE s.board →
      (eval_position s).1 = eval_parity s) := by
  have _ := hwf
  have hn := count_colours s.board s.max_colour hmc
  obtain ⟨m1, m2, m3, _⟩ := eval_mobility_quiet s hq
  have hst : (eval_stability (eval_mobility s).2).1 = (eval_stability s).1 :=
    (eval_stability_quiet s hq).2.2 _ m1 m2 m3
  have h57 : (64 : Int) - STARTING_MAX_DEPTH = 57 := by decide
  refine ⟨fun h => ?_, fun h1 h2 => ?_, fun h => ?_⟩
  · unfold eval_position
    simp only [hn, h, if_true, hst]
  · unfold eval_position
    have h3 : ¬ (count BLACK s.board + count WHITE s.board < 14) := by omega
    simp only [hn, h3, if_false, h57, h2, if_true, hst, one_mul]
  · unfold eval_position
    have h3 : ¬ (count BLACK s.board + count WHITE s.board < 14) := by omega
    have h4 : ¬ (count BLACK s.board + count WHITE s.board < 57) := by omega
    simp only [hn, h3, if_false, h57, h4, add_zero]

/-- Witness of C12: the initial board, four pieces, BLACK maximizing. -/
theorem eval_position_blend_witness :
    (eval_position quiet_start).1 = 5 * eval_parity quiet_start + 30 * eval_corners quiet_start
        + 10 * (eval_mobility quiet_start).1 + 20 * (eval_stability quiet_start).1 :=
  (eval_position_blend quiet_start ⟨rfl, fun x hx => by simp [quiet_start] at hx⟩
    quiet_start_wellFormed (Or.inl rfl)).1 (by decide!)

/-- C18, as stated, fails: on `wipeout_board`, where WHITE has no piece, with the
timeout flag set at entry, `minimax` returns -100000, which is not the score
`eval_position` gives that board. -/
theorem wipeout_timeout_counterexample :
    count WHITE wipeout_flagged.board = 0 ∧
    (minimax 3 BLACK (-1000000) 1000000 wipeout_flagged).1 = -100000 ∧
    (eval_position wipeout_flagged).1 ≠ -100000 ∧
    eval_value BLACK wipeout_flagged.board ≠ -100000 := by
  decide!

/-- C18, amended: on a well-formed board on which BLACK or WHITE has no piece,
`legal_moves` is empty for both players, so `minimax`, called with any depth, window and
side to move while no timeout is set or pending at entry, returns what `eval_position`
returns on that board, without a recursive call; and `eval_parity` is 10000 when the
opponent of the maximizing colour is the side without pieces. -/
theorem wipeout_terminal (s : State) (hwf : WellFormed s.board)
    (hz : count BLACK s.board = 0 ∨ count WHITE s.board = 0) (ht : s.timeout = 0)
    (hp : probe_flag s = false) (d : Nat) (cur a b : Int) (hcur : cur = BLACK ∨ cur = WHITE) :
    legal_moves s.board BLACK = [0] ∧ legal_moves s.board WHITE = [0] ∧
    minimax d cur a b s
      = eval_position ⟨s.board, s.max_colour, s.timeout, s.inbox.tail, s.gen_calls + 1⟩ ∧
    (count (opponent s.max_colour) s.board = 0 → eval_parity s = 10000) := by
  have hall : ∀ Q : Int, (Q = BLACK ∨ Q = WHITE) → legal_moves s.board Q = [0] := by
    intro Q hQ
    rcases hz with h | h
    · exact legal_moves_wipeout s.board hwf BLACK (Or.inl rfl) h Q hQ
    · exact legal_moves_wipeout s.board hwf WHITE (Or.inr rfl) h Q hQ
  have hpr : probe_recv s = ⟨s.board, s.max_colour, s.timeout, s.inbox.tail, s.gen_calls⟩ := by
    unfold probe_recv
    rw [hp]
    rfl
  refine ⟨hall BLACK (Or.inl rfl), hall WHITE (Or.inr rfl), ?_, ?_⟩
  · have ht2 : ¬ (probe_recv s).timeout ≠ 0 := by rw [hpr]; simpa using ht
    cases d with
    | zero =>
      simp only [minimax, if_neg ht2]
      rw [hpr]
    | succ d =>
      simp only [minimax, if_neg ht2]
      rw [hpr]
      simp only [hall cur hcur, List.headD_cons, if_true]
  · intro h
    unfold eval_parity
    simp only [h, if_true]

/-- Witness of the amended C18: `wipeout_board` with no message ever coming, depth 3. -/
theorem wipeout_terminal_witness :
    legal_moves wipeout_quiet.board BLACK = [0] ∧ legal_moves wipeout_quiet.board WHITE = [0] ∧
    minimax 3 WHITE (-1000000) 1000000 wipeout_quiet
      = eval_position ⟨wipeout_quiet.board, wipeout_quiet.max_colour, wipeout_quiet.timeout,
          wipeout_quiet.inbox.tail, wipeout_quiet.gen_calls + 1⟩ ∧
    (count (opponent wipeout_quiet.max_colour) wipeout_quiet.board = 0 →
      eval_parity wipeout_quiet = 10000) :=
  wipeout_terminal wipeout_quiet wipeout_wellFormed (Or.inr (by decide!)) rfl rfl 3 WHITE
    (-1000000) 1000000 (Or.inr rfl)

/-- C19: on the board `initialise_board` fills, `legal_moves` for BLACK leaves the count 4
and the squares 34, 43, 56, 65, and `make_move` of each of them for BLACK changes the
board on exactly the square played and one square that held WHITE: 44 for 34 and 43, 55
for 56 and 65. -/
theorem initial_position_moves :
    legal_moves initialise_board BLACK = [4, 34, 43, 56, 65] ∧
    initialise_board 44 = WHITE ∧ initialise_board 55 = WHITE ∧
    make_move initialise_board 34 BLACK = setCell (setCell initialise_board 34 BLACK) 44 BLACK ∧
    make_move initialise_board 43 BLACK = setCell (setCell initialise_board 43 BLACK) 44 BLACK ∧
    make_move initialise_board 56 BLACK = setCell (setCell initialise_board 56 BLACK) 55 BLACK ∧
    make_move initialise_board 65 BLACK = setCell (setCell initialise_board 65 BLACK) 55 BLACK ∧
    (∀ m ∈ [34, 43, 56, 65],
      count WHITE (make_move initialise_board m BLACK) = count WHITE initialise_board - 1 ∧
      count BLACK (make_move initialise_board m BLACK) = count BLACK initialise_board + 2) := by
  decide!

/-! ## Stability -/

theorem play_moves_wellFormed :
    ∀ (ms : List Int) (b : Board) (p : Int), WellFormed b → (p = BLACK ∨ p = WHITE) →
      legal_game b p ms = true → WellFormed (play_moves b p ms) := by
  intro ms
  induction ms with
  | nil => intro b p h _ _; exact h
  | cons m rest ih =>
    intro b p hwf hp hl
    simp only [legal_game, Bool.and_eq_true, decide_eq_true_eq] at hl
    simp only [play_moves]
    exact ih _ _ (make_move_wellFormed b hwf m p ((mem_legal_moves_tail b p m).1 hl.1).1 hp)
      (opponent_player p hp) hl.2

/-- C15 fails on the code.  After the legal game 65, 66, 43, 64, 76, 86, 87, 88 WHITE holds
the three stable discs 86, 87, 88 and no disc of BLACK is stable, yet with no timeout
`eval_stability` returns 200 when BLACK is the maximizing colour and -200 when WHITE
is. -/
theorem stability_out_of_range :
    WellFormed wide_score_board ∧
    legal_game initialise_board BLACK [65, 66, 43, 64, 76, 86, 87, 88] = true ∧
    (eval_stability ⟨wide_score_board, BLACK, FALSE, [], 0⟩).1 = 200 ∧
    (eval_stability ⟨wide_score_board, WHITE, FALSE, [], 0⟩).1 = -200 ∧
    (∀ q ∈ [86, 87, 88], wide_score_board q = WHITE ∧
      stability_class ⟨wide_score_board, BLACK, FALSE, [], 0⟩ q = STABLE) ∧
    (∀ q ∈ SQUARES, wide_score_board q = BLACK →
      stability_class ⟨wide_score_board, BLACK, FALSE, [], 0⟩ q ≠ STABLE) := by
  have hl : legal_game initialise_board BLACK [65, 66, 43, 64, 76, 86, 87, 88] = true := by
    decide!
  refine ⟨?_, hl, by decide!⟩
  unfold wide_score_board
  exact play_moves_wellFormed _ _ _ initialise_board_wellFormed (Or.inl rfl) hl

/-- C16 fails on the code.  After the legal game 43, 33, 65, 42, 41, 51 the piece on 33, a
square of the ring that ends with 43, receives the border bit `DUD_BORDER`, yet the
traversal leaves the loop at 43, whose own value is 0: the squares 44, 45, 55, 54 of the
next ring, all occupied, are not visited. -/
theorem ring_stop_despite_bit :
    WellFormed ring_stop_board ∧
    legal_game initialise_board BLACK [43, 33, 65, 42, 41, 51] = true ∧
    stability_rest spiral ⟨zeroMem, TRUE, 0, 0⟩ ⟨ring_stop_board, BLACK, FALSE, [], 0⟩
      = [44, 45, 55, 54] ∧
    ring_stop_board 33 ≠ EMPTY ∧
    band (stability_class ⟨ring_stop_board, BLACK, FALSE, [], 0⟩ 33) DUD_BORDER ≠ 0 ∧
    ring_stop_board 43 ≠ EMPTY ∧
    stability_class ⟨ring_stop_board, BLACK, FALSE, [], 0⟩ 43 = 0 ∧
    (∀ q ∈ [44, 45, 55, 54], ring_stop_board q ≠ EMPTY) := by
  have hl : legal_game initialise_board BLACK [43, 33, 65, 42, 41, 51] = true := by
    decide!
  refine ⟨?_, hl, by decide!⟩
  unfold ring_stop_board
  exact play_moves_wellFormed _ _ _ initialise_board_wellFormed (Or.inl rfl) hl

/-- C17 fails on the code.  After the legal game 65, 46, 33, 63, 47, 76, 64, 36, 53, 58,
87 the BLACK piece on 54 is marked with `UDD_BORDER`, and 43, its neighbour on that
diagonal, is EMPTY; with a BLACK piece added on 43 the classification no longer marks 54
with `UDD_BORDER`. -/
theorem stability_bit_lost :
    WellFormed lost_bit_board ∧
    legal_game initialise_board BLACK [65, 46, 33, 63, 47, 76, 64, 36, 53, 58, 87] = true ∧
    lost_bit_board 54 = BLACK ∧ lost_bit_board 43 = EMPTY ∧ (43 : Int) = 54 - 11 ∧
    band (stability_class ⟨lost_bit_board, BLACK, FALSE, [], 0⟩ 54) UDD_BORDER ≠ 0 ∧
    band (stability_class ⟨setCell lost_bit_board 43 BLACK, BLACK, FALSE, [], 0⟩ 54) UDD_BORDER
      = 0 ∧
    stability_rest spiral ⟨zeroMem, TRUE, 0, 0⟩
      ⟨setCell lost_bit_board 43 BLACK, BLACK, FALSE, [], 0⟩ = [44, 45, 55, 54] := by
  have hl : legal_game initialise_board BLACK [65, 46, 33, 63, 47, 76, 64, 36, 53, 58, 87] = true := by
    decide!
  refine ⟨?_, hl, by decide!⟩
  unfold lost_bit_board
  exact play_moves_wellFormed _ _ _ initialise_board_wellFormed (Or.inl rfl) hl

/-! ## The root-move sort -/

theorem int_range_zero (a : Int) : int_range a 0 = [] := rfl

theorem int_range_succ (a : Int) (len : Nat) :
    int_range a (len + 1) = a :: int_range (a + 1) len := by
  unfold int_range
  rw [List.range_succ_eq_map]
  simp only [List.map_cons, List.map_map, Nat.cast_zero, add_zero]
  congr 1
  apply List.map_congr_left
  intro k _
  simp only [Function.comp, Nat.succ_eq_add_one, Nat.cast_add, Nat.cast_one]
  ring

theorem getD_cons_set_perm : ∀ (xs : List Int) (j : Nat) (x : Int), j < xs.length →
    List.Perm (xs.getD j 0 :: xs.set j x) (x :: xs) := by
  intro xs
  induction xs with
  | nil => intro j x h; simp at h
  | cons y ys ih =>
    intro j x h
    cases j with
    | zero => simpa using List.Perm.swap x y ys
    | succ j =>
      have h1 : j < ys.length := by simpa using h
      have := ih j x h1
      simp only [List.getD_cons_succ, List.set_cons_succ]
      exact ((List.Perm.swap y (ys.getD j 0) (ys.set j x)).trans (this.cons y)).trans
        (List.Perm.swap x y ys)

theorem swap_cells_perm : ∀ (l : List Int) (i j : Nat), i < l.length → j < l.length →
    List.Perm ((l.set i (l.getD j 0)).set j (l.getD i 0)) l := by
  intro l
  induction l with
  | nil => intro i j h; simp at h
  | cons x xs ih =>
    intro i j hi hj
    cases i with
    | zero =>
      cases j with
      | zero => simp
      | succ j =>
        have h1 : j < xs.length := by simpa using hj
        simpa using getD_cons_set_perm xs j x h1
    | succ i =>
      have h1 : i < xs.length := by simpa using hi
      cases j with
      | zero => simpa using getD_cons_set_perm xs i x h1
      | succ j =>
        have h2 : j < xs.length := by simpa using hj
        simpa using (ih i j h1 h2).cons x

theorem setCell_cells (b : Board) (c v : Int) (h0 : 0 ≤ c) (h1 : c < b.cells.length) :
    (setCell b c v).cells = b.cells.set c.toNat v := by
  unfold setCell; rw [if_pos ⟨h0, h1⟩]

theorem cell_getD (b : Board) (i : Int) (h0 : 0 ≤ i) : b i = b.cells.getD i.toNat 0 := by
  show Board.cell b i = _
  unfold Board.cell; rw [if_neg (by omega)]

/-- One step of the sort: the cells `i` and `j` are exchanged when the table value of
`moves[j]` is greater, nothing else changes. -/
theorem sort_step_spec (ms : Board) (i j : Int) (hi0 : 0 ≤ i) (hi : i < ms.cells.length)
    (hj0 : 0 ≤ j) (hj : j < ms.cells.length) :
    (sort_step ms i j).cells.length = ms.cells.length ∧
    List.Perm (sort_step ms i j).cells ms.cells ∧
    (∀ p : Int, p ≠ i → p ≠ j → sort_step ms i j p = ms p) ∧
    ((sort_step ms i j i = ms i ∧ sort_step ms i j j = ms j ∧
        eval_board (ms j) ≤ eval_board (ms i)) ∨
      (sort_step ms i j i = ms j ∧ sort_step ms i j j = ms i ∧
        eval_board (ms i) < eval_board (ms j))) := by
  unfold sort_step
  have hlen1 : (setCell ms i (ms j)).cells.length = ms.cells.length := setCell_length _ _ _
  by_cases h : eval_board (ms j) > eval_board (ms i)
  · rw [if_pos h]
    refine ⟨by rw [setCell_length, setCell_length], ?_, ?_, Or.inr ⟨?_, ?_, h⟩⟩
    · rw [setCell_cells _ _ _ hj0 (by rw [hlen1]; exact hj), setCell_cells _ _ _ hi0 hi,
        cell_getD ms j hj0, cell_getD ms i hi0]
      exact swap_cells_perm ms.cells i.toNat j.toNat (by omega) (by omega)
    · intro p hpi hpj
      rw [cell_setCell_ne _ _ _ _ hpj, cell_setCell_ne _ _ _ _ hpi]
    · by_cases hij : i = j
      · subst hij
        rw [cell_setCell_self _ _ _ hi0 (by rw [hlen1]; exact hi)]
      · rw [cell_setCell_ne _ _ _ _ hij, cell_setCell_self _ _ _ hi0 hi]
    · rw [cell_setCell_self _ _ _ hj0 (by rw [hlen1]; exact hj)]
  · rw [if_neg h]
    exact ⟨rfl, List.Perm.refl _, fun _ _ _ => rfl, Or.inl ⟨rfl, rfl, by omega⟩⟩

/-- The inner loop of the sort, from any of its states: the cells before `i` and after
`n` are kept, the cells `i..n` are rearranged among themselves, and at the end no cell of
`i..n` has a greater table value than cell `i`. -/
theorem sort_inner_loop (i n : Int) (L : Nat) (hi : 1 ≤ i) (hnL : n < L) :
    ∀ (len : Nat) (j0 : Int) (ms : Board), i ≤ j0 → j0 + (len : Int) = n + 1 →
      ms.cells.length = L →
      (∀ p : Int, i ≤ p → p < j0 → eval_board (ms p) ≤ eval_board (ms i)) →
      ((int_range j0 len).foldl (fun ms j => sort_step ms i j) ms).cells.length = L ∧
      List.Perm ((int_range j0 len).foldl (fun ms j => sort_step ms i j) ms).cells ms.cells ∧
      (∀ p : Int, p < i ∨ n < p →
        (int_range j0 len).foldl (fun ms j => sort_step ms i j) ms p = ms p) ∧
      (∀ q : Int, i ≤ q → q ≤ n → ∃ q1 : Int, i ≤ q1 ∧ q1 ≤ n ∧
        (int_range j0 len).foldl (fun ms j => sort_step ms i j) ms q = ms q1) ∧
      (∀ p : Int, i ≤ p → p ≤ n →
        eval_board ((int_range j0 len).foldl (fun ms j => sort_step ms i j) ms p) ≤
          eval_board ((int_range j0 len).foldl (fun ms j => sort_step ms i j) ms i)) := by
  intro len
  induction len with
  | zero =>
    intro j0 ms hj0 hlen hL hinv
    rw [int_range_zero, List.foldl_nil]
    refine ⟨hL, List.Perm.refl _, fun _ _ => rfl, fun q h1 h2 => ⟨q, h1, h2, rfl⟩, ?_⟩
    intro p h1 h2
    exact hinv p h1 (by simp at hlen; omega)
  | succ len ih =>
    intro j0 ms hj0 hlen hL hinv
    rw [int_range_succ, List.foldl_cons]
    have hj0n : j0 ≤ n := by push_cast at hlen; omega
    obtain ⟨s1, s2, s3, s4⟩ := sort_step_spec ms i j0 (by omega) (by rw [hL]; omega)
      (by omega) (by rw [hL]; omega)
    have hkey : eval_board (ms i) ≤ eval_board (sort_step ms i j0 i) := by
      rcases s4 with ⟨e1, _, _⟩ | ⟨e1, _, e3⟩
      · rw [e1]
      · rw [e1]; omega
    have hinv1 : ∀ p : Int, i ≤ p → p < j0 + 1 →
        eval_board (sort_step ms i j0 p) ≤ eval_board (sort_step ms i j0 i) := by
      intro p h1 h2
      by_cases hpi : p = i
      · rw [hpi]
      · by_cases hpj : p = j0
        · rw [hpj]
          rcases s4 with ⟨e1, e2, e3⟩ | ⟨e1, e2, e3⟩
          · rw [e1, e2]; exact e3
          · rw [e1, e2]; omega
        · rw [s3 p hpi hpj]
          exact le_trans (hinv p h1 (by omega)) hkey
    obtain ⟨r1, r2, r3, r4, r5⟩ := ih (j0 + 1) (sort_step ms i j0) (by omega)
      (by push_cast at hlen; omega) (by rw [s1, hL]) hinv1
    refine ⟨r1, r2.trans s2, ?_, ?_, r5⟩
    · intro p hp
      rw [r3 p hp, s3 p (by omega) (by omega)]
    · intro q h1 h2
      obtain ⟨q1, a1, a2, a3⟩ := r4 q h1 h2
      by_cases hqi : q1 = i
      · rcases s4 with ⟨e1, _, _⟩ | ⟨e1, _, _⟩
        · exact ⟨i, le_refl _, by omega, by rw [a3, hqi, e1]⟩
        · exact ⟨j0, hj0, hj0n, by rw [a3, hqi, e1]⟩
      · by_cases hqj : q1 = j0
        · rcases s4 with ⟨_, e2, _⟩ | ⟨_, e2, _⟩
          · exact ⟨j0, hj0, hj0n, by rw [a3, hqj, e2]⟩
          · exact ⟨i, le_refl _, by omega, by rw [a3, hqj, e2]⟩
        · exact ⟨q1, a1, a2, by rw [a3, s3 q1 hqi hqj]⟩

/-- The outer loop of the sort, from any of its states. -/
theorem sort_outer_loop (n : Int) (L : Nat) (hnL : n < L) :
    ∀ (len : Nat) (i0 : Int) (ms : Board), 1 ≤ i0 → i0 + (len : Int) = n + 1 →
      ms.cells.length = L → ms 0 = n →
      (∀ p q : Int, 1 ≤ p → p < i0 → p ≤ q → q ≤ n →
        eval_board (ms q) ≤ eval_board (ms p)) →
      ((int_range i0 len).foldl (fun ms i => sort_inner ms i) ms).cells.length = L ∧
      List.Perm ((int_range i0 len).foldl (fun ms i => sort_inner ms i) ms).cells ms.cells ∧
      (∀ p : Int, p < 1 ∨ n < p →
        (int_range i0 len).foldl (fun ms i => sort_inner ms i) ms p = ms p) ∧
      (∀ p q : Int, 1 ≤ p → p ≤ q → q ≤ n →
        eval_board ((int_range i0 len).foldl (fun ms i => sort_inner ms i) ms q) ≤
          eval_board ((int_range i0 len).foldl (fun ms i => sort_inner ms i) ms p)) := by
  intro len
  induction len with
  | zero =>
    intro i0 ms hi0 hlen hL h0 hinv
    rw [int_range_zero, List.foldl_nil]
    refine ⟨hL, List.Perm.refl _, fun _ _ => rfl, ?_⟩
    intro p q h1 h2 h3
    exact hinv p q h1 (by simp at hlen; omega) h2 h3
  | succ len ih =>
    intro i0 ms hi0 hlen hL h0 hinv
    rw [int_range_succ, List.foldl_cons]
    have hi0n : i0 ≤ n := by push_cast at hlen; omega
    obtain ⟨s1, s2, s3, s4, s5⟩ := sort_inner_loop i0 n L hi0 hnL (n + 1 - i0).toNat i0 ms
      (le_refl _) (by rw [Int.toNat_of_nonneg (by omega)]; omega) hL
      (fun p h1 h2 => by omega)
    have e : sort_inner ms i0
        = (int_range i0 (n + 1 - i0).toNat).foldl (fun ms j => sort_step ms i0 j) ms := by
      unfold sort_inner; rw [h0]
    rw [← e] at s1 s2 s3 s4 s5
    have hinv1 : ∀ p q : Int, 1 ≤ p → p < i0 + 1 → p ≤ q → q ≤ n →
        eval_board (sort_inner ms i0 q) ≤ eval_board (sort_inner ms i0 p) := by
      intro p q h1 h2 h3 h4
      by_cases hp : p = i0
      · rw [hp]; exact s5 q (by omega) h4
      · rw [s3 p (Or.inl (by omega))]
        by_cases hq : q < i0
        · rw [s3 q (Or.inl hq)]
          exact hinv p q h1 (by omega) h3 h4
        · obtain ⟨q1, a1, a2, a3⟩ := s4 q (by omega) h4
          rw [a3]
          exact hinv p q1 h1 (by omega) (by omega) a2
    obtain ⟨r1, r2, r3, r4⟩ := ih (i0 + 1) (sort_inner ms i0) (by omega)
      (by push_cast at hlen; omega) s1 (by rw [s3 0 (Or.inl (by omega)), h0]) hinv1
    refine ⟨r1, r2.trans s2, ?_, r4⟩
    intro p hp
    rw [r3 p hp]
    exact s3 p (by omega)

/-- The sort on a buffer of `L` cells whose cell 0 holds the count `n < L`. -/
theorem sort_moves_sorted (ms : Board) (n : Nat) (h0 : ms 0 = (n : Int))
    (hn : n < ms.cells.length) :
    (sort_moves ms).cells.length = ms.cells.length ∧
    List.Perm (sort_moves ms).cells ms.cells ∧
    (∀ p : Int, p < 1 ∨ (n : Int) < p → sort_moves ms p = ms p) ∧
    (∀ p q : Int, 1 ≤ p → p ≤ q → q ≤ (n : Int) →
      eval_board (sort_moves ms q) ≤ eval_board (sort_moves ms p)) := by
  have e : sort_moves ms = (int_range 1 n).foldl (fun ms i => sort_inner ms i) ms := by
    unfold sort_moves; rw [h0, Int.toNat_ofNat]
  rw [e]
  exact sort_outer_loop n ms.cells.length (by omega) n 1 ms (le_refl _) (by omega) rfl h0
    (fun p q h1 h2 => by omega)

/-- Two lists that are permutations of each other and agree on cell 0 and on every cell
after `n` hold permutations of each other in the cells `1..n`. -/
theorem slice_perm (xs ys : List Int) (n : Nat) (hlen : xs.length = ys.length)
    (hp : List.Perm xs ys) (hn : n < xs.length) (h0 : xs.getD 0 0 = ys.getD 0 0)
    (hrest : ∀ k : Nat, n < k → xs.getD k 0 = ys.getD k 0) :
    List.Perm ((xs.drop 1).take n) ((ys.drop 1).take n) := by
  have dx : xs = xs.take 1 ++ ((xs.drop 1).take n ++ (xs.drop 1).drop n) := by
    rw [List.take_append_drop, List.take_append_drop]
  have dy : ys = ys.take 1 ++ ((ys.drop 1).take n ++ (ys.drop 1).drop n) := by
    rw [List.take_append_drop, List.take_append_drop]
  have e1 : xs.take 1 = ys.take 1 := by
    cases xs with
    | nil => simp at hn
    | cons x xs1 =>
      cases ys with
      | nil => simp at hlen
      | cons y ys1 =>
        simp only [List.getD_cons_zero] at h0
        simp [h0]
  have e2 : (xs.drop 1).drop n = (ys.drop 1).drop n := by
    apply List.ext_getElem
    · simp only [List.length_drop]; omega
    · intro k hk1 hk2
      have hk : 1 + (n + k) < xs.length := by
        simp only [List.length_drop] at hk1; omega
      have a := hrest (1 + (n + k)) (by omega)
      rw [List.getD_eq_getElem _ _ hk, List.getD_eq_getElem _ _ (by rw [← hlen]; exact hk)] at a
      simp only [List.getElem_drop]
      exact a
  rw [dx, dy, e1, e2] at hp
  exact (List.perm_append_right_iff _).mp ((List.perm_append_left_iff _).mp hp)

/-- C20: for the buffer `moves` that `legal_moves` leaves for any board and player, the
root-move sort of `strategy` keeps the count in `moves[0]`, leaves in the cells `1..n` a
permutation of the legal moves, and the `eval_board` values of the cells `1..n` are
non-increasing. -/
theorem root_sort_spec (b : Board) (player : Int) :
    sort_moves (moves_buffer b player) 0 = (((legal_moves b player).tail.length : Nat) : Int) ∧
    sort_moves (moves_buffer b player) 0 = moves_buffer b player 0 ∧
    List.Perm
      (((sort_moves (moves_buffer b player)).cells.drop 1).take (legal_moves b player).tail.length)
      (legal_moves b player).tail ∧
    (∀ p q : Int, 1 ≤ p → p ≤ q → q ≤ (((legal_moves b player).tail.length : Nat) : Int) →
      eval_board (sort_moves (moves_buffer b player) q) ≤
        eval_board (sort_moves (moves_buffer b player) p)) := by
  obtain ⟨found, hf⟩ : ∃ found : List Int,
      legal_moves b player = (found.length : Int) :: found := ⟨_, rfl⟩
  have hcells : (moves_buffer b player).cells
      = (found.length : Int) :: (found ++ List.replicate (65 - (found.length + 1)) 0) := by
    unfold moves_buffer; rw [hf]; simp
  have h0 : moves_buffer b player 0 = (found.length : Int) := by
    rw [cell_getD _ 0 (le_refl _), hcells]; rfl
  have hn : found.length < (moves_buffer b player).cells.length := by
    rw [hcells]; simp; omega
  obtain ⟨s1, s2, s3, s4⟩ := sort_moves_sorted (moves_buffer b player) found.length h0 hn
  have htail : (legal_moves b player).tail = found := by rw [hf]; rfl
  rw [htail]
  refine ⟨by rw [s3 0 (Or.inl (by omega)), h0], s3 0 (Or.inl (by omega)), ?_, s4⟩
  have key := slice_perm (sort_moves (moves_buffer b player)).cells
    (moves_buffer b player).cells found.length s1 s2 (by rw [s1]; exact hn)
    (by
      have a := s3 0 (Or.inl (by omega))
      rw [cell_getD _ 0 (le_refl _), cell_getD _ 0 (le_refl _)] at a
      exact a)
    (by
      intro k hk
      have a := s3 (k : Int) (Or.inr (by omega))
      rw [cell_getD _ _ (by omega), cell_getD _ _ (by omega), Int.toNat_ofNat] at a
      exact a)
  have e : ((moves_buffer b player).cells.drop 1).take found.length = found := by
    rw [hcells]; simp
  rw [e] at key
  exact key

theorem root_sort_spec_witness :
    eval_board (sort_moves (moves_buffer initialise_board BLACK) 4) ≤
      eval_board (sort_moves (moves_buffer initialise_board BLACK) 1) :=
  (root_sort_spec initialise_board BLACK).2.2.2 1 4 (by decide) (by decide) (by decide!)

/-! ## The spiral, unchecked moves and ties in the root-move sort -/

/-- C28: the table `spiral` has 64 entries without repetition, which are exactly the
playable squares; its entries 0..27, 28..47, 48..59 and 60..63 are the squares at
distance 0, 1, 2 and 3 from the edge, and the last entry of each of the four rings is
21, 32, 43 and 54, the squares for which `IS_LOOP_COMPLETED` holds. -/
theorem spiral_rings :
    spiral.length = 64 ∧ spiral.Nodup ∧
    (∀ m ∈ spiral, validp m ≠ 0) ∧
    (∀ m ∈ SQUARES, validp m ≠ 0 → m ∈ spiral) ∧
    ((spiral.take 28).length = 28 ∧ ∀ m ∈ spiral.take 28, edge_distance m = 0) ∧
    (((spiral.drop 28).take 20).length = 20 ∧
      ∀ m ∈ (spiral.drop 28).take 20, edge_distance m = 1) ∧
    (((spiral.drop 48).take 12).length = 12 ∧
      ∀ m ∈ (spiral.drop 48).take 12, edge_distance m = 2) ∧
    ((spiral.drop 60).length = 4 ∧ ∀ m ∈ spiral.drop 60, edge_distance m = 3) ∧
    (spiral.take 28).getLast? = some 21 ∧
    ((spiral.drop 28).take 20).getLast? = some 32 ∧
    ((spiral.drop 48).take 12).getLast? = some 43 ∧
    (spiral.drop 60).getLast? = some 54 ∧
    (∀ m ∈ spiral, IS_LOOP_COMPLETED m = true ↔ m ∈ ([21, 32, 43, 54] : List Int)) := by
  decide!

/-- C30, as stated, fails: square 11 is not a legal move for BLACK on the initial board
(no direction brackets anything), and square 44 is not one either (it holds a WHITE
piece); `make_move` places a BLACK piece on each of them all the same. -/
theorem make_move_unchecked_counterexample :
    legalp initialise_board 11 BLACK = 0 ∧ initialise_board 11 = EMPTY ∧
    make_move initialise_board 11 BLACK 11 = BLACK ∧
    legalp initialise_board 44 BLACK = 0 ∧ initialise_board 44 = WHITE ∧
    make_move initialise_board 44 BLACK 44 = BLACK := by
  decide!

/-- C30, amended: `make_move` tests nothing.  On a board with the ring invariant, for a
playable square that is not a legal move of the player, it writes the player's piece on
the square, turns over the runs bracketed from it (if the square was occupied there can
be some), and leaves every other cell as it was; when no direction brackets a run, the
square played is the only cell that can change. -/
theorem make_move_unchecked (b : Board) (hb : RingInv b) (m P : Int) (hm : validp m ≠ 0)
    (hill : legalp b m P = 0) :
    make_move b m P m = P ∧
    (∀ c, c ≠ m → (∃ d ∈ ALLDIRECTIONS, Flips b m P d c) → make_move b m P c = P) ∧
    (∀ c, c ≠ m → (¬ ∃ d ∈ ALLDIRECTIONS, Flips b m P d c) → make_move b m P c = b c) ∧
    ((∀ d ∈ ALLDIRECTIONS, would_flip b m d P = 0) →
      ∀ c, make_move b m P c = setCell b m P c) := by
  have _ := hill
  obtain ⟨_, i1, i2, i3⟩ := make_move_inv b hb m P hm
  refine ⟨i1, i2, i3, ?_⟩
  intro hno c
  have h0 : 0 ≤ m := by rw [validp_ne_zero_iff] at hm; omega
  have h1 : m < (b.cells.length : Int) := by
    rw [validp_ne_zero_iff] at hm; rw [hb.1]; have : ((100 : Nat) : Int) = 100 := rfl; omega
  by_cases hc : c = m
  · subst hc
    rw [i1, cell_setCell_self b c P h0 h1]
  · rw [cell_setCell_ne b m P c hc]
    apply i3 c hc
    rintro ⟨d, hd, hf⟩
    exact hf.1 (hno d hd)

/-- Witness of the amended C30: BLACK on square 11 of the initial board. -/
theorem make_move_unchecked_witness :
    make_move initialise_board 11 BLACK 11 = BLACK ∧
    (∀ c, c ≠ 11 → (∃ d ∈ ALLDIRECTIONS, Flips initialise_board 11 BLACK d c) →
      make_move initialise_board 11 BLACK c = BLACK) ∧
    (∀ c, c ≠ 11 → (¬ ∃ d ∈ ALLDIRECTIONS, Flips initialise_board 11 BLACK d c) →
      make_move initialise_board 11 BLACK c = initialise_board c) ∧
    ((∀ d ∈ ALLDIRECTIONS, would_flip initialise_board 11 d BLACK = 0) →
      ∀ c, make_move initialise_board 11 BLACK c = setCell initialise_board 11 BLACK c) :=
  make_move_unchecked initialise_board initialise_board_wellFormed.ringInv 11 BLACK
    (by decide) (by decide!)

/-! ## The root-move sort: ties and the first cell -/

theorem mem_int_range (a : Int) (len : Nat) (j : Int) :
    j ∈ int_range a len ↔ a ≤ j ∧ j < a + (len : Int) := by
  unfold int_range
  simp only [List.mem_map, List.mem_range]
  constructor
  · rintro ⟨k, hk, rfl⟩; omega
  · intro h
    exact ⟨(j - a).toNat, by omega, by omega⟩

theorem sort_step_id (ms : Board) (i j : Int)
    (h : eval_board (ms j) ≤ eval_board (ms i)) : sort_step ms i j = ms := by
  unfold sort_step
  rw [if_neg (by omega)]

/-- The inner loop exchanges nothing when no cell it visits has a greater table value
than cell `i`. -/
theorem sort_inner_id (ms : Board) (i : Int)
    (h : ∀ j : Int, i ≤ j → j ≤ ms 0 → eval_board (ms j) ≤ eval_board (ms i)) :
    sort_inner ms i = ms := by
  unfold sort_inner
  have key : ∀ js : List Int, (∀ j ∈ js, eval_board (ms j) ≤ eval_board (ms i)) →
      js.foldl (fun ms j => sort_step ms i j) ms = ms := by
    intro js
    induction js with
    | nil => intro _; rfl
    | cons j rest ih =>
      intro hj
      rw [List.foldl_cons, sort_step_id ms i j (hj j (List.mem_cons_self _ _))]
      exact ih (fun x hx => hj x (List.mem_cons_of_mem _ hx))
  apply key
  intro j hj
  rw [mem_int_range] at hj
  exact h j hj.1 (by omega)

/-- The sort exchanges nothing when the cells `1..n` are already in non-increasing order
of table value. -/
theorem sort_moves_id (ms : Board)
    (h : ∀ p q : Int, 1 ≤ p → p ≤ q → q ≤ ms 0 → eval_board (ms q) ≤ eval_board (ms p)) :
    sort_moves ms = ms := by
  unfold sort_moves
  have key : ∀ is : List Int, (∀ i ∈ is, 1 ≤ i) →
      is.foldl (fun ms i => sort_inner ms i) ms = ms := by
    intro is
    induction is with
    | nil => intro _; rfl
    | cons i rest ih =>
      intro hi
      rw [List.foldl_cons,
        sort_inner_id ms i (fun j h1 h2 => h i j (hi i (List.mem_cons_self _ _)) h1 h2)]
      exact ih (fun x hx => hi x (List.mem_cons_of_mem _ hx))
  apply key
  intro i hi
  rw [mem_int_range] at hi
  exact hi.1

/-- The cells before `i0` are not touched by the passes `i0, i0 + 1, ..` of the sort. -/
theorem sort_outer_frame (n : Int) (L : Nat) (hnL : n < L) :
    ∀ (len : Nat) (i0 : Int) (ms : Board), 1 ≤ i0 → i0 + (len : Int) = n + 1 →
      ms.cells.length = L → ms 0 = n →
      ∀ p : Int, p < i0 →
        (int_range i0 len).foldl (fun ms i => sort_inner ms i) ms p = ms p := by
  intro len
  induction len with
  | zero =>
    intro i0 ms _ _ _ _ p _
    rw [int_range_zero, List.foldl_nil]
  | succ len ih =>
    intro i0 ms hi0 hlen hL h0 p hp
    rw [int_range_succ, List.foldl_cons]
    obtain ⟨s1, _, s3, _, _⟩ := sort_inner_loop i0 n L hi0 hnL (n + 1 - i0).toNat i0 ms
      (le_refl _) (by rw [Int.toNat_of_nonneg (by push_cast at hlen; omega)]; omega) hL
      (fun p h1 h2 => by omega)
    have e : sort_inner ms i0
        = (int_range i0 (n + 1 - i0).toNat).foldl (fun ms j => sort_step ms i0 j) ms := by
      unfold sort_inner; rw [h0]
    rw [← e] at s1 s3
    rw [ih (i0 + 1) (sort_inner ms i0) (by omega) (by push_cast at hlen; omega) s1
      (by rw [s3 0 (Or.inl (by omega)), h0]) p (by omega)]
    exact s3 p (Or.inl hp)

/-- When no cell of `1..n` has a greater table value than cell 1, the sort leaves cell 1
as it is. -/
theorem sort_moves_first (ms : Board) (n : Nat) (h0 : ms 0 = (n : Int))
    (hn : n < ms.cells.length)
    (h : ∀ j : Int, 1 ≤ j → j ≤ (n : Int) → eval_board (ms j) ≤ eval_board (ms 1)) :
    sort_moves ms 1 = ms 1 := by
  cases n with
  | zero =>
    have e : sort_moves ms = ms := by
      unfold sort_moves; rw [h0]; rfl
    rw [e]
  | succ k =>
    have e : sort_moves ms
        = (int_range 2 k).foldl (fun ms i => sort_inner ms i) (sort_inner ms 1) := by
      unfold sort_moves
      rw [h0, Int.toNat_ofNat, int_range_succ, List.foldl_cons]
      rfl
    have e1 : sort_inner ms 1 = ms := sort_inner_id ms 1 (fun j h1 h2 => h j h1 (by omega))
    rw [e, e1]
    exact sort_outer_frame ((k + 1 : Nat) : Int) ms.cells.length (by omega) k 2 ms
      (by omega) (by push_cast; omega) rfl h0 1 (by omega)

theorem squares_increasing : SQUARES.Pairwise (fun x y => x < y) := by decide

/-- The cells of the buffer `legal_moves` fills. -/
theorem moves_buffer_cell (b : Board) (player : Int) (p : Nat)
    (hp : p < (legal_moves b player).length) :
    moves_buffer b player (p : Int) = (legal_moves b player).getD p 0 := by
  rw [cell_getD _ _ (by omega), Int.toNat_ofNat]
  unfold moves_buffer
  simp only
  rw [List.getD_append _ _ _ _ hp]

theorem moves_buffer_zero (b : Board) (player : Int) :
    moves_buffer b player 0 = (((legal_moves b player).tail.length : Nat) : Int) := by
  have h := moves_buffer_cell b player 0 (by unfold legal_moves; simp)
  simp only [Nat.cast_zero] at h
  rw [h]
  rfl

theorem moves_buffer_length (b : Board) (player : Int) :
    (legal_moves b player).tail.length < (moves_buffer b player).cells.length := by
  unfold moves_buffer legal_moves
  simp
  omega

/-- The moves `legal_moves` lists are in increasing order of square index. -/
theorem legal_moves_increasing (b : Board) (player : Int) :
    (legal_moves b player).tail.Pairwise (fun x y => x < y) := by
  have e : (legal_moves b player).tail
      = SQUARES.filter (fun move => decide (legalp b move player ≠ 0)) := rfl
  rw [e]
  exact squares_increasing.filter _

/-- Cell `p` of the buffer, for `1 <= p <= n`, is entry `p - 1` of the legal moves. -/
theorem moves_buffer_move (b : Board) (player : Int) (p : Int) (h1 : 1 ≤ p)
    (h2 : p ≤ (((legal_moves b player).tail.length : Nat) : Int)) :
    moves_buffer b player p = (legal_moves b player).tail.getD (p - 1).toNat 0 := by
  have e : p = (((p - 1).toNat + 1 : Nat) : Int) := by omega
  have hlen : (legal_moves b player).length = (legal_moves b player).tail.length + 1 := by
    unfold legal_moves; simp
  rw [e, moves_buffer_cell b player _ (by omega)]
  have : (((((p - 1).toNat + 1 : Nat) : Int) - 1).toNat) = (p - 1).toNat := by omega
  rw [this]
  unfold legal_moves
  simp

/-- A relation that holds pairwise along the legal moves holds between the cells
`p < q` of the buffer. -/
theorem pairwise_buffer (R : Int → Int → Prop) (b : Board) (player : Int)
    (h : (legal_moves b player).tail.Pairwise R) (p q : Int) (h1 : 1 ≤ p) (h2 : p < q)
    (h3 : q ≤ (((legal_moves b player).tail.length : Nat) : Int)) :
    R (moves_buffer b player p) (moves_buffer b player q) := by
  rw [moves_buffer_move b player p h1 (by omega), moves_buffer_move b player q (by omega) h3]
  rw [List.pairwise_iff_getElem] at h
  have hp : (p - 1).toNat < (legal_moves b player).tail.length := by omega
  have hq : (q - 1).toNat < (legal_moves b player).tail.length := by omega
  rw [List.getD_eq_getElem _ _ hp, List.getD_eq_getElem _ _ hq]
  exact h _ _ hp hq (by omega)

/-- C21, as stated, fails: after BLACK opens with 56, the legal moves of WHITE are 46, 64
and 66; the sort leaves them as 66, 64, 46, so 64 comes before 46 although both have the
table value 0 and 46 is the smaller index. -/
theorem root_sort_ties_counterexample :
    legal_game initialise_board BLACK [56] = true ∧
    legal_moves tie_board WHITE = [3, 46, 64, 66] ∧
    sort_moves (moves_buffer tie_board WHITE) 1 = 66 ∧
    sort_moves (moves_buffer tie_board WHITE) 2 = 64 ∧
    sort_moves (moves_buffer tie_board WHITE) 3 = 46 ∧
    eval_board 64 = eval_board 46 := by
  decide!

/-- The inner loop of the sort and the moves of greatest table value `V`: when no cell of
`1..n` has a table value above `V` and the cells with value `V` hold increasing squares,
this is so again after the loop.  A cell with value `V` is moved only into cell `i`, and
only while no cell between `i` and the loop variable has the value `V`. -/
theorem sort_inner_top (i n : Int) (L : Nat) (V : Int) (hi : 1 ≤ i) (hnL : n < L) :
    ∀ (len : Nat) (j0 : Int) (ms : Board), i ≤ j0 → j0 + (len : Int) = n + 1 →
      ms.cells.length = L →
      (∀ p : Int, 1 ≤ p → p ≤ n → eval_board (ms p) ≤ V) →
      (∀ p q : Int, 1 ≤ p → p < q → q ≤ n → eval_board (ms p) = V → eval_board (ms q) = V →
        ms p < ms q) →
      (eval_board (ms i) = V ∨ ∀ p : Int, i < p → p < j0 → eval_board (ms p) ≠ V) →
      (∀ p : Int, 1 ≤ p → p ≤ n →
        eval_board ((int_range j0 len).foldl (fun ms j => sort_step ms i j) ms p) ≤ V) ∧
      (∀ p q : Int, 1 ≤ p → p < q → q ≤ n →
        eval_board ((int_range j0 len).foldl (fun ms j => sort_step ms i j) ms p) = V →
        eval_board ((int_range j0 len).foldl (fun ms j => sort_step ms i j) ms q) = V →
        (int_range j0 len).foldl (fun ms j => sort_step ms i j) ms p
          < (int_range j0 len).foldl (fun ms j => sort_step ms i j) ms q) := by
  intro len
  induction len with
  | zero =>
    intro j0 ms _ _ _ hb ho _
    rw [int_range_zero, List.foldl_nil]
    exact ⟨hb, ho⟩
  | succ len ih =>
    intro j0 ms hj0 hlen hL hb ho hm
    rw [int_range_succ, List.foldl_cons]
    have hj0n : j0 ≤ n := by push_cast at hlen; omega
    obtain ⟨s1, _, s3, s4⟩ := sort_step_spec ms i j0 (by omega) (by rw [hL]; omega)
      (by omega) (by rw [hL]; omega)
    have hbi := hb i hi (by omega)
    have hbj := hb j0 (by omega) hj0n
    apply ih (j0 + 1) (sort_step ms i j0) (by omega) (by push_cast at hlen; omega)
      (by rw [s1, hL])
    · intro p h1 h2
      by_cases hpi : p = i
      · rw [hpi]
        rcases s4 with ⟨e1, _, _⟩ | ⟨e1, _, _⟩ <;> rw [e1] <;> assumption
      · by_cases hpj : p = j0
        · rw [hpj]
          rcases s4 with ⟨_, e2, _⟩ | ⟨_, e2, _⟩ <;> rw [e2] <;> assumption
        · rw [s3 p hpi hpj]
          exact hb p h1 h2
    · rcases s4 with ⟨e1, e2, _⟩ | ⟨e1, e2, e3⟩
      · have hall : ∀ p : Int, sort_step ms i j0 p = ms p := by
          intro p
          by_cases hpi : p = i
          · rw [hpi, e1]
          · by_cases hpj : p = j0
            · rw [hpj, e2]
            · exact s3 p hpi hpj
        intro p q h1 h2 h3
        rw [hall p, hall q]
        exact ho p q h1 h2 h3
      · have hiV : eval_board (ms i) ≠ V := by omega
        have hij : i ≠ j0 := by
          intro h
          rw [h] at e3
          exact lt_irrefl _ e3
        have hno : ∀ p : Int, i < p → p < j0 → eval_board (ms p) ≠ V := by
          rcases hm with h | h
          · exact absurd h hiV
          · exact h
        intro p q h1 h2 h3 hp hq
        have hpj : p ≠ j0 := by
          intro h
          rw [h, e2] at hp
          exact hiV hp
        have hqj : q ≠ j0 := by
          intro h
          rw [h, e2] at hq
          exact hiV hq
        by_cases hpi : p = i
        · rw [hpi, e1] at hp ⊢
          have hqi : q ≠ i := by omega
          rw [s3 q hqi hqj] at hq ⊢
          by_cases hlt : q < j0
          · exact absurd hq (hno q (by omega) hlt)
          · exact ho j0 q (by omega) (by omega) h3 hp hq
        · rw [s3 p hpi hpj] at hp ⊢
          by_cases hqi : q = i
          · rw [hqi, e1] at hq ⊢
            exact ho p j0 h1 (by omega) hj0n hp hq
          · rw [s3 q hqi hqj] at hq ⊢
            exact ho p q h1 h2 h3 hp hq
    · rcases s4 with ⟨e1, e2, e3⟩ | ⟨e1, e2, e3⟩
      · by_cases hiV : eval_board (ms i) = V
        · left; rw [e1]; exact hiV
        · right
          have hno : ∀ p : Int, i < p → p < j0 → eval_board (ms p) ≠ V := by
            rcases hm with h | h
            · exact absurd h hiV
            · exact h
          intro p h1 h2
          by_cases hpj : p = j0
          · rw [hpj, e2]; omega
          · rw [s3 p (by omega) hpj]
            exact hno p h1 (by omega)
      · have hiV : eval_board (ms i) ≠ V := by omega
        by_cases hjV : eval_board (ms j0) = V
        · left; rw [e1]; exact hjV
        · right
          have hno : ∀ p : Int, i < p → p < j0 → eval_board (ms p) ≠ V := by
            rcases hm with h | h
            · exact absurd h hiV
            · exact h
          intro p h1 h2
          by_cases hpj : p = j0
          · rw [hpj, e2]; exact hiV
          · rw [s3 p (by omega) hpj]
            exact hno p h1 (by omega)

/-- The outer loop of the sort keeps the moves of greatest table value in increasing
order of square. -/
theorem sort_outer_top (n : Int) (L : Nat) (V : Int) (hnL : n < L) :
    ∀ (len : Nat) (i0 : Int) (ms : Board), 1 ≤ i0 → i0 + (len : Int) = n + 1 →
      ms.cells.length = L → ms 0 = n →
      (∀ p : Int, 1 ≤ p → p ≤ n → eval_board (ms p) ≤ V) →
      (∀ p q : Int, 1 ≤ p → p < q → q ≤ n → eval_board (ms p) = V → eval_board (ms q) = V →
        ms p < ms q) →
      (∀ p q : Int, 1 ≤ p → p < q → q ≤ n →
        eval_board ((int_range i0 len).foldl (fun ms i => sort_inner ms i) ms p) = V →
        eval_board ((int_range i0 len).foldl (fun ms i => sort_inner ms i) ms q) = V →
        (int_range i0 len).foldl (fun ms i => sort_inner ms i) ms p
          < (int_range i0 len).foldl (fun ms i => sort_inner ms i) ms q) := by
  intro len
  induction len with
  | zero =>
    intro i0 ms _ _ _ _ _ ho
    rw [int_range_zero, List.foldl_nil]
    exact ho
  | succ len ih =>
    intro i0 ms hi0 hlen hL h0 hb ho
    rw [int_range_succ, List.foldl_cons]
    have hi0n : i0 ≤ n := by push_cast at hlen; omega
    have hlen1 : i0 + (((n + 1 - i0).toNat : Nat) : Int) = n + 1 := by
      rw [Int.toNat_of_nonneg (by omega)]; omega
    obtain ⟨s1, _, s3, _, _⟩ := sort_inner_loop i0 n L hi0 hnL (n + 1 - i0).toNat i0 ms
      (le_refl _) hlen1 hL (fun p h1 h2 => by omega)
    obtain ⟨t1, t2⟩ := sort_inner_top i0 n L V hi0 hnL (n + 1 - i0).toNat i0 ms
      (le_refl _) hlen1 hL hb ho (Or.inr (fun p h1 h2 => by omega))
    have e : sort_inner ms i0
        = (int_range i0 (n + 1 - i0).toNat).foldl (fun ms j => sort_step ms i0 j) ms := by
      unfold sort_inner; rw [h0]
    rw [← e] at s1 s3 t1 t2
    exact ih (i0 + 1) (sort_inner ms i0) (by omega) (by push_cast at hlen; omega) s1
      (by rw [s3 0 (Or.inl (by omega)), h0]) t1 t2

/-- The root-move sort keeps the moves of greatest table value in the order in which
`legal_moves` listed them, smaller square first. -/
theorem sort_moves_top (b : Board) (player : Int) (V : Int)
    (hV : ∀ m ∈ (legal_moves b player).tail, eval_board m ≤ V) (p q : Int) (h1 : 1 ≤ p)
    (h2 : p < q) (h3 : q ≤ (((legal_moves b player).tail.length : Nat) : Int))
    (hp : eval_board (sort_moves (moves_buffer b player) p) = V)
    (hq : eval_board (sort_moves (moves_buffer b player) q) = V) :
    sort_moves (moves_buffer b player) p < sort_moves (moves_buffer b player) q := by
  have h0 := moves_buffer_zero b player
  have hn := moves_buffer_length b player
  have e : sort_moves (moves_buffer b player)
      = (int_range 1 (legal_moves b player).tail.length).foldl (fun ms i => sort_inner ms i)
          (moves_buffer b player) := by
    unfold sort_moves; rw [h0, Int.toNat_ofNat]
  rw [e] at hp hq ⊢
  refine sort_outer_top _ (moves_buffer b player).cells.length V (by omega) _ 1
    (moves_buffer b player) (le_refl _) (by omega) rfl h0 ?_ ?_ p q h1 h2 h3 hp hq
  · intro r r1 r2
    rw [moves_buffer_move b player r r1 r2]
    have hr : (r - 1).toNat < (legal_moves b player).tail.length := by omega
    rw [List.getD_eq_getElem _ _ hr]
    exact hV _ (List.getElem_mem _)
  · intro r t r1 r2 r3 _ _
    exact pairwise_buffer (fun x y => x < y) b player (legal_moves_increasing b player) r t
      r1 r2 r3

/-- C21, amended: after the root-move sort, two root moves with equal `eval_board` value
appear in row-major order, the smaller square index first, when their value is the
greatest among the root moves, on every board; and also for every value when the moves
that `legal_moves` lists are already in non-increasing order of `eval_board` value, where
the sort exchanges nothing. -/
theorem root_sort_ties (b : Board) (player : Int) :
    (∀ p q : Int, 1 ≤ p → p < q → q ≤ (((legal_moves b player).tail.length : Nat) : Int) →
      eval_board (sort_moves (moves_buffer b player) p)
        = eval_board (sort_moves (moves_buffer b player) q) →
      (∀ m ∈ (legal_moves b player).tail,
        eval_board m ≤ eval_board (sort_moves (moves_buffer b player) p)) →
      sort_moves (moves_buffer b player) p < sort_moves (moves_buffer b player) q) ∧
    ((legal_moves b player).tail.Pairwise (fun x y => eval_board y ≤ eval_board x) →
      sort_moves (moves_buffer b player) = moves_buffer b player ∧
      ∀ p q : Int, 1 ≤ p → p < q → q ≤ (((legal_moves b player).tail.length : Nat) : Int) →
        eval_board (sort_moves (moves_buffer b player) p)
          = eval_board (sort_moves (moves_buffer b player) q) →
        sort_moves (moves_buffer b player) p < sort_moves (moves_buffer b player) q) := by
  constructor
  · intro p q h1 h2 h3 heq hmax
    exact sort_moves_top b player _ hmax p q h1 h2 h3 rfl heq.symm
  · intro h
    have e : sort_moves (moves_buffer b player) = moves_buffer b player := by
      apply sort_moves_id
      intro p q h1 h2 h3
      rw [moves_buffer_zero] at h3
      by_cases hpq : p = q
      · rw [hpq]
      · exact pairwise_buffer (fun x y => eval_board y ≤ eval_board x) b player h p q h1
          (by omega) h3
    refine ⟨e, ?_⟩
    intro p q h1 h2 h3 _
    rw [e]
    exact pairwise_buffer (fun x y => x < y) b player (legal_moves_increasing b player) p q
      h1 h2 h3

/-- Witness of the amended C21: after the legal game 34, 35 the moves of BLACK are 26, 36,
46, 56, 66 with the table values -1, 1, 0, 0, 1.  The sort leaves them as 36, 66, 56, 46,
26: the two moves of greatest value, 36 and 66, are in row-major order, while 56 stands
before 46. -/
theorem root_sort_ties_witness :
    legal_game initialise_board BLACK [34, 35] = true ∧
    legal_moves (play_moves initialise_board BLACK [34, 35]) BLACK = [5, 26, 36, 46, 56, 66] ∧
    root_list (sort_moves (moves_buffer (play_moves initialise_board BLACK [34, 35]) BLACK))
      = [36, 66, 56, 46, 26] ∧
    sort_moves (moves_buffer (play_moves initialise_board BLACK [34, 35]) BLACK) 1
      < sort_moves (moves_buffer (play_moves initialise_board BLACK [34, 35]) BLACK) 2 :=
  ⟨by decide!, by decide!, by decide!,
    (root_sort_ties (play_moves initialise_board BLACK [34, 35]) BLACK).1 1 2 (by decide)
      (by decide) (by decide!) (by decide!) (by decide!)⟩

theorem eval_board_le (i : Int) : eval_board i ≤ 4 := by
  have h : ∀ x ∈ eval_board.cells, x ≤ 4 := by decide
  show Board.cell eval_board i ≤ 4
  unfold Board.cell
  split_ifs
  · omega
  · by_cases hi : i.toNat < eval_board.cells.length
    · rw [List.getD_eq_getElem _ _ hi]
      exact h _ (List.getElem_mem _)
    · rw [List.getD_eq_default _ _ (by omega)]
      omega

theorem eval_board_corners (i : Int) :
    eval_board i = 4 ↔ i = 11 ∨ i = 18 ∨ i = 81 ∨ i = 88 := by
  have h : ∀ k ∈ List.range 90, eval_board ((k : Nat) : Int) = 4 ↔
      (k = 11 ∨ k = 18 ∨ k = 81 ∨ k = 88) := by decide!
  by_cases hi : 0 ≤ i ∧ i < 90
  · have := h i.toNat (List.mem_range.mpr (by omega))
    rw [Int.toNat_of_nonneg hi.1] at this
    rw [this]
    omega
  · have e : eval_board i = 0 := by
      show Board.cell eval_board i = 0
      unfold Board.cell
      split_ifs
      · rfl
      · rw [List.getD_eq_default _ _ (by
          have : eval_board.cells.length = 90 := by decide
          omega)]
    rw [e]
    omega

/-- When square 11 is a legal move it is the first move that `legal_moves` lists, and the
sort keeps it in cell 1. -/
theorem sorted_first_corner (b : Board) (player : Int)
    (h : 11 ∈ (legal_moves b player).tail) :
    sort_moves (moves_buffer b player) 1 = 11 := by
  have hinc := legal_moves_increasing b player
  have hsq : ∀ x ∈ (legal_moves b player).tail, 11 ≤ x := by
    intro x hx
    have : x ∈ SQUARES := by
      have e : (legal_moves b player).tail
          = SQUARES.filter (fun move => decide (legalp b move player ≠ 0)) := rfl
      rw [e] at hx
      exact (List.mem_filter.1 hx).1
    exact ((mem_SQUARES x).1 this).1
  have hb1 : moves_buffer b player 1 = 11 := by
    cases hl : (legal_moves b player).tail with
    | nil => rw [hl] at h; simp at h
    | cons x rest =>
      rw [moves_buffer_move b player 1 (le_refl _) (by rw [hl]; simp), hl]
      show x = 11
      rw [hl] at h hinc hsq
      rcases List.mem_cons.1 h with h1 | h1
      · exact h1.symm
      · have := (List.pairwise_cons.1 hinc).1 11 h1
        have := hsq x (List.mem_cons_self _ _)
        omega
  rw [sort_moves_first (moves_buffer b player) (legal_moves b player).tail.length
    (moves_buffer_zero b player) (moves_buffer_length b player)
    (fun j _ _ => by rw [hb1]; exact eval_board_le _)]
  exact hb1

/-! ## The coordinator -/

theorem TRUE_ne_zero : TRUE ≠ 0 := by decide

theorem serve_fields (moves : Board) (t : Tick) (c : Coord) :
    (serve moves t c).depth = c.depth ∧ (serve moves t c).timeout = c.timeout ∧
    (serve moves t c).best_move = c.best_move := by
  unfold serve
  cases t.request with
  | none => exact ⟨rfl, rfl, rfl⟩
  | some p => exact ⟨rfl, rfl, rfl⟩

theorem watch_fields (moves : Board) (comm_sz : Int) (t : Tick) (c : Coord) :
    (watch moves comm_sz t c).best_move = c.best_move ∧
    (watch moves comm_sz t c).requests = c.requests ∧
    (watch moves comm_sz t c).received = c.received ∧
    ((watch moves comm_sz t c).timeout = TRUE ∨
      ((watch moves comm_sz t c).timeout = c.timeout ∧
        (watch moves comm_sz t c).depth = c.depth ∧ c.depth < MAX_DEPTH)) ∧
    (t.late = true → (watch moves comm_sz t c).timeout = TRUE) := by
  unfold watch
  simp only
  split_ifs with h1 h2 h2
  · exact ⟨rfl, rfl, rfl, Or.inl rfl, fun _ => rfl⟩
  · refine ⟨rfl, rfl, rfl, Or.inr ⟨rfl, ?_, ?_⟩, fun h => absurd (Or.inl h) h2⟩
    · exact absurd (Or.inr (le_refl _)) h2
    · exact absurd (Or.inr (le_refl _)) h2
  · exact ⟨rfl, rfl, rfl, Or.inl rfl, fun _ => rfl⟩
  · refine ⟨rfl, rfl, rfl, Or.inr ⟨rfl, rfl, ?_⟩, fun h => absurd (Or.inl h) h2⟩
    by_contra hc
    exact h2 (Or.inr (by omega))

/-- One pass of the allocation loop keeps `best_move`; it sets the timeout flag, or it
leaves the flag and `depth` as they were, and then `depth` is below `MAX_DEPTH`. -/
theorem allocate_step_fields (moves : Board) (comm_sz : Int) (t : Tick) (c : Coord) :
    (allocate_step moves comm_sz t c).best_move = c.best_move ∧
    ((allocate_step moves comm_sz t c).timeout = TRUE ∨
      ((allocate_step moves comm_sz t c).timeout = c.timeout ∧
        (allocate_step moves comm_sz t c).depth = c.depth ∧ c.depth < MAX_DEPTH)) ∧
    (t.late = true → (allocate_step moves comm_sz t c).timeout = TRUE) := by
  unfold allocate_step
  obtain ⟨s1, s2, s3⟩ := serve_fields moves t c
  obtain ⟨w1, _, _, w4, w5⟩ := watch_fields moves comm_sz t (serve moves t c)
  rw [s1, s2, s3] at *
  exact ⟨w1, w4, w5⟩

/-- The allocation loop keeps `best_move`; it leaves with the timeout flag set, or with
the flag and `depth` as they were. -/
theorem allocate_fields (moves : Board) (comm_sz : Int) :
    ∀ (ticks : List Tick) (c : Coord),
      (allocate moves comm_sz ticks c).best_move = c.best_move ∧
      ((allocate moves comm_sz ticks c).timeout ≠ 0 ∨
        ((allocate moves comm_sz ticks c).timeout = c.timeout ∧
          (allocate moves comm_sz ticks c).depth = c.depth ∧
          ((c.moves_completed < moves 0 ∧ c.timeout = 0 ∧ moves 0 > 1) →
            c.depth < MAX_DEPTH))) := by
  intro ticks
  induction ticks with
  | nil =>
    intro c
    unfold allocate
    by_cases h : c.moves_completed < moves 0 ∧ c.timeout = 0 ∧ moves 0 > 1
    · rw [if_pos h]
      obtain ⟨a1, _, a3⟩ := allocate_step_fields moves comm_sz ⟨none, true, true⟩ c
      refine ⟨a1, Or.inl ?_⟩
      rw [a3 rfl]
      exact TRUE_ne_zero
    · rw [if_neg h]
      exact ⟨rfl, Or.inr ⟨rfl, rfl, fun h1 => absurd h1 h⟩⟩
  | cons t rest ih =>
    intro c
    unfold allocate
    by_cases h : c.moves_completed < moves 0 ∧ c.timeout = 0 ∧ moves 0 > 1
    · rw [if_pos h]
      obtain ⟨a1, a2, _⟩ := allocate_step_fields moves comm_sz t c
      obtain ⟨b1, b2⟩ := ih (allocate_step moves comm_sz t c)
      refine ⟨by rw [b1, a1], ?_⟩
      rcases b2 with b2 | ⟨b2, b3, _⟩
      · exact Or.inl b2
      · rcases a2 with a2 | ⟨a2, a3, a4⟩
        · left
          rw [b2, a2]
          exact TRUE_ne_zero
        · exact Or.inr ⟨by rw [b2, a2], by rw [b3, a3], fun _ => a4⟩
    · rw [if_neg h]
      exact ⟨rfl, Or.inr ⟨rfl, rfl, fun h1 => absurd h1 h⟩⟩

/-- An iteration applies the reduction to the best pair it starts with. -/
theorem strategy_round_best (moves : Board) (comm_sz : Int) (r : Round) (c : Coord) :
    (strategy_round moves comm_sz r c).best_move
      = reduce r.best_moves comm_sz c.best_move := by
  have h := (allocate_fields moves comm_sz r.ticks
    ⟨0, 0, c.depth, c.timeout, c.best_move, c.sent, []⟩).1
  unfold strategy_round
  simp only
  split_ifs <;> simp only [h]

/-- An iteration that starts with the flag clear ends with the flag set, or with `depth`
one higher, and then at most `MAX_DEPTH`. -/
theorem strategy_round_progress (moves : Board) (comm_sz : Int) (r : Round) (c : Coord)
    (h0 : c.timeout = 0) :
    (strategy_round moves comm_sz r c).timeout ≠ 0 ∨
      ((strategy_round moves comm_sz r c).depth = c.depth + 1 ∧ c.depth < MAX_DEPTH) := by
  obtain ⟨_, h⟩ := allocate_fields moves comm_sz r.ticks
    ⟨0, 0, c.depth, c.timeout, c.best_move, c.sent, []⟩
  by_cases h1 : moves 0 ≤ 1
  · left
    unfold strategy_round
    simp only [h1, if_true, TRUE_ne_zero, if_false]
    exact TRUE_ne_zero
  · rcases h with h | ⟨h2, h3, h4⟩
    · left
      unfold strategy_round
      simp only [h1, if_false]
      rw [if_neg h]
      exact h
    · right
      have hd := h4 ⟨by simp only; omega, h0, by omega⟩
      simp only at h2 h3 hd
      unfold strategy_round
      simp only [h1, if_false]
      split_ifs <;> exact ⟨by simp only [h3], hd⟩

/-- One iteration with at most one root move: nothing is handed out, TIMEOUT goes to
every worker and the flag is set. -/
theorem strategy_round_few (moves : Board) (comm_sz : Int) (r : Round) (c : Coord)
    (h1 : moves 0 ≤ 1) :
    strategy_round moves comm_sz r c
      = ⟨0, 0, c.depth + 1, TRUE, reduce r.best_moves comm_sz c.best_move,
          c.sent ++ broadcast comm_sz TIMEOUT_TAG, []⟩ := by
  have e : allocate moves comm_sz r.ticks ⟨0, 0, c.depth, c.timeout, c.best_move, c.sent, []⟩
      = ⟨0, 0, c.depth, c.timeout, c.best_move, c.sent, []⟩ := by
    cases r.ticks with
    | nil => unfold allocate; rw [if_neg (by simp only; omega)]
    | cons t rest => unfold allocate; rw [if_neg (by simp only; omega)]
  unfold strategy_round
  simp only [e, h1, if_true, TRUE_ne_zero, if_false]

/-- With at most one root move the loop of `strategy` runs one iteration. -/
theorem strategy_loop_few (moves : Board) (comm_sz : Int) (r : Round) (rest : List Round)
    (h1 : moves 0 ≤ 1) :
    strategy_loop moves comm_sz (r :: rest) coord_start
      = some ⟨0, 0, STARTING_MAX_DEPTH - 1 + 1, TRUE,
          reduce r.best_moves comm_sz (-1, -1000000), broadcast comm_sz TIMEOUT_TAG, []⟩ := by
  have e := strategy_round_few moves comm_sz r coord_start h1
  unfold strategy_loop
  rw [if_neg (by decide), e]
  cases rest with
  | nil => unfold strategy_loop; rw [if_pos TRUE_ne_zero]; rfl
  | cons r2 rest2 => unfold strategy_loop; rw [if_pos TRUE_ne_zero]; rfl

/-- The loop of `strategy` ends within the iterations that `depth` allows: a description
of that many iterations gives a result. -/
theorem strategy_loop_some (moves : Board) (comm_sz : Int) :
    ∀ (env : List Round) (c : Coord),
      (c.timeout ≠ 0 ∨ (MAX_DEPTH + 1 - c.depth).toNat ≤ env.length ∧ 1 ≤ env.length) →
      ∃ c1, strategy_loop moves comm_sz env c = some c1 := by
  intro env
  induction env with
  | nil =>
    intro c h
    rcases h with h | ⟨_, h⟩
    · exact ⟨c, by unfold strategy_loop; rw [if_pos h]⟩
    · simp at h
  | cons r rest ih =>
    intro c h
    by_cases ht : c.timeout ≠ 0
    · exact ⟨c, by unfold strategy_loop; rw [if_pos ht]⟩
    · rcases h with h | ⟨h, _⟩
      · exact absurd h ht
      · unfold strategy_loop
        rw [if_neg ht]
        apply ih
        rcases strategy_round_progress moves comm_sz r c (by simpa using ht) with p | ⟨p1, p2⟩
        · exact Or.inl p
        · right
          rw [p1]
          simp only [List.length_cons] at h
          have hM : MAX_DEPTH = 15 := rfl
          rw [hM] at h p2 ⊢
          omega

theorem reduce_step_cases (bm : Board) (best : Int × Int) (i : Int) :
    (reduce_step bm best i = best ∧ (bm i ≠ -1 → bm (i + 1) ≤ best.2)) ∨
    (reduce_step bm best i = (bm i, bm (i + 1)) ∧ bm i ≠ -1 ∧ best.2 < bm (i + 1)) := by
  unfold reduce_step
  by_cases h1 : bm i = -1
  · rw [if_pos h1]
    exact Or.inl ⟨rfl, fun h => absurd h1 h⟩
  · rw [if_neg h1]
    by_cases h2 : bm (i + 1) > best.2
    · rw [if_pos h2]
      exact Or.inr ⟨rfl, h1, h2⟩
    · rw [if_neg h2]
      exact Or.inl ⟨rfl, fun _ => by omega⟩

/-- The reduction over the ranks `a .. a + len - 1`: the pair it starts with stays when no
worker of these reports a move with a greater score; otherwise the result is the pair of
the lowest rank among the workers that report the greatest score. -/
theorem reduce_fold_spec (bm : Board) :
    ∀ (len : Nat) (a : Int) (best : Int × Int),
      ((int_range a len).foldl (fun best r => reduce_step bm best (2 * r)) best = best ∧
        ∀ r : Int, a ≤ r → r < a + (len : Int) → bm (2 * r) ≠ -1 →
          bm (2 * r + 1) ≤ best.2) ∨
      (∃ r0 : Int, a ≤ r0 ∧ r0 < a + (len : Int) ∧ bm (2 * r0) ≠ -1 ∧
        (int_range a len).foldl (fun best r => reduce_step bm best (2 * r)) best
          = (bm (2 * r0), bm (2 * r0 + 1)) ∧
        best.2 < bm (2 * r0 + 1) ∧
        ∀ r : Int, a ≤ r → r < a + (len : Int) → bm (2 * r) ≠ -1 →
          bm (2 * r + 1) ≤ bm (2 * r0 + 1) ∧ (r < r0 → bm (2 * r + 1) < bm (2 * r0 + 1))) := by
  intro len
  induction len with
  | zero =>
    intro a best
    left
    rw [int_range_zero, List.foldl_nil]
    exact ⟨rfl, fun r h1 h2 => by simp at h2; omega⟩
  | succ len ih =>
    intro a best
    rw [int_range_succ, List.foldl_cons]
    rcases reduce_step_cases bm best (2 * a) with ⟨e, hk⟩ | ⟨e, hv, hgt⟩
    · rw [e]
      rcases ih (a + 1) best with ⟨e1, h1⟩ | ⟨r0, g1, g2, g3, g4, g5, g6⟩
      · left
        refine ⟨e1, fun r ha hb hr => ?_⟩
        by_cases hra : r = a
        · subst hra; exact hk hr
        · exact h1 r (by omega) (by push_cast at hb; omega) hr
      · right
        refine ⟨r0, by omega, by push_cast; omega, g3, g4, g5, fun r ha hb hr => ?_⟩
        by_cases hra : r = a
        · subst hra
          have := hk hr
          exact ⟨by omega, fun _ => by omega⟩
        · exact g6 r (by omega) (by push_cast at hb; omega) hr
    · rw [e]
      rcases ih (a + 1) (bm (2 * a), bm (2 * a + 1)) with ⟨e1, h1⟩ | ⟨r0, g1, g2, g3, g4, g5, g6⟩
      · right
        refine ⟨a, le_refl _, by push_cast; omega, hv, e1, hgt, fun r ha hb hr => ?_⟩
        by_cases hra : r = a
        · subst hra; exact ⟨le_refl _, fun h => absurd h (lt_irrefl _)⟩
        · exact ⟨h1 r (by omega) (by push_cast at hb; omega) hr, fun h => by omega⟩
      · right
        simp only at g5
        refine ⟨r0, by omega, by push_cast; omega, g3, g4, by omega, fun r ha hb hr => ?_⟩
        by_cases hra : r = a
        · subst hra
          exact ⟨by omega, fun _ => g5⟩
        · exact g6 r (by omega) (by push_cast at hb; omega) hr

/-- The reduction of one iteration, over the worker ranks `1 .. comm_sz - 1`. -/
theorem reduce_spec (bm : Board) (comm_sz : Int) (best : Int × Int) :
    (reduce bm comm_sz best = best ∧
      ∀ r : Int, 1 ≤ r → r < comm_sz → bm (2 * r) ≠ -1 → bm (2 * r + 1) ≤ best.2) ∨
    (∃ r0 : Int, 1 ≤ r0 ∧ r0 < comm_sz ∧ bm (2 * r0) ≠ -1 ∧
      reduce bm comm_sz best = (bm (2 * r0), bm (2 * r0 + 1)) ∧
      best.2 < bm (2 * r0 + 1) ∧
      ∀ r : Int, 1 ≤ r → r < comm_sz → bm (2 * r) ≠ -1 →
        bm (2 * r + 1) ≤ bm (2 * r0 + 1) ∧ (r < r0 → bm (2 * r + 1) < bm (2 * r0 + 1))) := by
  unfold reduce
  rcases reduce_fold_spec bm (comm_sz - 1).toNat 1 best with ⟨e, h⟩ | ⟨r0, g1, g2, g3, g4, g5, g6⟩
  · exact Or.inl ⟨e, fun r h1 h2 hr => h r h1 (by omega) hr⟩
  · exact Or.inr ⟨r0, g1, by omega, g3, g4, g5, fun r h1 h2 hr => g6 r h1 (by omega) hr⟩

theorem send_moves_append (l1 l2 : List Msg) :
    send_moves (l1 ++ l2) = send_moves l1 ++ send_moves l2 := by
  unfold send_moves
  exact List.filter_append _ _

theorem send_moves_broadcast (comm_sz tag : Int) (h : tag ≠ SEND_MOVE_TAG) :
    send_moves (broadcast comm_sz tag) = [] := by
  unfold send_moves broadcast
  rw [List.filter_eq_nil_iff]
  intro m hm
  rw [List.mem_map] at hm
  obtain ⟨i, _, rfl⟩ := hm
  simpa using h

theorem zipWith_snoc {α β γ : Type} (f : α → β → γ) :
    ∀ (l : List α) (x : α) (rl : List β),
      List.zipWith f (l ++ [x]) rl
        = List.zipWith f l rl ++ (match rl[l.length]? with
          | some y => [f x y]
          | none => []) := by
  intro l
  induction l with
  | nil =>
    intro x rl
    cases rl with
    | nil => rfl
    | cons y ys => simp
  | cons a l ih =>
    intro x rl
    cases rl with
    | nil => simp
    | cons y ys =>
      simp only [List.cons_append, List.zipWith_cons_cons, List.length_cons,
        List.getElem?_cons_succ]
      rw [ih x ys]

/-- Entry `k` of the root list is cell `k + 1` of the buffer. -/
theorem root_list_get (moves : Board) (n : Nat) (h0 : moves 0 = (n : Int))
    (hn : n < moves.cells.length) (k : Nat) :
    (root_list moves)[k]? = if k < n then some (moves ((k : Int) + 1)) else none := by
  unfold root_list
  rw [h0, Int.toNat_ofNat]
  by_cases hk : k < n
  · rw [if_pos hk, List.getElem?_take_of_lt hk, List.getElem?_drop,
      cell_getD moves _ (by omega)]
    have e : ((k : Int) + 1).toNat = 1 + k := by omega
    rw [e, List.getD_eq_getElem?_getD, List.getElem?_eq_getElem (by omega)]
    rfl
  · rw [if_neg hk, List.getElem?_eq_none]
    rw [List.length_take]
    omega

theorem root_list_length (moves : Board) (n : Nat) (h0 : moves 0 = (n : Int))
    (hn : n < moves.cells.length) : (root_list moves).length = n := by
  unfold root_list
  rw [h0, Int.toNat_ofNat, List.length_take, List.length_drop]
  omega

/-- One pass of the allocation loop keeps this invariant: `requests` counts the requests
received in the iteration, and the SEND_MOVE messages sent in it pair the sources of
these requests, in order, with the root moves, in order. -/
theorem allocate_step_sends (moves : Board) (comm_sz : Int) (n : Nat)
    (h0 : moves 0 = (n : Int)) (hn : n < moves.cells.length) (S : List Msg) (t : Tick)
    (c : Coord) (h1 : c.requests = (c.received.length : Int))
    (h2 : send_moves c.sent
      = S ++ List.zipWith (fun src m => (⟨SEND_MOVE_TAG, src, m⟩ : Msg)) c.received
          (root_list moves)) :
    (allocate_step moves comm_sz t c).requests
      = ((allocate_step moves comm_sz t c).received.length : Int) ∧
    send_moves (allocate_step moves comm_sz t c).sent
      = S ++ List.zipWith (fun src m => (⟨SEND_MOVE_TAG, src, m⟩ : Msg))
          (allocate_step moves comm_sz t c).received (root_list moves) := by
  have hs : (serve moves t c).requests = ((serve moves t c).received.length : Int) ∧
      send_moves (serve moves t c).sent
        = S ++ List.zipWith (fun src m => (⟨SEND_MOVE_TAG, src, m⟩ : Msg))
            (serve moves t c).received (root_list moves) := by
    unfold serve
    cases t.request with
    | none => exact ⟨h1, h2⟩
    | some p =>
      obtain ⟨source, buffer⟩ := p
      simp only
      refine ⟨by rw [h1]; simp, ?_⟩
      rw [zipWith_snoc, root_list_get moves n h0 hn, ← List.append_assoc, ← h2]
      by_cases hr : c.requests + 1 ≤ moves 0
      · rw [if_pos hr, if_pos (by omega), send_moves_append]
        congr 1
        rw [h1]
        rfl
      · rw [if_neg hr, if_neg (by omega)]
        simp
  have hw : (watch moves comm_sz t (serve moves t c)).requests = (serve moves t c).requests ∧
      (watch moves comm_sz t (serve moves t c)).received = (serve moves t c).received ∧
      send_moves (watch moves comm_sz t (serve moves t c)).sent
        = send_moves (serve moves t c).sent := by
    unfold watch
    simp only
    split_ifs
    · refine ⟨rfl, rfl, ?_⟩
      simp only [send_moves_append, send_moves_broadcast comm_sz TIMEOUT_TAG (by decide),
        List.append_nil]
    · exact ⟨rfl, rfl, rfl⟩
    · refine ⟨rfl, rfl, ?_⟩
      simp only [send_moves_append, send_moves_broadcast comm_sz TIMEOUT_TAG (by decide),
        List.append_nil]
    · exact ⟨rfl, rfl, rfl⟩
  unfold allocate_step
  rw [hw.1, hw.2.1, hw.2.2]
  exact hs

theorem allocate_sends (moves : Board) (comm_sz : Int) (n : Nat)
    (h0 : moves 0 = (n : Int)) (hn : n < moves.cells.length) (S : List Msg) :
    ∀ (ticks : List Tick) (c : Coord), c.requests = (c.received.length : Int) →
      send_moves c.sent
        = S ++ List.zipWith (fun src m => (⟨SEND_MOVE_TAG, src, m⟩ : Msg)) c.received
            (root_list moves) →
      send_moves (allocate moves comm_sz ticks c).sent
        = S ++ List.zipWith (fun src m => (⟨SEND_MOVE_TAG, src, m⟩ : Msg))
            (allocate moves comm_sz ticks c).received (root_list moves) := by
  intro ticks
  induction ticks with
  | nil =>
    intro c h1 h2
    unfold allocate
    split_ifs
    · exact (allocate_step_sends moves comm_sz n h0 hn S _ c h1 h2).2
    · exact h2
  | cons t rest ih =>
    intro c h1 h2
    unfold allocate
    split_ifs
    · obtain ⟨a1, a2⟩ := allocate_step_sends moves comm_sz n h0 hn S t c h1 h2
      exact ih _ a1 a2
    · exact h2

/-- The SEND_MOVE messages of one iteration: the source of the k-th request received is
sent the k-th root move, for as long as there are root moves. -/
theorem strategy_round_sends (moves : Board) (comm_sz : Int) (n : Nat)
    (h0 : moves 0 = (n : Int)) (hn : n < moves.cells.length) (r : Round) (c : Coord) :
    send_moves (strategy_round moves comm_sz r c).sent
      = send_moves c.sent ++ List.zipWith (fun src m => (⟨SEND_MOVE_TAG, src, m⟩ : Msg))
          (strategy_round moves comm_sz r c).received (root_list moves) := by
  have h := allocate_sends moves comm_sz n h0 hn (send_moves c.sent) r.ticks
    ⟨0, 0, c.depth, c.timeout, c.best_move, c.sent, []⟩ rfl (by simp)
  unfold strategy_round
  simp only
  split_ifs <;>
    simp only [send_moves_append, send_moves_broadcast comm_sz TIMEOUT_TAG (by decide),
      send_moves_broadcast comm_sz NO_MOVES_LEFT_TAG (by decide), List.append_nil, h]

/-- A property of the variables of `strategy` that every iteration keeps holds when the
loop is left. -/
theorem strategy_loop_induct (moves : Board) (comm_sz : Int) (P : Coord → Prop) :
    ∀ (env : List Round), (∀ r ∈ env, ∀ c, P c → P (strategy_round moves comm_sz r c)) →
      ∀ c, P c → ∀ c1, strategy_loop moves comm_sz env c = some c1 → P c1 := by
  intro env
  induction env with
  | nil =>
    intro _ c hc c1 h
    unfold strategy_loop at h
    split_ifs at h
    cases h
    exact hc
  | cons r rest ih =>
    intro hstep c hc c1 h
    unfold strategy_loop at h
    split_ifs at h
    · cases h
      exact hc
    · exact ih (fun r1 hr1 => hstep r1 (List.mem_cons_of_mem _ hr1)) _
        (hstep r (List.mem_cons_self _ _) c hc) c1 h

/-- The sorted buffer of `strategy`: cell 0 holds the number of legal moves, which is less
than the size of the buffer, and the root list is a permutation of the legal moves. -/
theorem sorted_root_facts (b : Board) (player : Int) :
    sort_moves (moves_buffer b player) 0 = (((legal_moves b player).tail.length : Nat) : Int) ∧
    (legal_moves b player).tail.length < (sort_moves (moves_buffer b player)).cells.length ∧
    List.Perm (root_list (sort_moves (moves_buffer b player))) (legal_moves b player).tail := by
  have h0 := moves_buffer_zero b player
  have hn := moves_buffer_length b player
  obtain ⟨s1, s2, s3, _⟩ := sort_moves_sorted (moves_buffer b player) _ h0 hn
  have z : sort_moves (moves_buffer b player) 0
      = (((legal_moves b player).tail.length : Nat) : Int) := by
    rw [s3 0 (Or.inl (by omega)), h0]
  refine ⟨z, by rw [s1]; exact hn, ?_⟩
  have key := slice_perm (sort_moves (moves_buffer b player)).cells
    (moves_buffer b player).cells (legal_moves b player).tail.length s1 s2
    (by rw [s1]; exact hn)
    (by
      have a := s3 0 (Or.inl (by omega))
      rw [cell_getD _ 0 (le_refl _), cell_getD _ 0 (le_refl _)] at a
      exact a)
    (by
      intro k hk
      have a := s3 (k : Int) (Or.inr (by omega))
      rw [cell_getD _ _ (by omega), cell_getD _ _ (by omega), Int.toNat_ofNat] at a
      exact a)
  have e : ((moves_buffer b player).cells.drop 1).take (legal_moves b player).tail.length
      = (legal_moves b player).tail := by
    unfold moves_buffer legal_moves
    simp
  rw [e] at key
  unfold root_list
  rw [z, Int.toNat_ofNat]
  exact key

/-- Cell 1 of the sorted buffer is a legal move when there is one. -/
theorem sorted_first_mem (b : Board) (player : Int) (h : (legal_moves b player).tail ≠ []) :
    sort_moves (moves_buffer b player) 1 ∈ (legal_moves b player).tail := by
  obtain ⟨z, hn, hp⟩ := sorted_root_facts b player
  have hpos : 0 < (legal_moves b player).tail.length := List.length_pos.2 h
  have hg := root_list_get (sort_moves (moves_buffer b player)) _ z hn 0
  rw [if_pos hpos] at hg
  have hm : sort_moves (moves_buffer b player) 1
      ∈ root_list (sort_moves (moves_buffer b player)) := by
    have := List.getElem?_mem hg
    simpa using this
  exact hp.subset hm

/-- The reduction leaves a pair untouched when every worker reports the placeholder move. -/
theorem reduce_placeholders (bm : Board) (comm_sz : Int) (best : Int × Int)
    (h : ∀ k : Int, 1 ≤ k → k < comm_sz → bm (2 * k) = -1) : reduce bm comm_sz best = best := by
  rcases reduce_spec bm comm_sz best with ⟨e, _⟩ | ⟨r0, g1, g2, g3, _⟩
  · exact e
  · exact absurd (h r0 g1 g2) g3

/-- The move of the pair the reduction leaves is the move it started with or a move some
worker reported. -/
theorem reduce_move (bm : Board) (comm_sz : Int) (best : Int × Int) :
    (reduce bm comm_sz best).1 = best.1 ∨
    ∃ k : Int, 1 ≤ k ∧ k < comm_sz ∧ bm (2 * k) ≠ -1 ∧ (reduce bm comm_sz best).1 = bm (2 * k) := by
  rcases reduce_spec bm comm_sz best with ⟨e, _⟩ | ⟨r0, g1, g2, g3, g4, _⟩
  · exact Or.inl (by rw [e])
  · exact Or.inr ⟨r0, g1, g2, g3, by rw [g4]⟩

/-- The result of `strategy` in terms of the variables when its loop is left. -/
theorem strategy_some (b : Board) (my_colour comm_sz : Int) (env : List Round) (c : Coord)
    (h : strategy_loop (sort_moves (moves_buffer b my_colour)) comm_sz env coord_start = some c) :
    strategy b my_colour comm_sz env
      = some (if sort_moves (moves_buffer b my_colour) 0 = 1 then
                sort_moves (moves_buffer b my_colour) 1
              else if sort_moves (moves_buffer b my_colour) 0 ≠ 0 ∧ c.best_move.1 = -1 then
                sort_moves (moves_buffer b my_colour) 1
              else c.best_move.1, c) := by
  unfold strategy
  simp only [h]

theorem strategy_of_some (b : Board) (my_colour comm_sz : Int) (env : List Round) (loc : Int)
    (c : Coord) (h : strategy b my_colour comm_sz env = some (loc, c)) :
    strategy_loop (sort_moves (moves_buffer b my_colour)) comm_sz env coord_start = some c := by
  unfold strategy at h
  cases hl : strategy_loop (sort_moves (moves_buffer b my_colour)) comm_sz env coord_start with
  | none => simp only [hl] at h; simp at h
  | some c1 =>
    simp only [hl, Option.some.injEq, Prod.mk.injEq] at h
    rw [h.2]

theorem allocate_step_received (moves : Board) (comm_sz : Int) (t : Tick) (c : Coord) :
    (allocate_step moves comm_sz t c).received
      = c.received ++ [t].filterMap (fun t => t.request.map Prod.fst) := by
  unfold allocate_step
  rw [(watch_fields moves comm_sz t (serve moves t c)).2.2.1]
  unfold serve
  cases h : t.request with
  | none => simp [h]
  | some p => simp [h]

/-- The requests received in the allocation loop are, in order, the first requests that
the environment offers. -/
theorem allocate_received (moves : Board) (comm_sz : Int) :
    ∀ (ticks : List Tick) (c : Coord), ∃ k : Nat,
      (allocate moves comm_sz ticks c).received
        = c.received ++ (ticks.take k).filterMap (fun t => t.request.map Prod.fst) := by
  intro ticks
  induction ticks with
  | nil =>
    intro c
    refine ⟨0, ?_⟩
    unfold allocate
    split_ifs
    · rw [allocate_step_received]; simp
    · simp
  | cons t rest ih =>
    intro c
    unfold allocate
    split_ifs
    · obtain ⟨k, hk⟩ := ih (allocate_step moves comm_sz t c)
      refine ⟨k + 1, ?_⟩
      rw [hk, allocate_step_received, List.take_succ_cons, List.append_assoc,
        ← List.filterMap_append]
      rfl
    · exact ⟨0, by simp⟩

theorem strategy_round_received (moves : Board) (comm_sz : Int) (r : Round) (c : Coord) :
    ∃ k : Nat, (strategy_round moves comm_sz r c).received
      = (r.ticks.take k).filterMap (fun t => t.request.map Prod.fst) := by
  obtain ⟨k, hk⟩ := allocate_received moves comm_sz r.ticks
    ⟨0, 0, c.depth, c.timeout, c.best_move, c.sent, []⟩
  refine ⟨k, ?_⟩
  simp only [List.nil_append] at hk
  unfold strategy_round
  simp only
  split_ifs <;> simp only [hk]

/-- C22: when square 11 is a legal move of the side to move, the sorted root list has
11 in position 1, because no entry of `eval_board` exceeds 4 and 4 stands at the corners
11, 18, 81, 88 only; whenever `strategy` returns, the first SEND_MOVE message it has sent,
if any, carries square 11; and it returns for every environment that describes ten
iterations. -/
theorem corner_first (b : Board) (player : Int) (h : 11 ∈ (legal_moves b player).tail) :
    sort_moves (moves_buffer b player) 1 = 11 ∧
    (root_list (sort_moves (moves_buffer b player))).head? = some 11 ∧
    (∀ i : Int, eval_board i ≤ 4) ∧
    (∀ i : Int, eval_board i = 4 ↔ i = 11 ∨ i = 18 ∨ i = 81 ∨ i = 88) ∧
    (∀ (comm_sz : Int) (env : List Round) (loc : Int) (c : Coord),
      strategy b player comm_sz env = some (loc, c) →
      ∀ m : Msg, (send_moves c.sent).head? = some m → m.value = 11) ∧
    (∀ (comm_sz : Int) (env : List Round), 10 ≤ env.length →
      ∃ loc c, strategy b player comm_sz env = some (loc, c)) := by
  have h11 := sorted_first_corner b player h
  obtain ⟨z, hn, _⟩ := sorted_root_facts b player
  have hpos : 0 < (legal_moves b player).tail.length :=
    List.length_pos.2 (List.ne_nil_of_mem h)
  have hg := root_list_get (sort_moves (moves_buffer b player)) _ z hn 0
  rw [if_pos hpos] at hg
  simp only [Nat.cast_zero, zero_add] at hg
  rw [h11] at hg
  have hhead : (root_list (sort_moves (moves_buffer b player))).head? = some 11 := by
    rw [← hg]
    cases root_list (sort_moves (moves_buffer b player)) <;> simp
  refine ⟨h11, hhead, eval_board_le, eval_board_corners, ?_, ?_⟩
  · intro comm_sz env loc c hs
    have hl := strategy_of_some b player comm_sz env loc c hs
    refine strategy_loop_induct (sort_moves (moves_buffer b player)) comm_sz
      (fun c => ∀ m : Msg, (send_moves c.sent).head? = some m → m.value = 11) env ?_
      coord_start ?_ c hl
    · intro r _ c0 hc0 m hm
      rw [strategy_round_sends _ comm_sz _ z hn r c0] at hm
      cases hsm : send_moves c0.sent with
      | cons x xs =>
        rw [hsm] at hm hc0
        exact hc0 m (by simpa using hm)
      | nil =>
        rw [hsm, List.nil_append] at hm
        cases hrec : (strategy_round (sort_moves (moves_buffer b player)) comm_sz r c0).received with
        | nil => rw [hrec] at hm; simp at hm
        | cons src rest =>
          rw [hrec] at hm
          cases hrl : root_list (sort_moves (moves_buffer b player)) with
          | nil => rw [hrl] at hm; simp at hm
          | cons y ys =>
            rw [hrl] at hm hhead
            simp only [List.zipWith_cons_cons, List.head?_cons, Option.some.injEq] at hm hhead
            rw [← hm, hhead]
    · intro m hm
      simp [coord_start, send_moves] at hm
  · intro comm_sz env hlen
    obtain ⟨c, hc⟩ := strategy_loop_some (sort_moves (moves_buffer b player)) comm_sz env
      coord_start (Or.inr ⟨by
        have : (MAX_DEPTH + 1 - coord_start.depth).toNat = 10 := by decide
        omega, by omega⟩)
    exact ⟨_, c, strategy_some b player comm_sz env c hc⟩

/-- Witness of C22: after the legal game 34, 33, 32, 22, 12 square 11 is a legal move of
WHITE. -/
theorem corner_first_witness :
    sort_moves (moves_buffer corner_board WHITE) 1 = 11 ∧
    (root_list (sort_moves (moves_buffer corner_board WHITE))).head? = some 11 :=
  ⟨(corner_first corner_board WHITE (by decide!)).1,
    (corner_first corner_board WHITE (by decide!)).2.1⟩

/-- C23: when `legal_moves` lists no move for the coordinator's colour and every worker
gathers the placeholder move -1, `strategy` sends no SEND_MOVE message (it sends TIMEOUT
to every worker and nothing else) and returns -1, and `gen_move_master` leaves the string
"pass\n" in `move` and the board as it was. -/
theorem pass_on_no_moves (b : Board) (my_colour comm_sz : Int) (r : Round)
    (rest : List Round) (h : (legal_moves b my_colour).tail = [])
    (hrep : ∀ k : Int, 1 ≤ k → k < comm_sz → r.best_moves (2 * k) = -1) :
    (∃ c : Coord, strategy b my_colour comm_sz (r :: rest) = some (-1, c) ∧
      send_moves c.sent = [] ∧ c.sent = broadcast comm_sz TIMEOUT_TAG) ∧
    gen_move_master b my_colour comm_sz (r :: rest) = some (PASS_STRING, b) ∧
    PASS_STRING = ("pass\n").toList.map (fun ch => (ch.toNat : Int)) := by
  obtain ⟨z, _, _⟩ := sorted_root_facts b my_colour
  rw [h] at z
  simp only [List.length_nil, Nat.cast_zero] at z
  have hl := strategy_loop_few (sort_moves (moves_buffer b my_colour)) comm_sz r rest
    (by rw [z]; decide)
  rw [reduce_placeholders r.best_moves comm_sz _ hrep] at hl
  have hs := strategy_some b my_colour comm_sz (r :: rest) _ hl
  rw [z] at hs
  simp only [show ¬ ((0 : Int) = 1) by decide, if_false, ne_eq, not_true_eq_false,
    false_and] at hs
  refine ⟨⟨_, hs, send_moves_broadcast comm_sz TIMEOUT_TAG (by decide), rfl⟩, ?_, by decide⟩
  unfold gen_move_master
  rw [hs]
  simp only [if_true]

/-- Witness of C23: BLACK has no legal move after the legal game 43, 33, 65, 42, 41, 51,
23, 31; three processes. -/
theorem pass_on_no_moves_witness :
    (∃ c : Coord, strategy pass_board BLACK 3 [round_idle] = some (-1, c) ∧
      send_moves c.sent = [] ∧ c.sent = broadcast 3 TIMEOUT_TAG) ∧
    gen_move_master pass_board BLACK 3 [round_idle] = some (PASS_STRING, pass_board) ∧
    PASS_STRING = ("pass\n").toList.map (fun ch => (ch.toNat : Int)) :=
  pass_on_no_moves pass_board BLACK 3 round_idle [] (by decide!)
    (by intro k h1 h2; interval_cases k <;> decide)

/-- C24: when the root position has exactly one legal move `m`, `strategy` hands out no
root move, sends TIMEOUT to every worker in its first iteration and nothing else, leaves
the loop after that iteration, and returns `m`, for every content of the gathered
replies. -/
theorem single_move_played (b : Board) (my_colour comm_sz : Int) (r : Round)
    (rest : List Round) (m : Int) (h : (legal_moves b my_colour).tail = [m]) :
    ∃ c : Coord, strategy b my_colour comm_sz (r :: rest) = some (m, c) ∧
      send_moves c.sent = [] ∧ c.sent = broadcast comm_sz TIMEOUT_TAG ∧
      (∀ i : Int, 1 ≤ i → i < comm_sz → (⟨TIMEOUT_TAG, i, TRUE⟩ : Msg) ∈ c.sent) ∧
      c.timeout = TRUE ∧ c.depth = STARTING_MAX_DEPTH - 1 + 1 := by
  obtain ⟨z, _, _⟩ := sorted_root_facts b my_colour
  have hm := sorted_first_mem b my_colour (by rw [h]; simp)
  rw [h] at z hm
  simp only [List.length_singleton, Nat.cast_one] at z
  simp only [List.mem_singleton] at hm
  have hl := strategy_loop_few (sort_moves (moves_buffer b my_colour)) comm_sz r rest
    (by rw [z])
  have hs := strategy_some b my_colour comm_sz (r :: rest) _ hl
  rw [z, hm] at hs
  simp only [if_true] at hs
  refine ⟨_, hs, send_moves_broadcast comm_sz TIMEOUT_TAG (by decide), rfl, ?_, rfl, rfl⟩
  intro i h1 h2
  show _ ∈ broadcast comm_sz TIMEOUT_TAG
  unfold broadcast
  rw [List.mem_map]
  exact ⟨i, (mem_int_range 1 _ i).2 ⟨h1, by omega⟩, rfl⟩

/-- Witness of C24: WHITE has the single move 36 after the legal game 65, 46, 37, 63, 43;
worker 1 gathers the pair (34, 50). -/
theorem single_move_played_witness :
    ∃ c : Coord, strategy single_board WHITE 2 [round_a] = some (36, c) ∧
      send_moves c.sent = [] ∧ c.sent = broadcast 2 TIMEOUT_TAG ∧
      (∀ i : Int, 1 ≤ i → i < 2 → (⟨TIMEOUT_TAG, i, TRUE⟩ : Msg) ∈ c.sent) ∧
      c.timeout = TRUE ∧ c.depth = STARTING_MAX_DEPTH - 1 + 1 :=
  single_move_played single_board WHITE 2 round_a [] 36 (by decide!)

/-- C25: when the root legal-move list is not empty and every gathered reply carries the
placeholder move -1 or a root move, `strategy` returns for every environment that
describes ten iterations, and whenever it returns, the move returned is one of the root
moves; it is the first move of the sorted root list when no reply carries a move. -/
theorem strategy_returns_root_move (b : Board) (my_colour comm_sz : Int) (env : List Round)
    (hne : (legal_moves b my_colour).tail ≠ [])
    (hrep : ∀ r ∈ env, ∀ k : Int, 1 ≤ k → k < comm_sz →
      r.best_moves (2 * k) = -1 ∨ r.best_moves (2 * k) ∈ (legal_moves b my_colour).tail) :
    (10 ≤ env.length → ∃ loc c, strategy b my_colour comm_sz env = some (loc, c)) ∧
    (∀ (loc : Int) (c : Coord), strategy b my_colour comm_sz env = some (loc, c) →
      loc ∈ (legal_moves b my_colour).tail ∧
      ((∀ r ∈ env, ∀ k : Int, 1 ≤ k → k < comm_sz → r.best_moves (2 * k) = -1) →
        loc = sort_moves (moves_buffer b my_colour) 1 ∧
        (root_list (sort_moves (moves_buffer b my_colour))).head? = some loc)) := by
  obtain ⟨z, hn, _⟩ := sorted_root_facts b my_colour
  have hpos : 0 < (legal_moves b my_colour).tail.length := List.length_pos.2 hne
  have h1 := sorted_first_mem b my_colour hne
  constructor
  · intro hlen
    obtain ⟨c, hc⟩ := strategy_loop_some (sort_moves (moves_buffer b my_colour)) comm_sz env
      coord_start (Or.inr ⟨by
        have : (MAX_DEPTH + 1 - coord_start.depth).toNat = 10 := by decide
        omega, by omega⟩)
    exact ⟨_, c, strategy_some b my_colour comm_sz env c hc⟩
  · intro loc c hs
    have hl := strategy_of_some b my_colour comm_sz env loc c hs
    have hloc := strategy_some b my_colour comm_sz env c hl
    rw [hs] at hloc
    simp only [Option.some.injEq, Prod.mk.injEq, and_true] at hloc
    have hz0 : sort_moves (moves_buffer b my_colour) 0 ≠ 0 := by rw [z]; omega
    have hbest : c.best_move.1 = -1 ∨ c.best_move.1 ∈ (legal_moves b my_colour).tail := by
      refine strategy_loop_induct (sort_moves (moves_buffer b my_colour)) comm_sz
        (fun c => c.best_move.1 = -1 ∨ c.best_move.1 ∈ (legal_moves b my_colour).tail) env ?_
        coord_start (Or.inl rfl) c hl
      intro r hr c0 hc0
      rw [strategy_round_best]
      rcases reduce_move r.best_moves comm_sz c0.best_move with e | ⟨k, k1, k2, k3, e⟩
      · rw [e]; exact hc0
      · rw [e]
        rcases hrep r hr k k1 k2 with h | h
        · exact absurd h k3
        · exact Or.inr h
    constructor
    · rw [hloc]
      split_ifs with a1 a2
      · exact h1
      · exact h1
      · rcases hbest with hb | hb
        · exact absurd ⟨hz0, hb⟩ a2
        · exact hb
    · intro hall
      have hkeep : c.best_move.1 = -1 := by
        refine strategy_loop_induct (sort_moves (moves_buffer b my_colour)) comm_sz
          (fun c => c.best_move.1 = -1) env ?_ coord_start rfl c hl
        intro r hr c0 hc0
        rw [strategy_round_best, reduce_placeholders r.best_moves comm_sz _ (hall r hr)]
        exact hc0
      have e : loc = sort_moves (moves_buffer b my_colour) 1 := by
        rw [hloc]
        split_ifs with a1 a2
        · rfl
        · rfl
        · exact absurd ⟨hz0, hkeep⟩ a2
      refine ⟨e, ?_⟩
      have hg := root_list_get (sort_moves (moves_buffer b my_colour)) _ z hn 0
      rw [if_pos hpos] at hg
      simp only [Nat.cast_zero, zero_add] at hg
      rw [e, ← hg]
      cases root_list (sort_moves (moves_buffer b my_colour)) <;> simp

/-- Witness of C25: the initial board with BLACK to move, two processes, ten iterations
in each of which worker 1 gathers the root move 34. -/
theorem strategy_returns_root_move_witness :
    (10 ≤ (List.replicate 10 round_a).length →
      ∃ loc c, strategy initialise_board BLACK 2 (List.replicate 10 round_a) = some (loc, c)) ∧
    (∀ (loc : Int) (c : Coord),
      strategy initialise_board BLACK 2 (List.replicate 10 round_a) = some (loc, c) →
      loc ∈ (legal_moves initialise_board BLACK).tail ∧
      ((∀ r ∈ List.replicate 10 round_a, ∀ k : Int, 1 ≤ k → k < 2 →
          r.best_moves (2 * k) = -1) →
        loc = sort_moves (moves_buffer initialise_board BLACK) 1 ∧
        (root_list (sort_moves (moves_buffer initialise_board BLACK))).head? = some loc)) :=
  strategy_returns_root_move initialise_board BLACK 2 (List.replicate 10 round_a)
    (by decide!)
    (by
      intro r hr k h1 h2
      rw [List.eq_of_mem_replicate hr]
      interval_cases k
      right
      decide!)

/-- C26, as stated, fails: on the initial board with BLACK to move and one worker, a first
iteration completes without timeout and gathers the pair (34, 50); a second iteration
completes without timeout and gathers the pair (43, 10), the only pair of that depth;
the best pair of the coordinator after it is still (34, 50). -/
theorem stale_best_counterexample :
    (strategy_round (sort_moves (moves_buffer initialise_board BLACK)) 2 round_a
      coord_start).timeout = 0 ∧
    (strategy_round (sort_moves (moves_buffer initialise_board BLACK)) 2 round_a
      coord_start).best_move = (34, 50) ∧
    (strategy_round (sort_moves (moves_buffer initialise_board BLACK)) 2 round_b
      (strategy_round (sort_moves (moves_buffer initialise_board BLACK)) 2 round_a
        coord_start)).timeout = 0 ∧
    round_b.best_moves 2 = 43 ∧ round_b.best_moves 3 = 10 ∧
    (strategy_round (sort_moves (moves_buffer initialise_board BLACK)) 2 round_b
      (strategy_round (sort_moves (moves_buffer initialise_board BLACK)) 2 round_a
        coord_start)).best_move = (34, 50) := by
  decide!

/-- C26, amended: after a depth iteration, completed or not, the best pair of the
coordinator is the pair it had before the iteration when no worker gathers a move other
than -1 with a strictly higher score; otherwise it is the pair with the highest score
among the pairs gathered at that depth (placeholders with move -1 ignored), and among
workers that report this highest score the one of lowest rank. -/
theorem reduction_keeps_running_best (moves : Board) (comm_sz : Int) (r : Round) (c : Coord) :
    ((strategy_round moves comm_sz r c).best_move = c.best_move ∧
      ∀ k : Int, 1 ≤ k → k < comm_sz → r.best_moves (2 * k) ≠ -1 →
        r.best_moves (2 * k + 1) ≤ c.best_move.2) ∨
    (∃ r0 : Int, 1 ≤ r0 ∧ r0 < comm_sz ∧ r.best_moves (2 * r0) ≠ -1 ∧
      (strategy_round moves comm_sz r c).best_move
        = (r.best_moves (2 * r0), r.best_moves (2 * r0 + 1)) ∧
      c.best_move.2 < r.best_moves (2 * r0 + 1) ∧
      ∀ k : Int, 1 ≤ k → k < comm_sz → r.best_moves (2 * k) ≠ -1 →
        r.best_moves (2 * k + 1) ≤ r.best_moves (2 * r0 + 1) ∧
        (k < r0 → r.best_moves (2 * k + 1) < r.best_moves (2 * r0 + 1))) := by
  rw [strategy_round_best]
  exact reduce_spec r.best_moves comm_sz c.best_move

/-- C27, as stated, fails: on the initial board with BLACK to move and one worker, an
iteration that ends with the timeout flag set and gathers the pair (34, 5) changes the
best pair of the coordinator from (-1, -1000000) to (34, 5). -/
theorem timed_out_round_counterexample :
    coord_start.best_move = (-1, -1000000) ∧
    (strategy_round (sort_moves (moves_buffer initialise_board BLACK)) 2 round_late
      coord_start).timeout ≠ 0 ∧
    (strategy_round (sort_moves (moves_buffer initialise_board BLACK)) 2 round_late
      coord_start).best_move = (34, 5) := by
  decide!

/-- C27, amended: when a depth iteration ends with the timeout flag set, the gather and
the reduction run as in every iteration: the best pair of the coordinator after it equals
the best pair before it exactly when no worker gathers a move other than -1 with a score
strictly greater than the best score before. -/
theorem timed_out_round_best (moves : Board) (comm_sz : Int) (r : Round) (c : Coord)
    (ht : (strategy_round moves comm_sz r c).timeout ≠ 0) :
    (strategy_round moves comm_sz r c).best_move = c.best_move ↔
      ∀ k : Int, 1 ≤ k → k < comm_sz → r.best_moves (2 * k) ≠ -1 →
        r.best_moves (2 * k + 1) ≤ c.best_move.2 := by
  have _ := ht
  rw [strategy_round_best]
  rcases reduce_spec r.best_moves comm_sz c.best_move with ⟨e, h⟩ | ⟨r0, g1, g2, g3, g4, g5, _⟩
  · exact ⟨fun _ => h, fun _ => e⟩
  · constructor
    · intro e
      rw [e] at g4
      rw [g4] at g5
      exact absurd g5 (lt_irrefl _)
    · intro h
      have := h r0 g1 g2 g3
      omega

/-- Witness of the amended C27: the iteration `round_late` from the start of
`strategy`. -/
theorem timed_out_round_best_witness :
    (strategy_round (sort_moves (moves_buffer initialise_board BLACK)) 2 round_late
        coord_start).best_move = coord_start.best_move ↔
      ∀ k : Int, 1 ≤ k → k < 2 → round_late.best_moves (2 * k) ≠ -1 →
        round_late.best_moves (2 * k + 1) ≤ coord_start.best_move.2 :=
  timed_out_round_best (sort_moves (moves_buffer initialise_board BLACK)) 2 round_late
    coord_start (by decide!)

theorem countP_pointwise_add {α : Type} (p q r : α → Bool) :
    ∀ (L : List α),
      (∀ x ∈ L, (if p x = true then 1 else 0 : Nat)
        = (if q x = true then 1 else 0) + (if r x = true then 1 else 0)) →
      L.countP p = L.countP q + L.countP r := by
  intro L
  induction L with
  | nil => intro _; rfl
  | cons x xs ih =>
    intro h
    have h1 := ih (fun y hy => h y (List.mem_cons_of_mem _ hy))
    have h2 := h x (List.mem_cons_self _ _)
    simp only [List.countP_cons]
    omega

theorem count_cells_nodup :
    ((List.range 88).map (fun (k : Nat) => (1 : Int) + (k : Int))).Nodup := by decide

theorem mem_count_cells (i : Int) :
    i ∈ (List.range 88).map (fun (k : Nat) => (1 : Int) + (k : Int)) ↔ 1 ≤ i ∧ i ≤ 88 := by
  simp only [List.mem_map, List.mem_range]
  constructor
  · rintro ⟨k, hk, rfl⟩; omega
  · intro h
    exact ⟨(i - 1).toNat, by omega, by omega⟩

/-- After a legal move every cell but the square played is unchanged, or held the
opponent and now holds the player; at least one cell of the second kind exists. -/
theorem make_move_cells (b : Board) (hb : RingInv b) (P : Int) (m : Int) (hm : m ∈ (legal_moves b P).tail) :
    b m = EMPTY ∧ make_move b m P m = P ∧ validp m ≠ 0 ∧
    (∀ c, c ≠ m → make_move b m P c = b c ∨ (b c = opponent P ∧ make_move b m P c = P)) ∧
    (∃ c, validp c ≠ 0 ∧ b c = opponent P ∧ make_move b m P c = P) := by
  obtain ⟨hv, hempty, d, hd, hwf⟩ := (mem_legal_moves_tail b P m).1 hm
  obtain ⟨_, i1, i2, i3⟩ := make_move_inv b hb m P hv
  refine ⟨hempty, i1, hv, ?_, ?_⟩
  · intro c hc
    by_cases hfl : ∃ d ∈ ALLDIRECTIONS, Flips b m P d c
    · obtain ⟨d1, hd1, hf⟩ := hfl
      obtain ⟨_, _, _, _, _, ho, _⟩ := flips_cell b hb m d1 P hv hd1 c hf
      exact Or.inr ⟨ho, i2 c hc ⟨d1, hd1, hf⟩⟩
    · exact Or.inl (i3 c hc hfl)
  · obtain ⟨k, hk2, _, hwk, _, _, _⟩ := bracket_of_would_flip b hb m d P hv hd hwf
    have hf : Flips b m P d (m + ((1 : Nat) : Int) * d) :=
      (flips_iff b m P d (direction_ne_zero d hd) k hwk hwf _).2 ⟨1, le_refl _, by omega, rfl⟩
    obtain ⟨_, _, _, _, hval, ho, hne⟩ := flips_cell b hb m d P hv hd _ hf
    exact ⟨_, hval, ho, i2 _ hne ⟨d, hd, hf⟩⟩

/-- C39: with no timeout, the score of `eval_position` is strictly between -1000000 and
1000000, whatever the board and the maximizing colour: its absolute value is below
1000000 and it is neither of the two values used as infinities. -/
theorem eval_below_infinity (s : State) (hq : Quiet s) :
    |(eval_position s).1| < 1000000 ∧
    -1000000 < (eval_position s).1 ∧ (eval_position s).1 < 1000000 ∧
    (eval_position s).1 ≠ -1000000 ∧ (eval_position s).1 ≠ 1000000 := by
  obtain ⟨h1, h2⟩ := (eval_position_quiet s hq).2.1
  exact ⟨abs_lt.2 ⟨h1, h2⟩, h1, h2, by omega, by omega⟩

/-- Witness of C39: the initial board with BLACK maximizing and no message coming. -/
theorem eval_below_infinity_witness :
    |(eval_position quiet_start).1| < 1000000 ∧
    -1000000 < (eval_position quiet_start).1 ∧ (eval_position quiet_start).1 < 1000000 ∧
    (eval_position quiet_start).1 ≠ -1000000 ∧ (eval_position quiet_start).1 ≠ 1000000 :=
  eval_below_infinity quiet_start ⟨rfl, fun x hx => by simp [quiet_start] at hx⟩

/-- C40: on a well-formed board, a move `m` that is legal for `P` turns over `k >= 1`
pieces of the opponent, `k` being the number of cells that held the opponent and hold
`P` afterwards: `count(P)` grows by exactly `k + 1`, `count(opponent(P))` falls by
exactly `k`, and the number of pieces on the board grows by exactly 1. -/
theorem make_move_exact_count (b : Board) (hb : WellFormed b) (P : Int)
    (hP : P = BLACK ∨ P = WHITE) (m : Int) (hm : m ∈ (legal_moves b P).tail) :
    ∃ k : Nat, 1 ≤ k ∧
      k = ((List.range 88).map (fun (k : Nat) => (1 : Int) + (k : Int))).countP
            (fun i => decide (b i = opponent P ∧ make_move b m P i = P)) ∧
      count P (make_move b m P) = count P b + (k : Int) + 1 ∧
      count (opponent P) (make_move b m P) = count (opponent P) b - (k : Int) ∧
      count P (make_move b m P) + count (opponent P) (make_move b m P)
        = count P b + count (opponent P) b + 1 := by
  obtain ⟨hempty, hplaced, hv, hcells, c0, hc0v, hc0o, hc0p⟩ :=
    make_move_cells b hb.ringInv P m hm
  have hPo : P ≠ opponent P := opponent_ne_self P hP
  have hPe : P ≠ EMPTY := by rcases hP with rfl | rfl <;> decide
  have hoe : opponent P ≠ EMPTY := by rcases hP with rfl | rfl <;> decide
  have hmL : m ∈ (List.range 88).map (fun (k : Nat) => (1 : Int) + (k : Int)) := by
    rw [mem_count_cells]; rw [validp_ne_zero_iff] at hv; omega
  have hc0L : c0 ∈ (List.range 88).map (fun (k : Nat) => (1 : Int) + (k : Int)) := by
    rw [mem_count_cells]; rw [validp_ne_zero_iff] at hc0v; omega
  have hopp := countP_pointwise_add (fun i => decide (b i = opponent P))
    (fun i => decide (make_move b m P i = opponent P))
    (fun i => decide (b i = opponent P ∧ make_move b m P i = P))
    ((List.range 88).map (fun (k : Nat) => (1 : Int) + (k : Int))) (by
      intro x _
      dsimp only
      by_cases hx : x = m
      · subst hx
        simp [hempty, hplaced, hPo, hoe.symm]
      · rcases hcells x hx with h | ⟨h1, h2⟩
        · rw [h]
          by_cases ho : b x = opponent P
          · simp [ho, hPo.symm]
          · simp [ho]
        · simp [h1, h2, hPo])
  have hpl := countP_pointwise_add (fun i => decide (make_move b m P i = P))
    (fun i => decide (b i = P))
    (fun i => decide (b i = opponent P ∧ make_move b m P i = P) || decide (i = m))
    ((List.range 88).map (fun (k : Nat) => (1 : Int) + (k : Int))) (by
      intro x _
      dsimp only
      by_cases hx : x = m
      · subst hx
        simp [hempty, hplaced, hPe.symm]
      · rcases hcells x hx with h | ⟨h1, h2⟩
        · rw [h]
          by_cases hp : b x = P
          · simp [hp, hx, hPo]
          · simp [hp, hx]
        · simp [h1, h2, hx, hPo.symm])
  have hsplit := countP_pointwise_add
    (fun i => decide (b i = opponent P ∧ make_move b m P i = P) || decide (i = m))
    (fun i => decide (b i = opponent P ∧ make_move b m P i = P))
    (fun i => decide (i = m))
    ((List.range 88).map (fun (k : Nat) => (1 : Int) + (k : Int))) (by
      intro x _
      dsimp only
      by_cases hx : x = m
      · subst hx
        simp [hempty, hoe.symm]
      · simp [hx])
  have hone : ((List.range 88).map (fun (k : Nat) => (1 : Int) + (k : Int))).countP
      (fun i => decide (i = m)) = 1 := by
    have := List.count_eq_one_of_mem count_cells_nodup hmL
    rw [List.count_eq_countP] at this
    rw [← this]
    congr 1
  have hpos : 0 < ((List.range 88).map (fun (k : Nat) => (1 : Int) + (k : Int))).countP
      (fun i => decide (b i = opponent P ∧ make_move b m P i = P)) :=
    List.countP_pos_iff.2 ⟨c0, hc0L, by simp [hc0o, hc0p]⟩
  refine ⟨_, hpos, rfl, ?_, ?_, ?_⟩ <;> unfold count <;> omega

/-- Witness of C40: BLACK plays 34 on the initial board. -/
theorem make_move_exact_count_witness :
    ∃ k : Nat, 1 ≤ k ∧
      k = ((List.range 88).map (fun (k : Nat) => (1 : Int) + (k : Int))).countP
            (fun i => decide (initialise_board i = opponent BLACK ∧
              make_move initialise_board 34 BLACK i = BLACK)) ∧
      count BLACK (make_move initialise_board 34 BLACK)
        = count BLACK initialise_board + (k : Int) + 1 ∧
      count (opponent BLACK) (make_move initialise_board 34 BLACK)
        = count (opponent BLACK) initialise_board - (k : Int) ∧
      count BLACK (make_move initialise_board 34 BLACK)
          + count (opponent BLACK) (make_move initialise_board 34 BLACK)
        = count BLACK initialise_board + count (opponent BLACK) initialise_board + 1 :=
  make_move_exact_count initialise_board initialise_board_wellFormed BLACK (Or.inl rfl) 34
    (by decide!)

/-! ## The classification without the early exit -/

theorem zeroMem_cell (q : Int) : zeroMem q = 0 := by
  show Board.cell zeroMem q = 0
  unfold Board.cell zeroMem
  split_ifs
  · rfl
  · rw [List.getD_eq_getElem?_getD, List.getElem?_replicate]
    split_ifs <;> rfl

theorem no_bits_zero : no_bits 0 := by
  unfold no_bits
  decide

theorem classify_length (board : Board) :
    ∀ (L : List Int) (S : Board), (classify board L S).cells.length = S.cells.length := by
  intro L
  induction L with
  | nil => intro S; rfl
  | cons loc rest ih =>
    intro S
    unfold classify
    split_ifs
    · exact ih S
    · rw [ih, setCell_length]

/-- The traversal writes only the cells of the non-empty squares it visits. -/
theorem classify_frame (board : Board) (q : Int) :
    ∀ (L : List Int) (S : Board), (q ∉ L ∨ board q = EMPTY) → classify board L S q = S q := by
  intro L
  induction L with
  | nil => intro S _; rfl
  | cons loc rest ih =>
    intro S h
    have hrest : q ∉ rest ∨ board q = EMPTY := by
      rcases h with h | h
      · exact Or.inl (fun hq => h (List.mem_cons_of_mem _ hq))
      · exact Or.inr h
    unfold classify
    split_ifs with he
    · exact ih S hrest
    · rw [ih _ hrest]
      apply cell_setCell_ne
      rintro rfl
      rcases h with h | h
      · exact h (List.mem_cons_self _ _)
      · exact he h

theorem classify_append (board : Board) :
    ∀ (L1 L2 : List Int) (S : Board),
      classify board (L1 ++ L2) S = classify board L2 (classify board L1 S) := by
  intro L1
  induction L1 with
  | nil => intro L2 S; rfl
  | cons loc rest ih =>
    intro L2 S
    simp only [List.cons_append, classify]
    split_ifs
    · exact ih L2 S
    · exact ih L2 _

/-- A piece that is not on the edge and has no marked neighbour gets the value 0. -/
theorem stability_value_zero (board S : Board) (loc : Int)
    (h1 : cmod loc 10 ≠ 1) (h8 : cmod loc 10 ≠ 8) (v1 : cdiv loc 10 ≠ 1) (v8 : cdiv loc 10 ≠ 8)
    (hn : ∀ off ∈ ([1, 10, 11, 9] : List Int), no_bits (S (loc - off)) ∧ no_bits (S (loc + off))) :
    stability_value board S loc = 0 := by
  obtain ⟨a1, a2⟩ := hn 1 (by simp)
  obtain ⟨b1, b2⟩ := hn 10 (by simp)
  obtain ⟨c1, c2⟩ := hn 11 (by simp)
  obtain ⟨d1, d2⟩ := hn 9 (by simp)
  unfold stability_value
  simp only [h1, h8, v1, v8, a1.1, a2.1, b1.2.1, b2.2.1, c1.2.2.1, c2.2.2.1, d1.2.2.2, d2.2.2.2,
    or_self, if_false, ne_eq, not_true_eq_false, and_false, add_zero]

/-- A zone of the board without border bits stays without border bits while the
traversal visits squares that are not on the edge and whose neighbours lie in the zone;
the pieces visited get the value 0. -/
theorem classify_zone (board : Board) (Zone : Int → Prop) :
    ∀ (L : List Int) (S : Board), L.Nodup → S.cells.length = 100 →
      (∀ loc ∈ L, 0 ≤ loc ∧ loc < 100 ∧ cmod loc 10 ≠ 1 ∧ cmod loc 10 ≠ 8 ∧ cdiv loc 10 ≠ 1 ∧
        cdiv loc 10 ≠ 8 ∧ Zone loc ∧
        ∀ off ∈ ([1, 10, 11, 9] : List Int), Zone (loc - off) ∧ Zone (loc + off)) →
      (∀ q, Zone q → no_bits (S q)) →
      (∀ q, Zone q → no_bits (classify board L S q)) ∧
      (∀ loc ∈ L, board loc ≠ EMPTY → classify board L S loc = 0) := by
  intro L
  induction L with
  | nil => intro S _ _ _ hz; exact ⟨hz, fun loc h => by simp at h⟩
  | cons loc rest ih =>
    intro S hnd hlen hgeo hz
    have hnd1 := (List.nodup_cons.1 hnd).2
    have hnot := (List.nodup_cons.1 hnd).1
    have hgeo1 : ∀ l ∈ rest, 0 ≤ l ∧ l < 100 ∧ cmod l 10 ≠ 1 ∧ cmod l 10 ≠ 8 ∧ cdiv l 10 ≠ 1 ∧
        cdiv l 10 ≠ 8 ∧ Zone l ∧
        ∀ off ∈ ([1, 10, 11, 9] : List Int), Zone (l - off) ∧ Zone (l + off) :=
      fun l hl => hgeo l (List.mem_cons_of_mem _ hl)
    obtain ⟨g0, g100, g1, g2, g3, g4, gz, gn⟩ := hgeo loc (List.mem_cons_self _ _)
    unfold classify
    by_cases he : board loc = EMPTY
    · rw [if_pos he]
      obtain ⟨i1, i2⟩ := ih S hnd1 hlen hgeo1 hz
      refine ⟨i1, fun l hl hne => ?_⟩
      rcases List.mem_cons.1 hl with rfl | hl
      · exact absurd he hne
      · exact i2 l hl hne
    · rw [if_neg he]
      have hv : stability_value board S loc = 0 :=
        stability_value_zero board S loc g1 g2 g3 g4
          (fun off hoff => ⟨hz _ (gn off hoff).1, hz _ (gn off hoff).2⟩)
      rw [hv]
      have hself : setCell S loc 0 loc = 0 :=
        cell_setCell_self S loc 0 g0 (by rw [hlen]; exact_mod_cast g100)
      have hz1 : ∀ q, Zone q → no_bits (setCell S loc 0 q) := by
        intro q hq
        by_cases hql : q = loc
        · rw [hql, hself]; exact no_bits_zero
        · rw [cell_setCell_ne S loc 0 q hql]; exact hz q hq
      obtain ⟨i1, i2⟩ := ih (setCell S loc 0) hnd1 (by rw [setCell_length]; exact hlen) hgeo1 hz1
      refine ⟨i1, fun l hl hne => ?_⟩
      rcases List.mem_cons.1 hl with rfl | hl
      · rw [classify_frame board l rest _ (Or.inl hnot)]
        exact hself
      · exact i2 l hl hne

/-- Geometry of the spiral, by enumeration, for each of its four rings (first entry and
length): the rings up to this one and the rings inside it share no square, and a square
inside is not on the edge and has no neighbour in a ring before this one. -/
theorem ring_geometry :
    ∀ p ∈ ([(0, 28), (28, 20), (48, 12), (60, 4)] : List (Nat × Nat)),
      (∀ q ∈ spiral.take (p.1 + p.2), q ∉ spiral.drop (p.1 + p.2)) ∧
      (∀ q ∈ spiral.take (p.1 + p.2), q ∈ spiral.take p.1 ∨ q ∈ (spiral.drop p.1).take p.2) ∧
      (spiral.drop (p.1 + p.2)).Nodup ∧
      ∀ loc ∈ spiral.drop (p.1 + p.2),
        0 ≤ loc ∧ loc < 100 ∧ cmod loc 10 ≠ 1 ∧ cmod loc 10 ≠ 8 ∧ cdiv loc 10 ≠ 1 ∧
        cdiv loc 10 ≠ 8 ∧ loc ∉ spiral.take p.1 ∧
        ∀ off ∈ ([1, 10, 11, 9] : List Int),
          loc - off ∉ spiral.take p.1 ∧ loc + off ∉ spiral.take p.1 := by
  decide!

/-- C32: in the classification along the whole spiral with the early exit removed, for
each of the four rings of the spiral (given by its first entry and its length): when no
non-empty square of the ring carries a border bit, every piece on a ring inside it is
classified UNSTABLE, value 0. -/
theorem ring_without_bits (board : Board) (start len : Nat)
    (hr : (start, len) ∈ ([(0, 28), (28, 20), (48, 12), (60, 4)] : List (Nat × Nat)))
    (h : ∀ q ∈ (spiral.drop start).take len, board q ≠ EMPTY → no_bits (full_class board q)) :
    ∀ q ∈ spiral.drop (start + len), board q ≠ EMPTY → full_class board q = UNSTABLE := by
  obtain ⟨g1, g2, g3, g4⟩ := ring_geometry (start, len) hr
  simp only at g1 g2 g3 g4
  have hsplit : full_class board
      = classify board (spiral.drop (start + len))
          (classify board (spiral.take (start + len)) zeroMem) := by
    unfold full_class
    rw [← classify_append, List.take_append_drop]
  have hz : ∀ q, q ∉ spiral.take start →
      no_bits (classify board (spiral.take (start + len)) zeroMem q) := by
    intro q hq
    by_cases hpre : q ∈ spiral.take (start + len)
    · have hring : q ∈ (spiral.drop start).take len := by
        rcases g2 q hpre with h1 | h1
        · exact absurd h1 hq
        · exact h1
      by_cases he : board q = EMPTY
      · rw [classify_frame board q _ _ (Or.inr he), zeroMem_cell]
        exact no_bits_zero
      · have := h q hring he
        rw [hsplit, classify_frame board q _ _ (Or.inl (g1 q hpre))] at this
        exact this
    · rw [classify_frame board q _ _ (Or.inl hpre), zeroMem_cell]
      exact no_bits_zero
  have key := (classify_zone board (fun q => q ∉ spiral.take start)
    (spiral.drop (start + len)) (classify board (spiral.take (start + len)) zeroMem) g3
    (by rw [classify_length]; rfl) g4 hz).2
  intro q hq hne
  rw [hsplit]
  exact key q hq hne

/-- Witness of C32: after BLACK's opening move 34 the ring of squares 33..66 holds the
piece on 34, which carries no border bit, and the piece on 44 inside that ring is
classified UNSTABLE. -/
theorem ring_without_bits_witness :
    (34 : Int) ∈ (spiral.drop 48).take 12 ∧ make_move initialise_board 34 BLACK 34 ≠ EMPTY ∧
    (44 : Int) ∈ spiral.drop (48 + 12) ∧ make_move initialise_board 34 BLACK 44 ≠ EMPTY ∧
    full_class (make_move initialise_board 34 BLACK) 44 = UNSTABLE :=
  ⟨by decide!, by decide!, by decide!, by decide!,
    ring_without_bits (make_move initialise_board 34 BLACK) 48 12 (by decide)
      (by
        have h : ∀ q ∈ (spiral.drop 48).take 12,
            full_class (make_move initialise_board 34 BLACK) q = 0 := by decide!
        intro q hq _
        rw [h q hq]
        exact no_bits_zero)
      44 (by decide!) (by decide!)⟩

/-! ## The early exit, the window contract and the direction walks -/

/-- C33 fails on the code.  After the legal game 56, 66, 43, 57, 58 the loop of
`eval_stability` is left at square 43, so the squares 44, 45, 55, 54 are not visited; the
pieces on 55 and 54 are classified with the bit `H_BORDER` by the traversal without the
early exit. -/
theorem early_exit_skips_marked :
    WellFormed early_skip_board ∧
    legal_game initialise_board BLACK [56, 66, 43, 57, 58] = true ∧
    stability_rest spiral ⟨zeroMem, TRUE, 0, 0⟩ ⟨early_skip_board, BLACK, FALSE, [], 0⟩
      = [44, 45, 55, 54] ∧
    early_skip_board 55 ≠ EMPTY ∧ early_skip_board 54 ≠ EMPTY ∧
    full_class early_skip_board 55 = H_BORDER ∧ full_class early_skip_board 54 = H_BORDER ∧
    full_class early_skip_board 55 ≠ UNSTABLE ∧
    band (full_class early_skip_board 55) H_BORDER ≠ 0 ∧
    band (full_class early_skip_board 54) H_BORDER ≠ 0 := by
  have hl : legal_game initialise_board BLACK [56, 66, 43, 57, 58] = true := by
    decide!
  refine ⟨?_, hl, by decide!⟩
  unfold early_skip_board
  exact play_moves_wellFormed _ _ _ initialise_board_wellFormed (Or.inl rfl) hl

/-- C34: fail-soft window contract.  On a well-formed board, for either player to move,
every depth and every window `alpha < beta`, with no timeout, let `v` be the plain
minimax value and `r` the result of `minimax(player, depth, alpha, beta)`: then
`alpha < r < beta` implies `r = v`, `r <= alpha` implies `v <= r`, and `r >= beta`
implies `v >= r`; every evaluation, hence `v`, lies strictly between -1000000 and
1000000. -/
theorem window_contract (d : Nat) (cur alpha beta : Int) (s : State) (hq : Quiet s)
    (hwf : WellFormed s.board) (hcur : cur = BLACK ∨ cur = WHITE) (hab : alpha < beta) :
    (alpha < (minimax d cur alpha beta s).1 → (minimax d cur alpha beta s).1 < beta →
      (minimax d cur alpha beta s).1 = plain_minimax s.max_colour d cur s.board) ∧
    ((minimax d cur alpha beta s).1 ≤ alpha →
      plain_minimax s.max_colour d cur s.board ≤ (minimax d cur alpha beta s).1) ∧
    ((minimax d cur alpha beta s).1 ≥ beta →
      plain_minimax s.max_colour d cur s.board ≥ (minimax d cur alpha beta s).1) ∧
    -1000000 < plain_minimax s.max_colour d cur s.board ∧
    plain_minimax s.max_colour d cur s.board < 1000000 := by
  obtain ⟨_, c1, c2, c3⟩ := minimax_window d cur alpha beta s hq hwf hcur hab
  have hb := plain_minimax_bound s.max_colour d cur s.board
  exact ⟨c1, c2, c3, hb.1, hb.2⟩

/-- Witness of C34: the initial board, BLACK to move, depth 2, the window (-3000000,
-2000000) that lies below every evaluation. -/
theorem window_contract_witness :
    (-3000000 < (minimax 2 BLACK (-3000000) (-2000000) quiet_start).1 →
      (minimax 2 BLACK (-3000000) (-2000000) quiet_start).1 < -2000000 →
      (minimax 2 BLACK (-3000000) (-2000000) quiet_start).1
        = plain_minimax quiet_start.max_colour 2 BLACK quiet_start.board) ∧
    ((minimax 2 BLACK (-3000000) (-2000000) quiet_start).1 ≤ -3000000 →
      plain_minimax quiet_start.max_colour 2 BLACK quiet_start.board
        ≤ (minimax 2 BLACK (-3000000) (-2000000) quiet_start).1) ∧
    ((minimax 2 BLACK (-3000000) (-2000000) quiet_start).1 ≥ -2000000 →
      plain_minimax quiet_start.max_colour 2 BLACK quiet_start.board
        ≥ (minimax 2 BLACK (-3000000) (-2000000) quiet_start).1) ∧
    -1000000 < plain_minimax quiet_start.max_colour 2 BLACK quiet_start.board ∧
    plain_minimax quiet_start.max_colour 2 BLACK quiet_start.board < 1000000 :=
  window_contract 2 BLACK (-3000000) (-2000000) quiet_start
    ⟨rfl, fun x hx => by simp [quiet_start] at hx⟩ quiet_start_wellFormed (Or.inl rfl)
    (by decide)

theorem find_bracket_reads_run (b : Board) (d P : Int) :
    ∀ (j : Nat) (sq : Int) (n : Nat), Run b d P sq j → j < n →
      find_bracket_reads b d P n sq
        = (List.range (j + 1)).map (fun (i : Nat) => sq + (i : Int) * d) := by
  intro j
  induction j with
  | zero =>
    intro sq n hrun hn
    obtain ⟨n, rfl⟩ : ∃ k, n = k + 1 := ⟨n - 1, by omega⟩
    have h0 : b sq ≠ opponent P := by simpa using hrun.2
    have hr : List.range 1 = [0] := rfl
    simp [find_bracket_reads, if_neg h0, hr]
  | succ j ih =>
    intro sq n hrun hn
    obtain ⟨n, rfl⟩ : ∃ k, n = k + 1 := ⟨n - 1, by omega⟩
    have h0 : b sq = opponent P := by simpa using hrun.1 0 (by omega)
    have hrun1 : Run b d P (sq + d) j := by
      refine ⟨fun i hi => ?_, ?_⟩
      · have := hrun.1 (i + 1) (by omega)
        rw [← this]; congr 1; push_cast; ring
      · intro h; apply hrun.2; rw [← h]; congr 1; push_cast; ring
    simp only [find_bracket_reads, if_pos h0]
    rw [ih (sq + d) n hrun1 (by omega), List.range_succ_eq_map (j + 1)]
    simp only [List.map_cons, List.map_map, Nat.cast_zero, zero_mul, add_zero]
    congr 1
    apply List.map_congr_left
    intro i _
    simp only [Function.comp, Nat.succ_eq_add_one, Nat.cast_add, Nat.cast_one]
    ring

/-- The cells `would_flip` reads are the first `j` cells of the ray, `j` being the number
of steps to the first cell that does not hold the opponent. -/
theorem would_flip_reads_of_first (b : Board) (m d P : Int) (j : Nat) (h1 : 1 ≤ j)
    (hj : j ≤ 100)
    (hrun : ∀ i : Nat, 1 ≤ i → i < j → b (m + (i : Int) * d) = opponent P)
    (hstop : b (m + (j : Int) * d) ≠ opponent P) :
    would_flip_reads b m d P
      = (List.range j).map (fun (i : Nat) => m + ((i : Int) + 1) * d) := by
  unfold would_flip_reads
  by_cases hj1 : j = 1
  · subst hj1
    have h0 : b (m + d) ≠ opponent P := by simpa using hstop
    have hr : List.range 1 = [0] := rfl
    simp [h0, hr]
  · have h0 : b (m + d) = opponent P := by simpa using hrun 1 (by omega) (by omega)
    have hrun2 : Run b d P (m + d + d) (j - 2) := by
      refine ⟨fun i hi => ?_, ?_⟩
      · have := hrun (i + 2) (by omega) (by omega)
        rw [← this]; congr 1; push_cast; ring
      · intro h; apply hstop; rw [← h]; congr 1
        have : ((j - 2 : Nat) : Int) = (j : Int) - 2 := by omega
        rw [this]; ring
    simp only [if_pos h0]
    rw [find_bracket_reads_run b d P (j - 2) (m + d + d) 100 hrun2 (by omega)]
    obtain ⟨k, rfl⟩ : ∃ k, j = k + 2 := ⟨j - 2, by omega⟩
    simp only [Nat.add_sub_cancel]
    rw [List.range_succ_eq_map (k + 1)]
    simp only [List.map_cons, List.map_map, Nat.cast_zero, zero_add, one_mul]
    congr 1
    apply List.map_congr_left
    intro i _
    simp only [Function.comp, Nat.succ_eq_add_one, Nat.cast_add, Nat.cast_one]
    ring

/-- The cells the flip loop writes when the bracketer is `j` steps ahead of `c`. -/
theorem flip_run_writes_spec (d : Int) (hd : d ≠ 0) :
    ∀ (j : Nat), 1 ≤ j → ∀ (n : Nat) (c : Int), j ≤ n →
      flip_run_writes d (c + (j : Int) * d) n c
        = (List.range j).map (fun (t : Nat) => c + (t : Int) * d) := by
  intro j
  induction j with
  | zero => intro h; omega
  | succ j ih =>
    intro _ n c hn
    obtain ⟨n, rfl⟩ : ∃ k, n = k + 1 := ⟨n - 1, by omega⟩
    by_cases hj : j = 0
    · subst hj
      have e : c + d = c + ((0 + 1 : Nat) : Int) * d := by push_cast; ring
      have hr : List.range 1 = [0] := rfl
      simp [flip_run_writes, e, hr]
    · have hne : c + d ≠ c + ((j + 1 : Nat) : Int) * d := by
        intro h
        have h2 : (j : Int) * d = 0 := by push_cast at h; linarith
        rcases mul_eq_zero.1 h2 with h3 | h3
        · omega
        · exact hd h3
      have e : c + ((j + 1 : Nat) : Int) * d = (c + d) + (j : Int) * d := by push_cast; ring
      simp only [flip_run_writes, if_pos hne]
      rw [e, ih (by omega) n (c + d) (by omega), List.range_succ_eq_map j]
      simp only [List.map_cons, List.map_map, Nat.cast_zero, zero_mul, add_zero]
      congr 1
      apply List.map_congr_left
      intro i _
      simp only [Function.comp, Nat.succ_eq_add_one, Nat.cast_add, Nat.cast_one]
      ring

/-- C38: on a well-formed board, for a playable square `m`, a direction `d` and a player
`P`, the walks of `would_flip`, `find_bracket_piece` and `make_flips` end and stay inside
the array.  `would_flip` and `find_bracket_piece` read the cells `m + d, .., m + j*d` for
some `j <= 8`, all with an index in 0..99; every cell before the last holds an opponent
piece, so the walk has stopped at the first cell that is `OUTER`, or before; eight loop
tests are enough for `find_bracket_piece`.  When `would_flip` reports a bracket, the loop
of `make_flips` ends within seven bodies, and every cell it writes is a playable square
that held an opponent piece. -/
theorem walks_stay_inside (b : Board) (hb : WellFormed b) (m d P : Int) (hm : validp m ≠ 0)
    (hd : d ∈ ALLDIRECTIONS) :
    (∃ j : Nat, 1 ≤ j ∧ j ≤ 8 ∧
      would_flip_reads b m d P
        = (List.range j).map (fun (i : Nat) => m + ((i : Int) + 1) * d) ∧
      (∀ i : Nat, i + 1 < j → b (m + ((i : Int) + 1) * d) = opponent P ∧
        b (m + ((i : Int) + 1) * d) ≠ OUTER)) ∧
    (∀ x ∈ would_flip_reads b m d P, 0 ≤ x ∧ x < 100) ∧
    (b (m + d) = opponent P → ∀ n : Nat, 8 ≤ n →
      find_bracket_piece_fuel b d P n (m + d + d) = some (would_flip b m d P)) ∧
    (would_flip b m d P ≠ 0 → ∀ n : Nat, 7 ≤ n →
      ∃ b1, flip_run_fuel d P (would_flip b m d P) n b (m + d) = some b1) ∧
    (∀ x ∈ make_flips_writes b m d P, 0 ≤ x ∧ x < 100 ∧ validp x ≠ 0 ∧ b x = opponent P) := by
  obtain ⟨j, h1, h8, hstop, hrun, hval, h0, h100, _, hfuel⟩ :=
    would_flip_char b hb.ringInv m d P hm hd
  have hreads := would_flip_reads_of_first b m d P j h1 (by omega) hrun hstop
  have hd0 := direction_ne_zero d hd
  refine ⟨⟨j, h1, h8, hreads, ?_⟩, ?_, hfuel, ?_, ?_⟩
  · intro i hi
    have e : m + ((i : Int) + 1) * d = m + ((i + 1 : Nat) : Int) * d := by push_cast; ring
    rw [e]
    have ho := hrun (i + 1) (by omega) hi
    exact ⟨ho, by rw [ho]; exact opponent_ne_outer P⟩
  · intro x hx
    rw [hreads, List.mem_map] at hx
    obtain ⟨i, hi, rfl⟩ := hx
    rw [List.mem_range] at hi
    have e : m + ((i : Int) + 1) * d = m + ((i + 1 : Nat) : Int) * d := by push_cast; ring
    rw [e]
    by_cases hij : i + 1 = j
    · rw [hij]; exact ⟨h0, h100⟩
    · have := (validp_ne_zero_iff _).1 (hval (i + 1) (by omega) (by omega))
      omega
  · intro hne n hn
    obtain ⟨k, hk2, hk8, hwk, _, hvalk, _⟩ := bracket_of_would_flip b hb.ringInv m d P hm hd hne
    have e : m + (k : Int) * d = m + d + ((k - 1 : Nat) : Int) * d := by
      have : ((k - 1 : Nat) : Int) = (k : Int) - 1 := by omega
      rw [this]; ring
    obtain ⟨b1, hb1, _⟩ := flip_run_fuel_spec d P hd0 (k - 1) (by omega) n b (m + d) (by omega)
      (by
        intro t ht
        have hv := (validp_ne_zero_iff _).1 (hvalk (t + 1) (by omega) (by omega))
        have e2 : m + d + (t : Int) * d = m + ((t + 1 : Nat) : Int) * d := by push_cast; ring
        rw [e2, hb.1]
        have h100n : ((100 : Nat) : Int) = 100 := rfl
        omega)
    exact ⟨b1, by rw [hwk, e]; exact hb1⟩
  · intro x hx
    unfold make_flips_writes at hx
    by_cases hne : would_flip b m d P = 0
    · simp [hne] at hx
    · obtain ⟨k, hk2, hk8, hwk, hrunk, hvalk, _⟩ :=
        bracket_of_would_flip b hb.ringInv m d P hm hd hne
      have e : m + (k : Int) * d = m + d + ((k - 1 : Nat) : Int) * d := by
        have : ((k - 1 : Nat) : Int) = (k : Int) - 1 := by omega
        rw [this]; ring
      simp only [hne, ne_eq, not_false_eq_true, if_true] at hx
      rw [hwk, e, flip_run_writes_spec d hd0 (k - 1) (by omega) 100 (m + d) (by omega),
        List.mem_map] at hx
      obtain ⟨t, ht, rfl⟩ := hx
      rw [List.mem_range] at ht
      have e2 : m + d + (t : Int) * d = m + ((t + 1 : Nat) : Int) * d := by push_cast; ring
      rw [e2]
      have hv := hvalk (t + 1) (by omega) (by omega)
      have hv2 := (validp_ne_zero_iff _).1 hv
      exact ⟨by omega, by omega, hv, hrunk (t + 1) (by omega) (by omega)⟩

/-- Witness of C38: square 34 of the initial board, direction 10, BLACK; the walk of
`find_bracket_piece` from 54 ends within eight loop tests. -/
theorem walks_stay_inside_witness :
    WellFormed initialise_board ∧ validp 34 ≠ 0 ∧ (10 : Int) ∈ ALLDIRECTIONS ∧
    initialise_board (34 + 10) = opponent BLACK ∧
    find_bracket_piece_fuel initialise_board 10 BLACK 8 (34 + 10 + 10)
      = some (would_flip initialise_board 34 10 BLACK) :=
  ⟨initialise_board_wellFormed, by decide, by decide, by decide!,
    (walks_stay_inside initialise_board initialise_board_wellFormed 34 10 BLACK (by decide)
      (by decide)).2.2.1 (by decide!) 8 (le_refl 8)⟩

/-! ## The worker -/

/-- One message leaves `alpha` where it was or raises it, and keeps it at or above the
local best score. -/
theorem worker_step_alpha (my_colour : Int) (depth : Nat) (comm_sz my_rank : Int)
    (msg : WMsg) (w : Worker) (h : w.best_move.2 ≤ w.alpha) :
    w.alpha ≤ (worker_step my_colour depth comm_sz my_rank msg w).alpha ∧
    (worker_step my_colour depth comm_sz my_rank msg w).best_move.2
      ≤ (worker_step my_colour depth comm_sz my_rank msg w).alpha := by
  cases msg with
  | send_move move =>
    simp only [worker_step]
    split_ifs <;> simp only <;> first | exact ⟨le_refl _, h⟩ | (constructor <;> omega)
  | send_alpha a =>
    simp only [worker_step]
    split_ifs
    · exact ⟨by simp only; omega, by simp only; omega⟩
    · exact ⟨le_refl _, h⟩
  | no_moves_left v => exact ⟨le_refl _, h⟩
  | timeout v => exact ⟨le_refl _, h⟩

theorem worker_loop_alpha (my_colour : Int) (depth : Nat) (comm_sz my_rank : Int) :
    ∀ (msgs : List WMsg) (w : Worker), w.best_move.2 ≤ w.alpha →
      w.alpha ≤ (worker_loop my_colour depth comm_sz my_rank msgs w).alpha ∧
      (worker_loop my_colour depth comm_sz my_rank msgs w).best_move.2
        ≤ (worker_loop my_colour depth comm_sz my_rank msgs w).alpha := by
  intro msgs
  induction msgs with
  | nil => intro w h; exact ⟨le_refl _, h⟩
  | cons msg rest ih =>
    intro w h
    unfold worker_loop
    split_ifs
    · obtain ⟨a1, a2⟩ := worker_step_alpha my_colour depth comm_sz my_rank msg w h
      obtain ⟨b1, b2⟩ := ih _ a2
      exact ⟨le_trans a1 b1, b2⟩
    · exact ⟨le_refl _, h⟩

/-- A message after which the timeout flag is set leaves `best_move` as it was. -/
theorem worker_step_timeout (my_colour : Int) (depth : Nat) (comm_sz my_rank : Int)
    (msg : WMsg) (w : Worker) (h0 : w.s.timeout = 0)
    (ht : (worker_step my_colour depth comm_sz my_rank msg w).s.timeout ≠ 0) :
    (worker_step my_colour depth comm_sz my_rank msg w).best_move = w.best_move ∧
    (worker_step my_colour depth comm_sz my_rank msg w).alpha = w.alpha := by
  cases msg with
  | send_move move =>
    simp only [worker_step] at ht ⊢
    split_ifs at ht ⊢ with h1 <;> first | exact ⟨rfl, rfl⟩ | exact (h1 ht).elim
  | send_alpha a =>
    simp only [worker_step] at ht ⊢
    split_ifs at ht ⊢
    · exact absurd h0 ht
    · exact absurd h0 ht
  | no_moves_left v => exact ⟨rfl, rfl⟩
  | timeout v => exact ⟨rfl, rfl⟩

theorem worker_loop_stopped (my_colour : Int) (depth : Nat) (comm_sz my_rank : Int)
    (msgs : List WMsg) (w : Worker) (h : w.s.timeout ≠ 0) :
    worker_loop my_colour depth comm_sz my_rank msgs w = w := by
  cases msgs with
  | nil => rfl
  | cons msg rest =>
    unfold worker_loop
    rw [if_neg (fun hc => h hc.2)]

/-- The spec-side pair: it is the pair before the list when no value of the list is
greater than its score, else the first move of greatest value with that value. -/
theorem first_best_spec (v : Int → Int) :
    ∀ (ms : List Int) (best : Int × Int),
      (first_best v ms best = best ∧ ∀ m ∈ ms, v m ≤ best.2) ∨
      (∃ pre m post, ms = pre ++ m :: post ∧ first_best v ms best = (m, v m) ∧
        best.2 < v m ∧ (∀ x ∈ pre, v x < v m) ∧ (∀ x ∈ post, v x ≤ v m)) := by
  intro ms
  induction ms with
  | nil => intro best; exact Or.inl ⟨rfl, fun m hm => by simp at hm⟩
  | cons m rest ih =>
    intro best
    simp only [first_best]
    by_cases h : v m > best.2
    · rw [if_pos h]
      rcases ih (m, v m) with ⟨e, hall⟩ | ⟨pre, m1, post, e1, e2, e3, e4, e5⟩
      · right
        exact ⟨[], m, rest, rfl, e, h, fun x hx => by simp at hx, hall⟩
      · right
        simp only at e3
        refine ⟨m :: pre, m1, post, by rw [e1]; rfl, e2, by omega, ?_, e5⟩
        intro x hx
        rcases List.mem_cons.1 hx with rfl | hx
        · exact e3
        · exact e4 x hx
    · rw [if_neg h]
      rcases ih best with ⟨e, hall⟩ | ⟨pre, m1, post, e1, e2, e3, e4, e5⟩
      · left
        refine ⟨e, fun x hx => ?_⟩
        rcases List.mem_cons.1 hx with rfl | hx
        · omega
        · exact hall x hx
      · right
        refine ⟨m :: pre, m1, post, by rw [e1]; rfl, e2, e3, ?_, e5⟩
        intro x hx
        rcases List.mem_cons.1 hx with rfl | hx
        · omega
        · exact e4 x hx

/-- A root move handed to a worker whose `alpha` is its local best score, with no
timeout: the worker is left quiet on the same board, `alpha` is again the local best
score, and the pair is updated as by one step of `first_best` over the plain minimax
values. -/
theorem worker_step_move (my_colour : Int) (depth : Nat) (comm_sz my_rank : Int) (B : Board)
    (hB : WellFormed B) (hcol : my_colour = BLACK ∨ my_colour = WHITE) (m : Int)
    (hm : m ∈ (legal_moves B my_colour).tail) (w : Worker) (hq : Quiet w.s)
    (hb : w.s.board = B) (hc : w.board_copy = copy_board B zeroMem)
    (hmc : w.s.max_colour = my_colour) (ha : w.alpha = w.best_move.2)
    (hhi : w.alpha < 1000000) :
    Quiet (worker_step my_colour depth comm_sz my_rank (WMsg.send_move m) w).s ∧
    (worker_step my_colour depth comm_sz my_rank (WMsg.send_move m) w).s.board = B ∧
    (worker_step my_colour depth comm_sz my_rank (WMsg.send_move m) w).board_copy
      = copy_board B zeroMem ∧
    (worker_step my_colour depth comm_sz my_rank (WMsg.send_move m) w).s.max_colour
      = my_colour ∧
    (worker_step my_colour depth comm_sz my_rank (WMsg.send_move m) w).alpha
      = (worker_step my_colour depth comm_sz my_rank (WMsg.send_move m) w).best_move.2 ∧
    (worker_step my_colour depth comm_sz my_rank (WMsg.send_move m) w).alpha < 1000000 ∧
    (worker_step my_colour depth comm_sz my_rank (WMsg.send_move m) w).no_moves_left
      = w.no_moves_left ∧
    (worker_step my_colour depth comm_sz my_rank (WMsg.send_move m) w).best_move
      = (if plain_minimax my_colour depth (opponent my_colour) (make_move B m my_colour)
            > w.best_move.2
         then (m, plain_minimax my_colour depth (opponent my_colour) (make_move B m my_colour))
         else w.best_move) := by
  obtain ⟨⟨board, mc, tmo, inbox, gc⟩, bc, best, alpha, nml, sent⟩ := w
  simp only at hb hc hmc ha hhi hq
  subst hb hc hmc ha
  have hv := ((mem_legal_moves_tail _ _ _).1 hm).1
  have hwf1 : WellFormed (make_move board m mc) := make_move_wellFormed board hB m mc hv hcol
  have hq1 : Quiet (⟨make_move board m mc, mc, tmo, inbox, gc⟩ : State) := hq
  obtain ⟨rq, rc⟩ := minimax_window depth (opponent mc) best.2 1000000
    ⟨make_move board m mc, mc, tmo, inbox, gc⟩ hq1 hwf1 (opponent_player mc hcol) hhi
  obtain ⟨rb, rm⟩ := minimax_frame depth (opponent mc) best.2 1000000
    ⟨make_move board m mc, mc, tmo, inbox, gc⟩ hwf1 (opponent_player mc hcol)
  have hcases := contract_cases _ _ _ _ rc
  have hbound := plain_minimax_bound mc depth (opponent mc) (make_move board m mc)
  have hrest : copy_board (copy_board board zeroMem)
      (minimax depth (opponent mc) best.2 1000000
        ⟨make_move board m mc, mc, tmo, inbox, gc⟩).2.board = board := by
    apply copy_board_restore board _ hB.1
    rw [rb]
    exact hwf1.1
  have ht : ¬ (minimax depth (opponent mc) best.2 1000000
      ⟨make_move board m mc, mc, tmo, inbox, gc⟩).2.timeout ≠ 0 := by simp [rq.1]
  simp only [worker_step, if_neg ht, hrest]
  simp only at rc rb rm hcases hbound
  generalize (minimax depth (opponent mc) best.2 1000000
      ⟨make_move board m mc, mc, tmo, inbox, gc⟩) = r at rq rb rm hcases ⊢
  generalize plain_minimax mc depth (opponent mc) (make_move board m mc) = v at hcases hbound ⊢
  by_cases hgt : v > best.2
  · have hr : r.1 = v := by omega
    have h1 : r.1 > best.2 := by omega
    rw [if_pos hgt]
    simp only [h1, if_true]
    exact ⟨rq, trivial, trivial, rm, trivial, by omega, trivial, by rw [hr]⟩
  · have h1 : ¬ r.1 > best.2 := by omega
    rw [if_neg hgt]
    simp only [h1, if_false]
    rw [if_neg (by omega)]
    exact ⟨rq, rfl, rfl, rm, rfl, hhi, rfl, rfl⟩

theorem worker_loop_cons (my_colour : Int) (depth : Nat) (comm_sz my_rank : Int)
    (msg : WMsg) (rest : List WMsg) (w : Worker) (h1 : w.no_moves_left = 0)
    (h2 : w.s.timeout = 0) :
    worker_loop my_colour depth comm_sz my_rank (msg :: rest) w
      = worker_loop my_colour depth comm_sz my_rank rest
          (worker_step my_colour depth comm_sz my_rank msg w) := by
  rw [worker_loop, if_pos ⟨h1, h2⟩]

theorem worker_loop_halt (my_colour : Int) (depth : Nat) (comm_sz my_rank : Int)
    (msgs : List WMsg) (w : Worker) (h : ¬ (w.no_moves_left = 0 ∧ w.s.timeout = 0)) :
    worker_loop my_colour depth comm_sz my_rank msgs w = w := by
  cases msgs with
  | nil => rfl
  | cons msg rest => rw [worker_loop, if_neg h]

theorem worker_loop_append (my_colour : Int) (depth : Nat) (comm_sz my_rank : Int) :
    ∀ (xs ys : List WMsg) (w : Worker),
      worker_loop my_colour depth comm_sz my_rank (xs ++ ys) w
        = worker_loop my_colour depth comm_sz my_rank ys
            (worker_loop my_colour depth comm_sz my_rank xs w) := by
  intro xs
  induction xs with
  | nil => intro ys w; rfl
  | cons x rest ih =>
    intro ys w
    by_cases h : w.no_moves_left = 0 ∧ w.s.timeout = 0
    · rw [List.cons_append, worker_loop_cons _ _ _ _ _ _ _ h.1 h.2,
        worker_loop_cons _ _ _ _ _ _ _ h.1 h.2, ih]
    · rw [worker_loop_halt _ _ _ _ (x :: rest) w h, worker_loop_halt _ _ _ _ (x :: rest ++ ys) w h,
        worker_loop_halt _ _ _ _ ys w h]

/-- A list of root moves handed to a worker with no timeout: the pair is folded as by
`first_best` over the plain minimax values, and the worker stays ready for the next
message. -/
theorem worker_loop_moves (my_colour : Int) (depth : Nat) (comm_sz my_rank : Int) (B : Board)
    (hB : WellFormed B) (hcol : my_colour = BLACK ∨ my_colour = WHITE) :
    ∀ (ms : List Int), (∀ m ∈ ms, m ∈ (legal_moves B my_colour).tail) →
      ∀ (w : Worker), Quiet w.s → w.s.board = B → w.board_copy = copy_board B zeroMem →
        w.s.max_colour = my_colour → w.alpha = w.best_move.2 → w.alpha < 1000000 →
        w.no_moves_left = 0 →
        (worker_loop my_colour depth comm_sz my_rank (ms.map WMsg.send_move) w).best_move
          = first_best (fun m => plain_minimax my_colour depth (opponent my_colour)
              (make_move B m my_colour)) ms w.best_move ∧
        (worker_loop my_colour depth comm_sz my_rank (ms.map WMsg.send_move) w).alpha
          = (worker_loop my_colour depth comm_sz my_rank (ms.map WMsg.send_move) w).best_move.2 ∧
        (worker_loop my_colour depth comm_sz my_rank (ms.map WMsg.send_move) w).no_moves_left
          = 0 ∧
        (worker_loop my_colour depth comm_sz my_rank (ms.map WMsg.send_move) w).s.timeout
          = 0 := by
  intro ms
  induction ms with
  | nil =>
    intro _ w hq _ _ _ ha _ hn
    exact ⟨rfl, ha, hn, hq.1⟩
  | cons m rest ih =>
    intro hms w hq hb hc hmc ha hhi hn
    obtain ⟨s1, s2, s3, s4, s5, s6, s7, s8⟩ := worker_step_move my_colour depth comm_sz my_rank
      B hB hcol m (hms m (List.mem_cons_self _ _)) w hq hb hc hmc ha hhi
    have ih1 := ih (fun x hx => hms x (List.mem_cons_of_mem _ hx)) _ s1 s2 s3 s4 s5 s6
      (by rw [s7]; exact hn)
    rw [List.map_cons, worker_loop_cons _ _ _ _ _ _ _ hn hq.1]
    rw [s8] at ih1
    exact ih1

theorem worker_step_timeout_msg (my_colour : Int) (depth : Nat) (comm_sz my_rank : Int)
    (v : Int) (w : Worker) :
    (worker_step my_colour depth comm_sz my_rank (WMsg.timeout v) w).s.timeout = v ∧
    (worker_step my_colour depth comm_sz my_rank (WMsg.timeout v) w).best_move = w.best_move :=
  ⟨rfl, rfl⟩

theorem worker_start_ready (b : Board) (c : Int) (inbox : List Bool) :
    (worker_start b c inbox).no_moves_left = 0 ∧ (worker_start b c inbox).s.timeout = 0 ∧
    (worker_start b c inbox).best_move = (-1, -1000000) ∧
    (worker_start b c inbox).alpha = -1000000 ∧ (worker_start b c inbox).s.board = b ∧
    (worker_start b c inbox).board_copy = copy_board b zeroMem ∧
    (worker_start b c inbox).s.max_colour = c ∧ (worker_start b c inbox).s.inbox = inbox :=
  ⟨rfl, rfl, rfl, rfl, rfl, rfl, rfl, rfl⟩

/-- C35: a worker starts a depth iteration on a well-formed board `B` with its own colour
`my_colour`, meets no TIMEOUT and no SEND_ALPHA, and is handed the root moves
`ms = m1..mk` (`k ≥ 1`, each legal for its colour) in this order. With `v m` the
unpruned minimax value of root move `m` at that depth, its pair is then the fold
`first_best v ms (-1, -1000000)`; this pair is `(m, v m)` for a move `m` of the list
whose value is the maximum of the values and which is the first one that attains it
(every earlier move of the list has a strictly smaller value); the score is also the
worker's `alpha`; and a NO_MOVES_LEFT message after the moves leaves the pair as it is. -/
theorem worker_best (B : Board) (my_colour : Int) (depth : Nat) (comm_sz my_rank : Int)
    (inbox : List Bool) (ms : List Int) (hB : WellFormed B)
    (hcol : my_colour = BLACK ∨ my_colour = WHITE) (hin : ∀ x ∈ inbox, x = false)
    (hne : ms ≠ []) (hms : ∀ m ∈ ms, m ∈ (legal_moves B my_colour).tail) :
    (worker_loop my_colour depth comm_sz my_rank (ms.map WMsg.send_move)
        (worker_start B my_colour inbox)).best_move
      = first_best (fun m => plain_minimax my_colour depth (opponent my_colour)
          (make_move B m my_colour)) ms (-1, -1000000) ∧
    (∃ pre m post, ms = pre ++ m :: post ∧
      (worker_loop my_colour depth comm_sz my_rank (ms.map WMsg.send_move)
          (worker_start B my_colour inbox)).best_move
        = (m, plain_minimax my_colour depth (opponent my_colour) (make_move B m my_colour)) ∧
      (∀ x ∈ ms, plain_minimax my_colour depth (opponent my_colour) (make_move B x my_colour)
        ≤ plain_minimax my_colour depth (opponent my_colour) (make_move B m my_colour)) ∧
      (∀ x ∈ pre, plain_minimax my_colour depth (opponent my_colour) (make_move B x my_colour)
        < plain_minimax my_colour depth (opponent my_colour) (make_move B m my_colour))) ∧
    (worker_loop my_colour depth comm_sz my_rank (ms.map WMsg.send_move)
        (worker_start B my_colour inbox)).alpha
      = (worker_loop my_colour depth comm_sz my_rank (ms.map WMsg.send_move)
          (worker_start B my_colour inbox)).best_move.2 ∧
    (worker_loop my_colour depth comm_sz my_rank
        (ms.map WMsg.send_move ++ [WMsg.no_moves_left TRUE])
        (worker_start B my_colour inbox)).best_move
      = (worker_loop my_colour depth comm_sz my_rank (ms.map WMsg.send_move)
          (worker_start B my_colour inbox)).best_move := by
  have hq : Quiet (worker_start B my_colour inbox).s := ⟨rfl, hin⟩
  obtain ⟨e1, e2, e3, e4⟩ := worker_loop_moves my_colour depth comm_sz my_rank B hB hcol ms hms
    (worker_start B my_colour inbox) hq rfl rfl rfl rfl
    (by show (-1000000 : Int) < 1000000; omega) rfl
  have e0 : (worker_start B my_colour inbox).best_move = (-1, -1000000) := rfl
  rw [e0] at e1
  refine ⟨e1, ?_, e2, ?_⟩
  · rw [e1]
    rcases first_best_spec (fun m => plain_minimax my_colour depth (opponent my_colour)
        (make_move B m my_colour)) ms (-1, -1000000) with ⟨_, hall⟩ | ⟨pre, m, post, h1, h2, h3, h4, h5⟩
    · exfalso
      obtain ⟨x, rest, rfl⟩ := List.exists_cons_of_ne_nil hne
      have h := hall x (List.mem_cons_self _ _)
      have hb := (plain_minimax_bound my_colour depth (opponent my_colour)
        (make_move B x my_colour)).1
      simp only at h
      omega
    · refine ⟨pre, m, post, h1, h2, ?_, h4⟩
      intro x hx
      rw [h1] at hx
      rcases List.mem_append.1 hx with hx | hx
      · exact le_of_lt (h4 x hx)
      · rcases List.mem_cons.1 hx with rfl | hx
        · exact le_refl _
        · exact h5 x hx
  · rw [worker_loop_append, worker_loop_cons _ _ _ _ _ _ _ e3 e4]
    rfl

theorem worker_best_witness :
    WellFormed initialise_board ∧
    (∀ m ∈ ([34, 43] : List Int), m ∈ (legal_moves initialise_board BLACK).tail) ∧
    (worker_loop BLACK 6 2 1 (([34, 43] : List Int).map WMsg.send_move)
        (worker_start initialise_board BLACK [])).best_move
      = first_best (fun m => plain_minimax BLACK 6 (opponent BLACK)
          (make_move initialise_board m BLACK)) [34, 43] (-1, -1000000) :=
  ⟨initialise_board_wellFormed, by decide!,
    (worker_best initialise_board BLACK 6 2 1 [] [34, 43] initialise_board_wellFormed
      (Or.inl rfl) (fun x hx => by simp at hx) (by simp) (by decide!)).1⟩

/-- C36, counterexample: at the first depth of an iteration (depth 6) on the initial
board, a BLACK worker finishes the root move 34 and then receives TIMEOUT while waiting
for work. It leaves the loop with the timeout flag set and the pair (34, value of 34),
which is what the gather sends, not the placeholder (-1, -1000000). -/
theorem timeout_placeholder_counterexample :
    34 ∈ (legal_moves initialise_board BLACK).tail ∧
    (worker_loop BLACK 6 2 1 [WMsg.send_move 34, WMsg.timeout TRUE]
        (worker_start initialise_board BLACK [])).s.timeout ≠ 0 ∧
    (worker_loop BLACK 6 2 1 [WMsg.send_move 34, WMsg.timeout TRUE]
        (worker_start initialise_board BLACK [])).best_move
      = (34, plain_minimax BLACK 6 WHITE (make_move initialise_board 34 BLACK)) ∧
    (worker_loop BLACK 6 2 1 [WMsg.send_move 34, WMsg.timeout TRUE]
        (worker_start initialise_board BLACK [])).best_move ≠ (-1, -1000000) := by
  have hl : 34 ∈ (legal_moves initialise_board BLACK).tail := by decide!
  obtain ⟨r1, r2, r3, r4, r5, r6, r7, r8⟩ := worker_start_ready initialise_board BLACK []
  obtain ⟨e1, _, e3, e4⟩ := worker_loop_moves BLACK 6 2 1 initialise_board
    initialise_board_wellFormed (Or.inl rfl) [34] (fun m hm => by
      rw [List.mem_singleton.1 hm]; exact hl)
    (worker_start initialise_board BLACK []) ⟨r2, fun x hx => by rw [r8] at hx; simp at hx⟩
    r5 r6 r7 (by rw [r4, r3]) (by rw [r4]; omega) r1
  have hb := (plain_minimax_bound BLACK 6 (opponent BLACK) (make_move initialise_board 34 BLACK)).1
  have e0 : (worker_start initialise_board BLACK []).best_move = (-1, -1000000) := r3
  have ho : opponent BLACK = WHITE := by decide
  rw [e0] at e1
  simp only [first_best] at e1
  rw [if_pos hb, ho] at e1
  have hsplit : worker_loop BLACK 6 2 1 [WMsg.send_move 34, WMsg.timeout TRUE]
      (worker_start initialise_board BLACK [])
      = worker_step BLACK 6 2 1 (WMsg.timeout TRUE)
          (worker_loop BLACK 6 2 1 (([34] : List Int).map WMsg.send_move)
            (worker_start initialise_board BLACK [])) := by
    have h := worker_loop_append BLACK 6 2 1 (([34] : List Int).map WMsg.send_move)
      [WMsg.timeout TRUE] (worker_start initialise_board BLACK [])
    rw [worker_loop_cons _ _ _ _ _ _ _ e3 e4] at h
    exact h
  rw [hsplit, (worker_step_timeout_msg BLACK 6 2 1 TRUE _).1,
    (worker_step_timeout_msg BLACK 6 2 1 TRUE _).2, e1]
  refine ⟨hl, TRUE_ne_zero, rfl, ?_⟩
  intro h
  have h2 := congrArg Prod.fst h
  simp at h2

/-- C36, amended: when a worker in its message loop (no NO_MOVES_LEFT so far, timeout
flag clear) handles a message after which the timeout flag is set (a TIMEOUT message
while it waits for work, or a root move whose evaluation observes the timeout), it
leaves the loop at once with the flag set, and the pair it holds for the gather is the
pair it held before that message: its best over the root moves it had finished at that
depth, the placeholder only when none raised it. Nothing of the interrupted root move
enters the pair or `alpha`. -/
theorem timeout_keeps_best (my_colour : Int) (depth : Nat) (comm_sz my_rank : Int)
    (msg : WMsg) (rest : List WMsg) (w : Worker) (hn : w.no_moves_left = 0)
    (h0 : w.s.timeout = 0)
    (ht : (worker_step my_colour depth comm_sz my_rank msg w).s.timeout ≠ 0) :
    (worker_loop my_colour depth comm_sz my_rank (msg :: rest) w).s.timeout ≠ 0 ∧
    (worker_loop my_colour depth comm_sz my_rank (msg :: rest) w).best_move = w.best_move ∧
    (worker_loop my_colour depth comm_sz my_rank (msg :: rest) w).alpha = w.alpha ∧
    (w.best_move = (-1, -1000000) →
      (worker_loop my_colour depth comm_sz my_rank (msg :: rest) w).best_move
        = (-1, -1000000)) := by
  rw [worker_loop_cons _ _ _ _ _ _ _ hn h0, worker_loop_stopped _ _ _ _ _ _ ht]
  obtain ⟨e1, e2⟩ := worker_step_timeout my_colour depth comm_sz my_rank msg w h0 ht
  exact ⟨ht, e1, e2, fun h => by rw [e1]; exact h⟩

theorem timeout_keeps_best_witness :
    (worker_start initialise_board BLACK [true]).no_moves_left = 0 ∧
    (worker_start initialise_board BLACK [true]).s.timeout = 0 ∧
    (worker_step BLACK 6 2 1 (WMsg.send_move 34)
      (worker_start initialise_board BLACK [true])).s.timeout ≠ 0 ∧
    (worker_loop BLACK 6 2 1 [WMsg.send_move 34, WMsg.send_move 43]
      (worker_start initialise_board BLACK [true])).best_move = (-1, -1000000) :=
  ⟨(worker_start_ready initialise_board BLACK [true]).1,
    (worker_start_ready initialise_board BLACK [true]).2.1, by decide!,
    (timeout_keeps_best BLACK 6 2 1 (WMsg.send_move 34) [WMsg.send_move 43]
      (worker_start initialise_board BLACK [true])
      (worker_start_ready initialise_board BLACK [true]).1
      (worker_start_ready initialise_board BLACK [true]).2.1 (by decide!)).2.1⟩

/-- C37: in one depth iteration of a worker (from `worker_start`, over any messages),
`alpha` after a prefix of the messages is at most `alpha` after any longer run, and the
local best score is at most `alpha` at every point. A SEND_ALPHA value replaces `alpha`
exactly when it is strictly greater, and never touches the pair; a root move leaves
`alpha` as it was or raises it to the new local best score, which then exceeds the old
`alpha`; NO_MOVES_LEFT and TIMEOUT leave `alpha` as it was. -/
theorem alpha_monotone (my_colour : Int) (depth : Nat) (comm_sz my_rank : Int) (b : Board)
    (inbox : List Bool) (pre post : List WMsg) :
    (worker_loop my_colour depth comm_sz my_rank pre (worker_start b my_colour inbox)).alpha
      ≤ (worker_loop my_colour depth comm_sz my_rank (pre ++ post)
          (worker_start b my_colour inbox)).alpha ∧
    (worker_loop my_colour depth comm_sz my_rank pre
        (worker_start b my_colour inbox)).best_move.2
      ≤ (worker_loop my_colour depth comm_sz my_rank pre
          (worker_start b my_colour inbox)).alpha ∧
    (∀ (w : Worker) (a : Int),
      (worker_step my_colour depth comm_sz my_rank (WMsg.send_alpha a) w).alpha
        = (if a > w.alpha then a else w.alpha) ∧
      (worker_step my_colour depth comm_sz my_rank (WMsg.send_alpha a) w).best_move
        = w.best_move) ∧
    (∀ (w : Worker) (m : Int),
      (worker_step my_colour depth comm_sz my_rank (WMsg.send_move m) w).alpha = w.alpha ∨
      (w.alpha < (worker_step my_colour depth comm_sz my_rank (WMsg.send_move m) w).alpha ∧
        (worker_step my_colour depth comm_sz my_rank (WMsg.send_move m) w).alpha
          = (worker_step my_colour depth comm_sz my_rank (WMsg.send_move m) w).best_move.2)) ∧
    (∀ (w : Worker) (v : Int),
      (worker_step my_colour depth comm_sz my_rank (WMsg.no_moves_left v) w).alpha = w.alpha ∧
      (worker_step my_colour depth comm_sz my_rank (WMsg.timeout v) w).alpha = w.alpha) := by
  have hstart : (worker_start b my_colour inbox).best_move.2
      ≤ (worker_start b my_colour inbox).alpha := le_refl _
  obtain ⟨_, p2⟩ := worker_loop_alpha my_colour depth comm_sz my_rank pre _ hstart
  obtain ⟨q1, _⟩ := worker_loop_alpha my_colour depth comm_sz my_rank post _ p2
  refine ⟨?_, p2, ?_, ?_, fun w v => ⟨rfl, rfl⟩⟩
  · rw [worker_loop_append]
    exact q1
  · intro w a
    simp only [worker_step]
    split_ifs <;> exact ⟨rfl, rfl⟩
  · intro w m
    simp only [worker_step]
    split_ifs with h1 h2 h3 h3
    · exact Or.inl rfl
    · exact Or.inr ⟨h3, rfl⟩
    · exact Or.inl rfl
    · exact Or.inr ⟨h3, rfl⟩
    · exact Or.inl rfl

end Othello
